import Mathlib

/-!
# Shallow embedding of `src/graph.cpp` (finite-automaton engine)

Conventions of the embedding.

* `Graph::State`, an `int`, is modelled as an `Int` (the source stores `-1`
  placeholders in it, so the type must hold negative values). States are
  indices of the table except where they are read from a text: `std::stoi` is
  modelled with the range of `int`, and the statement about the text written
  by `dump` is for automata of at most `2 ^ 31` states.
* `std::vector<T>` is a `List T`; `v.at(i)` is `vat v i`, which is `none`
  exactly where `at` throws `std::out_of_range`.
* `std::set<State>` is a strictly increasing `List Int`; `insert` is
  `set_insert`, iteration is iteration over the list (ascending order).
* A function that can throw, abort or run a worklist loop returns an
  `Option`; worklist loops recurse structurally on a fuel counter that the
  calling function supplies.
* The table-filling loop of `grouped_nondistinguishable` reads the front of its
  queue through a reference after `pop()`. Its queue is therefore modelled
  with the storage layout of the `std::deque` of libstdc++ (see `front_ref`),
  and its table `std::vector<bool>` as a `BoolTable`.
-/

namespace Homfa

/-- Symbols of the binary alphabet: `false` is symbol 0, `true` is symbol 1. -/
abbrev Word := List Bool

/-- Bounds-checked read `v.at(i)`. -/
def vat {α : Type} (v : List α) (i : Int) : Option α :=
  if i < 0 then none else v[i.toNat]?

/-- Bounds-checked write `v.at(i) = x`. -/
def vset {α : Type} (v : List α) (i : Int) (x : α) : Option (List α) :=
  if i < 0 then none
  else if i.toNat < v.length then some (v.set i.toNat x) else none

/-- Insertion into a `std::set<Int>`: the list stays strictly increasing. -/
def set_insert : List Int → Int → List Int
  | [], x => [x]
  | y :: ys, x =>
    if x < y then x :: y :: ys
    else if x = y then y :: ys
    else y :: set_insert ys x

/-- Range insertion `s.insert(first, last)`. -/
def set_insert_all (s : List Int) (xs : List Int) : List Int :=
  xs.foldl set_insert s

/-- Membership test `s.contains(x)`. -/
def set_contains (s : List Int) (x : Int) : Bool :=
  s.contains x

/-- The type `Graph::DFADelta`: entries `(q, child0, child1)`. -/
abbrev DFADelta := List (Int × Int × Int)

/-- The type `Graph::NFADelta`: entries `(q, successors0, successors1)`. -/
abbrev NFADelta := List (Int × List Int × List Int)

/-- One row of `Graph::table_`. -/
structure TableItem where
  index : Int
  child0 : Int
  child1 : Int
  parents0 : List Int
  parents1 : List Int
  deriving DecidableEq, Repr

/-- The class `Graph`. -/
structure Graph where
  table_ : List TableItem
  states_at_depth_ : List (List Int)
  final_state_ : List Int
  init_state_ : Int
  deriving DecidableEq, Repr

/-- The statement `table_.at(child).parentsX.push_back(index)` of the
constructor (`input = false` for `parents0`, `true` for `parents1`). -/
def push_parent (table : List TableItem) (child : Int) (input : Bool)
    (index : Int) : Option (List TableItem) :=
  match vat table child with
  | none => none
  | some t =>
    vset table child
      (if input then { t with parents1 := t.parents1 ++ [index] }
       else { t with parents0 := t.parents0 ++ [index] })

/-- One iteration of the second loop of the constructor. The loop only
appends to `parents0`/`parents1`, so the fields `index`, `child0`, `child1`
of `item` are those stored by the first loop. -/
def link_item (table : List TableItem) (item : TableItem) :
    Option (List TableItem) :=
  (push_parent table item.child0 false item.index).bind
    (fun t => push_parent t item.child1 true item.index)

/-- The second loop of the constructor over the rows `items`. -/
def link_items : List TableItem → List TableItem → Option (List TableItem)
  | [], table => some table
  | item :: rest, table => (link_item table item).bind (link_items rest)

/-- The constructor `Graph::Graph(init_st, final_sts, delta)` (a Lean structure
cannot have a function of its own name, hence `ctor`). -/
def Graph.ctor (init_st : Int) (final_sts : List Int) (delta : DFADelta) :
    Option Graph :=
  let table0 : List TableItem :=
    delta.map (fun e => TableItem.mk e.1 e.2.1 e.2.2 [] [])
  (link_items table0 table0).map
    (fun table => Graph.mk table [] final_sts init_st)

/-- The method `Graph::size`. -/
def Graph.size (g : Graph) : Nat := g.table_.length

/-- The method `Graph::is_final_state`. -/
def Graph.is_final_state (g : Graph) (state : Int) : Bool :=
  set_contains g.final_state_ state

/-- The method `Graph::next_state`. -/
def Graph.next_state (g : Graph) (state : Int) (input : Bool) : Option Int :=
  (vat g.table_ state).map (fun t => if input then t.child1 else t.child0)

/-- The method `Graph::prev_states`. -/
def Graph.prev_states (g : Graph) (state : Int) (input : Bool) :
    Option (List Int) :=
  (vat g.table_ state).map (fun t => if input then t.parents1 else t.parents0)

/-- The method `Graph::initial_state`. -/
def Graph.initial_state (g : Graph) : Int := g.init_state_

/-- The method `Graph::all_states`: `0, 1, ..., size() - 1`. -/
def Graph.all_states (g : Graph) : List Int :=
  (List.range g.size).map Int.ofNat

/-! ## Reading a word (specification-level semantics) -/

/-- The state reached from `q` after reading `w`, following `next_state`. -/
def Graph.run (g : Graph) : Int → Word → Option Int
  | q, [] => some q
  | q, b :: w => (g.next_state q b).bind (fun r => g.run r w)

/-- Whether reading `w` from state `q` ends in a final state. -/
def Graph.accepts_from (g : Graph) (q : Int) (w : Word) : Bool :=
  match g.run q w with
  | some r => g.is_final_state r
  | none => false

/-- Whether the automaton reaches a final state on `w` from its initial state. -/
def Graph.accepts (g : Graph) (w : Word) : Bool :=
  g.accepts_from g.initial_state w

/-- A state is in range when it is one of `0 .. size - 1`. -/
def Graph.in_range (g : Graph) (q : Int) : Prop :=
  0 ≤ q ∧ q < (g.size : Int)

instance (g : Graph) (q : Int) : Decidable (g.in_range q) := by
  unfold Graph.in_range; infer_instance

/-- The invariant of row `i` of the table: it carries index `i`, both children
are in range, and each predecessor list holds, without repetition, exactly the
states whose transition on that symbol leads to `i`. -/
def Graph.row_ok (g : Graph) (i : Nat) (t : TableItem) : Prop :=
  t.index = (i : Int) ∧ g.in_range t.child0 ∧ g.in_range t.child1 ∧
  t.parents0.Nodup ∧ t.parents1.Nodup ∧
  (∀ q ∈ t.parents0, g.next_state q false = some (i : Int)) ∧
  (∀ q ∈ g.all_states, g.next_state q false = some (i : Int) → q ∈ t.parents0) ∧
  (∀ q ∈ t.parents1, g.next_state q true = some (i : Int)) ∧
  (∀ q ∈ g.all_states, g.next_state q true = some (i : Int) → q ∈ t.parents1)

instance (g : Graph) (i : Nat) (t : TableItem) : Decidable (g.row_ok i t) := by
  unfold Graph.row_ok; infer_instance

/-- Well-formedness of an automaton: every row satisfies `row_ok` (transitions
in range, predecessor lists the exact inverse of the transitions), the initial
state is in range, and the final-state set is a strictly increasing list of
states in range. -/
def Graph.well_formed (g : Graph) : Prop :=
  (∀ i ∈ List.range g.size, ∀ t ∈ g.table_[i]?, g.row_ok i t) ∧
  g.in_range g.init_state_ ∧
  g.final_state_.Sorted (· < ·) ∧
  (∀ q ∈ g.final_state_, g.in_range q)

instance (g : Graph) : Decidable g.well_formed := by
  unfold Graph.well_formed; infer_instance

/-! ## Auxiliary definitions used in the proofs about the constructor -/

/-- The row stored for `t` once the rows `pre` have been linked. -/
def linked_row (pre : List TableItem) (t : TableItem) : TableItem :=
  { index := t.index, child0 := t.child0, child1 := t.child1,
    parents0 := t.parents0 ++ (pre.filter (fun p => p.child0 = t.index)).map (·.index),
    parents1 := t.parents1 ++ (pre.filter (fun p => p.child1 = t.index)).map (·.index) }

/-- The rows the first loop of the constructor stores for `delta`. -/
def initial_rows (delta : DFADelta) : List TableItem :=
  delta.map (fun e => TableItem.mk e.1 e.2.1 e.2.2 [] [])

/-- The table the constructor ends with for `delta`. -/
def built_table (delta : DFADelta) : List TableItem :=
  (initial_rows delta).map (linked_row (initial_rows delta))

/-- A transition list the constructor accepts: entry `i` carries index `i`
and both children are in range. -/
def delta_ok (delta : DFADelta) : Prop :=
  (∀ i ∈ List.range delta.length, ∀ e ∈ delta[i]?, e.1 = (i : Int)) ∧
  ∀ e ∈ delta, (0 ≤ e.2.1 ∧ e.2.1 < (delta.length : Int)) ∧
               (0 ≤ e.2.2 ∧ e.2.2 < (delta.length : Int))

instance (delta : DFADelta) : Decidable (delta_ok delta) := by
  unfold delta_ok; infer_instance

end Homfa

namespace Homfa

/-! ## Determinization: `Graph::from_nfa` -/

/-- The lambda `get_or_create_state` of `from_nfa`. It reads and updates the
captured `st_map` and `df`; the result is the state id with the new values of
both. -/
def get_or_create_state (st_map : List (List Int × Int)) (df : DFADelta) (qs : List Int) :
    Int × List (List Int × Int) × DFADelta :=
  match st_map.lookup qs with
  | some qsd => (qsd, st_map, df)
  | none =>
    let qsd : Int := (df.length : Int)
    (qsd, st_map ++ [(qs, qsd)], df ++ [(qsd, -1, -1)])

/-- The local variables of `from_nfa` that its worklist loop updates. -/
structure NfaLoop where
  st_map : List (List Int × Int)
  df : DFADelta
  Ff : List Int
  visited : List (List Int)
  que : List (List Int)
  deriving DecidableEq, Repr

/-- The loop `for (State q : qs)` of `from_nfa`, which accumulates `qs0` and
`qs1`; `dn.at(q)` throws for a state out of range. -/
def nfa_successors (dn : NFADelta) : List Int → List Int × List Int →
    Option (List Int × List Int)
  | [], acc => some acc
  | q :: rest, acc =>
    match vat dn q with
    | none => none
    | some e =>
      nfa_successors dn rest (set_insert_all acc.1 e.2.1, set_insert_all acc.2 e.2.2)

/-- The body of the worklist loop of `from_nfa` once `qs` has been popped and
`rest` is what remains of the queue. -/
def from_nfa_step (Fn : List Int) (dn : NFADelta) (s : NfaLoop) (qs : List Int)
    (rest : List (List Int)) : Option NfaLoop :=
  if s.visited.contains qs then some { s with que := rest }
  else
    match nfa_successors dn qs ([], []) with
    | none => none
    | some (qs0, qs1) =>
      let final : Bool := qs.any (fun q => set_contains Fn q)
      let r := get_or_create_state s.st_map s.df qs
      let r0 := get_or_create_state r.2.1 r.2.2 qs0
      let r1 := get_or_create_state r0.2.1 r0.2.2 qs1
      match vset r1.2.2 r.1 (r.1, r0.1, r1.1) with
      | none => none
      | some df =>
        some { st_map := r1.2.1, df := df,
               Ff := if final then set_insert s.Ff r.1 else s.Ff,
               visited := qs :: s.visited,
               que := rest ++ [qs0, qs1] }

/-- The worklist loop `while (!que.empty())` of `from_nfa`, at most `fuel`
iterations. -/
def from_nfa_loop (Fn : List Int) (dn : NFADelta) : Nat → NfaLoop → Option NfaLoop
  | fuel, s =>
    match s.que with
    | [] => some s
    | qs :: rest =>
      match fuel with
      | 0 => none
      | fuel + 1 => (from_nfa_step Fn dn s qs rest).bind (from_nfa_loop Fn dn fuel)

/-- The function `Graph::from_nfa(q0n, Fn, dn)`. The loop pops one subset per
iteration and pushes two for each subset it processes, and it processes each
subset of the `dn.size()` states at most once, so `2 * 2 ^ dn.size() + 1`
iterations are enough. -/
def Graph.from_nfa (q0n Fn : List Int) (dn : NFADelta) : Option Graph :=
  (from_nfa_loop Fn dn (2 * 2 ^ dn.length + 1)
      { st_map := [], df := [], Ff := [], visited := [], que := [q0n] }).bind
    (fun s =>
      let r := get_or_create_state s.st_map s.df q0n
      Graph.ctor r.1 s.Ff r.2.2)

/-! ## Reversal: `Graph::reversed` -/

/-- The loop of `reversed` filling `delta` for the states `qs`. -/
def reversed_delta (g : Graph) : List Int → NFADelta → Option NFADelta
  | [], delta => some delta
  | q :: rest, delta =>
    match g.prev_states q false, g.prev_states q true with
    | some p0, some p1 => (vset delta q (q, p0, p1)).bind (reversed_delta g rest)
    | _, _ => none

/-- The method `Graph::reversed`. -/
def Graph.reversed (g : Graph) : Option Graph :=
  (reversed_delta g g.all_states (List.replicate g.size (0, [], []))).bind
    (fun delta => Graph.from_nfa g.final_state_ [g.initial_state] delta)

/-! ## Non-deterministic runs (specification-level semantics) -/

/-- The successors of state `q` on symbol `b` listed by the relation `dn`. -/
def nfa_next (dn : NFADelta) (q : Int) (b : Bool) : List Int :=
  match vat dn q with
  | some e => if b then e.2.2 else e.2.1
  | none => []

/-- Whether some run of the NFA on `w` that starts in `q` ends in a state of `F`. -/
def nfa_accepts_from (dn : NFADelta) (F : List Int) : Int → Word → Bool
  | q, [] => F.contains q
  | q, b :: w => (nfa_next dn q b).any (fun r => nfa_accepts_from dn F r w)

/-- Whether some run of the NFA on `w` that starts in a state of `Q0` ends in a
state of `F`. -/
def nfa_accepts (dn : NFADelta) (Q0 F : List Int) (w : Word) : Bool :=
  Q0.any (fun q => nfa_accepts_from dn F q w)

/-- An in-range NFA over `dn.length` states: every listed successor is a state. -/
def nfa_ok (dn : NFADelta) : Prop :=
  ∀ e ∈ dn, (∀ r ∈ e.2.1, 0 ≤ r ∧ r < (dn.length : Int)) ∧
            (∀ r ∈ e.2.2, 0 ≤ r ∧ r < (dn.length : Int))

instance (dn : NFADelta) : Decidable (nfa_ok dn) := by
  unfold nfa_ok; infer_instance

/-- A `std::set<State>` holding states below `n`: strictly increasing and in range. -/
def subset_ok (n : Nat) (s : List Int) : Prop :=
  s.Sorted (· < ·) ∧ ∀ q ∈ s, 0 ≤ q ∧ q < (n : Int)

instance (n : Nat) (s : List Int) : Decidable (subset_ok n s) := by
  unfold subset_ok; infer_instance

/-- The subset reached from the subset `S` after reading `w` (iterating the
successor loop of `from_nfa`). -/
def subset_run (dn : NFADelta) : List Int → Word → Option (List Int)
  | S, [] => some S
  | S, b :: w =>
    (nfa_successors dn S ([], [])).bind
      (fun r => subset_run dn (if b then r.2 else r.1) w)

/-! ## Auxiliary definitions used in the proofs about `from_nfa` -/

/-- A memo table (`st_map` of `from_nfa`, `old2new` of `removed_unreachable`)
has distinct keys and the id of the `i`-th entry is `i`. -/
def map_ok {α : Type} (m : List (α × Int)) : Prop :=
  (m.map Prod.fst).Nodup ∧ ∀ (i : Nat) (p : α × Int), m[i]? = some p → p.2 = (i : Int)

/-- The loop invariant of the worklist loop of `from_nfa`. -/
structure NfaInv (q0n Fn : List Int) (dn : NFADelta) (s : NfaLoop) : Prop where
  map : map_ok s.st_map
  len : s.df.length = s.st_map.length
  pending : ∀ p ∈ s.st_map, p.1 ∈ s.visited ∨ p.1 ∈ s.que
  done : ∀ S ∈ s.visited, ∃ (i : Int) (S0 S1 : List Int) (i0 i1 : Int),
    (S, i) ∈ s.st_map ∧ nfa_successors dn S ([], []) = some (S0, S1) ∧
    (S0, i0) ∈ s.st_map ∧ (S1, i1) ∈ s.st_map ∧ vat s.df i = some (i, i0, i1) ∧
    (i ∈ s.Ff ↔ S.any (fun q => set_contains Fn q) = true)
  ff_sorted : s.Ff.Sorted (· < ·)
  ff_mem : ∀ i ∈ s.Ff, ∃ S ∈ s.visited, (S, i) ∈ s.st_map
  que_ok : ∀ S ∈ s.que, subset_ok dn.length S
  vis_ok : ∀ S ∈ s.visited, subset_ok dn.length S
  vis_nodup : s.visited.Nodup
  start : q0n ∈ s.que ∨ q0n ∈ s.visited

end Homfa

namespace Homfa

/-! ## Reachability pruning: `Graph::removed_unreachable` -/

/-- The local variables of `removed_unreachable` that its traversal updates. -/
structure ReachLoop where
  reachable : List Int
  que : List Int
  deriving DecidableEq, Repr

/-- The body of the traversal loop once `q` has been popped and `rest` is what
remains of the queue. -/
def reach_step (g : Graph) (s : ReachLoop) (q : Int) (rest : List Int) : Option ReachLoop :=
  let reachable := set_insert s.reachable q
  match g.next_state q false, g.next_state q true with
  | some q0, some q1 =>
    let que1 := if set_contains reachable q0 then rest else rest ++ [q0]
    let que2 := if set_contains reachable q1 then que1 else que1 ++ [q1]
    some { reachable := reachable, que := que2 }
  | _, _ => none

/-- The traversal loop `while (!que.empty())` of `removed_unreachable`, at most
`fuel` iterations. -/
def reach_loop (g : Graph) : Nat → ReachLoop → Option ReachLoop
  | fuel, s =>
    match s.que with
    | [] => some s
    | q :: rest =>
      match fuel with
      | 0 => none
      | fuel + 1 => (reach_step g s q rest).bind (reach_loop g fuel)

/-- The loop `for (State old : reachable) old2new.emplace(old, old2new.size())`;
`emplace` leaves the map alone when the key is present. -/
def build_old2new : List Int → List (Int × Int) → List (Int × Int)
  | [], m => m
  | old :: rest, m =>
    build_old2new rest
      (if (m.lookup old).isSome then m else m ++ [(old, (m.length : Int))])

/-- The loop of `removed_unreachable` that translates the final states. -/
def relabel_finals (reachable : List Int) (old2new : List (Int × Int)) :
    List Int → List Int → Option (List Int)
  | [], final_sts => some final_sts
  | q :: rest, final_sts =>
    if set_contains reachable q then
      match old2new.lookup q with
      | none => none
      | some n => relabel_finals reachable old2new rest (set_insert final_sts n)
    else relabel_finals reachable old2new rest final_sts

/-- The loop of `removed_unreachable` that fills `delta` from the rows of the
table. -/
def relabel_delta (reachable : List Int) (old2new : List (Int × Int)) :
    List TableItem → DFADelta → Option DFADelta
  | [], delta => some delta
  | entry :: rest, delta =>
    if set_contains reachable entry.index then
      match old2new.lookup entry.index, old2new.lookup entry.child0,
          old2new.lookup entry.child1 with
      | some q, some q0, some q1 =>
        (vset delta q (q, q0, q1)).bind (relabel_delta reachable old2new rest)
      | _, _, _ => none
    else relabel_delta reachable old2new rest delta

/-- The method `Graph::removed_unreachable`. An iteration pops one state and
pushes at most two states that were not yet reached when pushed, so a state
pushed while `k` states were unreached leads to fewer than `3 ^ k` further
iterations; `3 ^ size()` iterations are enough. -/
def Graph.removed_unreachable (g : Graph) : Option Graph :=
  (reach_loop g (3 ^ g.size) { reachable := [], que := [g.initial_state] }).bind
    (fun s =>
      let reachable := s.reachable
      let old2new := build_old2new reachable []
      match old2new.lookup g.initial_state with
      | none => none
      | some init_st =>
        (relabel_finals reachable old2new g.final_state_ []).bind
          (fun final_sts =>
            (relabel_delta reachable old2new g.table_
                (List.replicate reachable.length (0, 0, 0))).bind
              (fun delta => Graph.ctor init_st final_sts delta)))

/-! ## Merging equivalent states: `Graph::grouped_nondistinguishable` -/

/-- The marking table `std::vector<bool> table`, a packed sequence of `len` bits:
bit `i` of `bits` is the cell `i`. -/
structure BoolTable where
  len : Nat
  bits : Nat
  deriving DecidableEq, Repr

/-- The read `table.at(i)`; `none` stands for `std::out_of_range`. -/
def BoolTable.read (t : BoolTable) (i : Int) : Option Bool :=
  if i < 0 then none
  else if i.toNat < t.len then some (t.bits.testBit i.toNat) else none

/-- The assignment `table.at(i) = true`; `none` stands for `std::out_of_range`. -/
def BoolTable.set_true (t : BoolTable) (i : Int) : Option BoolTable :=
  if i < 0 then none
  else if i.toNat < t.len then some { len := t.len, bits := t.bits ||| 2 ^ i.toNat }
  else none

/-- The marking table with the queue `std::queue<std::pair<State, State>> que`.
The queue is kept as the list of all pairs pushed so far, the last one pushed
first; the loop that pops counts the pairs it has popped, and the pairs in the
queue are the ones pushed after those. -/
abbrev FillState := BoolTable × List (Int × Int)

/-- The pair pushed as number `i`, counted from 0. -/
def pushed_at (pushed : List (Int × Int)) (i : Nat) : Option (Int × Int) :=
  if i < pushed.length then pushed[pushed.length - 1 - i]? else none

/-- What a read of `ql` or `qr` finds. The loop binds them with
`auto &&[ql, qr] = que.front(); que.pop();`, a reference to the front slot of
the queue, and pops before it reads them, so every read goes to the storage of
that slot as it is at the time of the read. `h` is the number of the popped
pair, `n0` the number of pairs pushed when it was popped, `pushed` the pairs
pushed until the read.

The queue is a `std::deque` of pairs of two `int`s; in libstdc++ it stores them
in blocks of 512 bytes, 64 pairs each, pair number `i` in slot `i % 64` of
block `i / 64`. `pop()` leaves the slot as it is, and when the slot is the last
of its block (`h % 64 = 63`) it frees the block. A push that fills the last
slot of a block allocates the next block, and the allocator (glibc `malloc`)
hands out the block freed last: the first block allocated after the pop is
allocated when pair number `n0 - n0 % 64 + 63` is pushed, it holds the 64
pairs after that one, and its last slot, the storage the reference points to,
receives pair number `n0 - n0 % 64 + 127`. From then on the reference reads
that pair. No other allocation of the loop has the size of a block as long as
no state has 127 to 130 predecessors on one symbol. -/
def front_ref (pushed : List (Int × Int)) (h n0 : Nat) : Option (Int × Int) :=
  if h % 64 = 63 ∧ n0 - n0 % 64 + 127 < pushed.length then
    pushed_at pushed (n0 - n0 % 64 + 127)
  else pushed_at pushed h

/-- The pairs `(qa, qb)` visited by the nested loops
`for (qa = 0; qa < size; qa++) for (qb = qa + 1; qb < size; qb++)`, in order. -/
def state_pairs (n : Nat) : List (Int × Int) :=
  (List.range n).flatMap
    (fun (a : Nat) =>
      (List.range' (a + 1) (n - (a + 1))).map (fun (b : Nat) => ((a : Int), (b : Int))))

/-- The body of the seeding loops for the pair `p = (qa, qb)`. -/
def seed_step (g : Graph) (tq : FillState) (p : Int × Int) : Option FillState :=
  let qa_final := g.is_final_state p.1
  let qb_final := g.is_final_state p.2
  if (qa_final && !qb_final) || (!qa_final && qb_final) then
    (tq.1.set_true (p.1 + p.2 * (g.size : Int))).map (fun t => (t, p :: tq.2))
  else some tq

/-- The seeding loops over the pairs `ps`. -/
def seed_table (g : Graph) : List (Int × Int) → FillState → Option FillState
  | [], tq => some tq
  | p :: rest, tq => (seed_step g tq p).bind (seed_table g rest)

/-- The innermost statement of the propagation loop for the predecessors `qa`
and `qb`. -/
def mark_pair (n : Nat) (tq : FillState) (qa qb : Int) : Option FillState :=
  if qa < qb then
    match tq.1.read (qa + (n : Int) * qb) with
    | none => none
    | some true => some tq
    | some false =>
      (tq.1.set_true (qa + (n : Int) * qb)).map (fun t => (t, (qa, qb) :: tq.2))
  else if qa > qb then
    match tq.1.read (qb + (n : Int) * qa) with
    | none => none
    | some true => some tq
    | some false =>
      (tq.1.set_true (qb + (n : Int) * qa)).map (fun t => (t, (qb, qa) :: tq.2))
  else some tq

/-- The loop `for (State qb : prev_states(qr, in))` over the vector `prs` that
`prev_states` returned. -/
def mark_inner (n : Nat) (qa : Int) : List Int → FillState → Option FillState
  | [], tq => some tq
  | qb :: rest, tq => (mark_pair n tq qa qb).bind (mark_inner n qa rest)

/-- The loop `for (State qa : prev_states(ql, in))` over the vector that
`prev_states(ql, in)` returned. Every iteration evaluates `prev_states(qr, in)`
and so reads `qr` through the reference. -/
def mark_outer (g : Graph) (h n0 : Nat) (input : Bool) : List Int → FillState →
    Option FillState
  | [], tq => some tq
  | qa :: rest, tq =>
    match front_ref tq.2 h n0 with
    | none => none
    | some p =>
      match g.prev_states p.2 input with
      | none => none
      | some pr => (mark_inner g.size qa pr tq).bind (mark_outer g h n0 input rest)

/-- One iteration of the loop `for (bool in : std::vector{true, false})`: it
evaluates `prev_states(ql, in)` once and so reads `ql` through the reference. -/
def mark_symbol (g : Graph) (h n0 : Nat) (input : Bool) (tq : FillState) :
    Option FillState :=
  match front_ref tq.2 h n0 with
  | none => none
  | some p =>
    match g.prev_states p.1 input with
    | none => none
    | some pl => mark_outer g h n0 input pl tq

/-- The loop `for (bool in : std::vector{true, false})` for the popped pair
number `h`. -/
def mark_preds (g : Graph) (h n0 : Nat) (tq : FillState) : Option FillState :=
  (mark_symbol g h n0 true tq).bind (mark_symbol g h n0 false)

/-- The propagation loop `while (!que.empty())` of the table-filling algorithm,
at most `fuel` iterations; `h` pairs have been popped. A failed
`assert(ql < qr)` ends the program. -/
def fill_loop (g : Graph) : Nat → Nat → FillState → Option FillState
  | fuel, h, tq =>
    if h < tq.2.length then
      match fuel with
      | 0 => none
      | fuel + 1 =>
        match front_ref tq.2 h tq.2.length with
        | none => none
        | some p =>
          if p.1 < p.2 then
            (mark_preds g h tq.2.length tq).bind (fill_loop g fuel (h + 1))
          else none
    else some tq

/-- The lambda `find_contains`: the position of the first set that contains `q`,
or `st.size()` for `st.end()`. -/
def find_contains (st : List (List Int)) (q : Int) : Nat :=
  st.findIdx (fun s => set_contains s q)

/-- The body of the grouping loops for the pair `p = (qa, qb)`. The two
`assert`s and the iterator dereferences fail where they are violated. -/
def group_step (n : Nat) (table : BoolTable) (st : List (List Int)) (p : Int × Int) :
    Option (List (List Int)) :=
  match table.read (p.1 + p.2 * (n : Int)) with
  | none => none
  | some true => some st
  | some false =>
    let ita := find_contains st p.1
    let itb := find_contains st p.2
    match st[ita]?, st[itb]? with
    | some sa, some sb =>
      if ita = itb then some st
      else some ((st.set ita (set_insert_all sa sb)).eraseIdx itb)
    | _, _ => none

/-- The grouping loops over the pairs `ps`. -/
def group_states (n : Nat) (table : BoolTable) : List (Int × Int) → List (List Int) →
    Option (List (List Int))
  | [], st => some st
  | p :: rest, st => (group_step n table st p).bind (group_states n table rest)

/-- The local variables `init_st`, `final_sts`, `delta` of the last loop of
`grouped_nondistinguishable`; `init_st` is declared without a value. -/
structure GroupOut where
  init_st : Option Int
  final_sts : List Int
  delta : DFADelta
  deriving DecidableEq, Repr

/-- The body of the last loop for the class index `q`. -/
def emit_class (g : Graph) (st : List (List Int)) (out : GroupOut) (q : Nat) :
    Option GroupOut :=
  match st[q]? with
  | none => none
  | some s =>
    match s.head? with
    | none => none
    | some repr =>
      let initial : Bool := s.any (fun x => decide (g.initial_state = x))
      let final : Bool := g.is_final_state repr
      match g.next_state repr false, g.next_state repr true with
      | some n0, some n1 =>
        let q0 := find_contains st n0
        let q1 := find_contains st n1
        if q0 = st.length ∨ q1 = st.length then none
        else
          some { init_st := if initial then some (q : Int) else out.init_st,
                 final_sts := if final then set_insert out.final_sts (q : Int)
                              else out.final_sts,
                 delta := out.delta ++ [((q : Int), (q0 : Int), (q1 : Int))] }
      | _, _ => none

/-- The last loop of `grouped_nondistinguishable` over the class indices `qs`. -/
def emit_classes (g : Graph) (st : List (List Int)) : List Nat → GroupOut → Option GroupOut
  | [], out => some out
  | q :: rest, out => (emit_class g st out q).bind (emit_classes g st rest)

/-- The marking table once the table-filling algorithm has ended. Every
iteration of the propagation loop pops one pair, and a pair is pushed only
when its cell is marked for the first time, so `size() * size()` iterations
are enough. -/
def Graph.filled_table (g : Graph) : Option BoolTable :=
  ((seed_table g (state_pairs g.size) ({ len := g.size * g.size, bits := 0 }, [])).bind
    (fill_loop g (g.size * g.size) 0)).map (fun tq => tq.1)

/-- The partition `st` once the grouping loops have ended. -/
def Graph.grouped_classes (g : Graph) : Option (List (List Int)) :=
  g.filled_table.bind
    (fun table =>
      group_states g.size table (state_pairs g.size) (g.all_states.map (fun q => [q])))

/-- The method `Graph::grouped_nondistinguishable`. -/
def Graph.grouped_nondistinguishable (g : Graph) : Option Graph :=
  g.grouped_classes.bind
    (fun st =>
      (emit_classes g st (List.range st.length)
          { init_st := none, final_sts := [], delta := [] }).bind
        (fun out =>
          match out.init_st with
          | none => none
          | some init_st => Graph.ctor init_st out.final_sts out.delta))

/-- The method `Graph::minimized`. -/
def Graph.minimized (g : Graph) : Option Graph :=
  g.removed_unreachable.bind Graph.grouped_nondistinguishable

/-! ## Depth layering: `Graph::reserve_states_at_depth` -/

/-- The loop `for (st = 0; st < size(); st++)` that moves the active states into
`tmp` and clears their flags; the state is `(sts, tmp)`. -/
def collect_layer : List Nat → List Bool × List Int → Option (List Bool × List Int)
  | [], acc => some acc
  | st :: rest, acc =>
    match vat acc.1 (st : Int) with
    | none => none
    | some flag =>
      (vset acc.1 (st : Int) false).bind
        (fun sts => collect_layer rest (sts, if flag then acc.2 ++ [(st : Int)] else acc.2))

/-- The loop `for (State st : tmp)` that flags the successors. -/
def activate_next (g : Graph) : List Int → List Bool → Option (List Bool)
  | [], sts => some sts
  | st :: rest, sts =>
    match g.next_state st false with
    | none => none
    | some n0 =>
      (vset sts n0 true).bind
        (fun sts1 =>
          match g.next_state st true with
          | none => none
          | some n1 => (vset sts1 n1 true).bind (activate_next g rest))

/-- The loop `for (i = 0; i < depth; i++)`; `layers` is `states_at_depth_`. -/
def depth_loop (g : Graph) : Nat → List Bool → List (List Int) → Option (List (List Int))
  | 0, _, layers => some layers
  | depth + 1, sts, layers =>
    (collect_layer (List.range g.size) (sts, [])).bind
      (fun r => (activate_next g r.2 r.1).bind
        (fun sts1 => depth_loop g depth sts1 (layers ++ [r.2])))

/-- The method `Graph::reserve_states_at_depth`; the result is the automaton
with its new `states_at_depth_`. -/
def Graph.reserve_states_at_depth (g : Graph) (depth : Nat) : Option Graph :=
  (vset (List.replicate g.size false) g.initial_state true).bind
    (fun sts => (depth_loop g depth sts []).map
      (fun layers => { g with states_at_depth_ := layers }))

/-- The method `Graph::states_at_depth`. -/
def Graph.states_at_depth (g : Graph) (depth : Nat) : Option (List Int) :=
  g.states_at_depth_[depth]?

/-! ## Auxiliary definitions used in the proofs about pruning -/

/-- The state `q` is reachable from the initial state of `g`. -/
def Graph.reach (g : Graph) (q : Int) : Prop :=
  ∃ w : Word, g.run g.initial_state w = some q

/-- The loop invariant of the traversal of `removed_unreachable`. -/
structure ReachInv (g : Graph) (s : ReachLoop) : Prop where
  sorted : s.reachable.Sorted (· < ·)
  sound : ∀ q ∈ s.reachable, g.reach q
  que_sound : ∀ q ∈ s.que, g.reach q
  start : g.initial_state ∈ s.reachable ∨ g.initial_state ∈ s.que
  closed : ∀ q ∈ s.reachable, ∀ (b : Bool) (r : Int), g.next_state q b = some r →
    r ∈ s.reachable ∨ r ∈ s.que

/-- The ranking of the queue entries that bounds the traversal: an entry pushed
while `k` states were unreached has rank `k`. -/
def ranks_ok (g : Graph) (s : ReachLoop) (qr : List (Int × Nat)) : Prop :=
  qr.map Prod.fst = s.que ∧
  ∀ p ∈ qr, (p.1 ∉ s.reachable → g.size - s.reachable.length ≤ p.2) ∧
            (p.1 ∈ s.reachable → g.size - s.reachable.length < p.2)

/-- The potential of a ranked queue. -/
def rank_potential (qr : List (Int × Nat)) : Nat :=
  (qr.map (fun p => 3 ^ p.2)).sum

/-- The relation between an automaton `g` and its pruned copy `B`: the
relabeling `o` pairs each reachable state of `g` with one state of `B`, and `B`
has the transitions, initial state and final states of `g` under `o`. -/
structure PruneRel (g B : Graph) (o : List (Int × Int)) : Prop where
  map : map_ok o
  keys_sorted : (o.map Prod.fst).Sorted (· < ·)
  dom : ∀ q, g.reach q ↔ ∃ i, (q, i) ∈ o
  size : B.size = o.length
  wf : B.well_formed
  init : (g.initial_state, B.initial_state) ∈ o
  next : ∀ (q i : Int) (b : Bool), (q, i) ∈ o →
    ∃ q' i', g.next_state q b = some q' ∧ B.next_state i b = some i' ∧ (q', i') ∈ o
  final : ∀ (q i : Int), (q, i) ∈ o → B.is_final_state i = g.is_final_state q

/-- Some word of length exactly `k` leads from the initial state to `q`. -/
def Graph.exact_reach (g : Graph) (k : Nat) (q : Int) : Prop :=
  ∃ w : Word, w.length = k ∧ g.run g.initial_state w = some q

/-- The automaton of the equivalence example of the specification: state 2 is
final and absorbing, states 0 and 1 both go to 2 on both symbols, 0 is initial
(so state 1 is unreachable). -/
def example_three : Graph :=
  { table_ := [⟨0, 2, 2, [], []⟩, ⟨1, 2, 2, [], []⟩, ⟨2, 2, 2, [0, 1, 2], [0, 1, 2]⟩],
    states_at_depth_ := [], final_state_ := [2], init_state_ := 0 }

end Homfa

namespace Homfa

/-! ## Auxiliary definitions used in the proofs about minimization -/

/-- Some word is accepted from exactly one of the states `a` and `b`. -/
def Graph.dist (g : Graph) (a b : Int) : Prop :=
  ∃ w : Word, g.accepts_from a w ≠ g.accepts_from b w

/-- The states `a` and `b` accept the same words. -/
def Graph.equiv (g : Graph) (a b : Int) : Prop :=
  ∀ w : Word, g.accepts_from a w = g.accepts_from b w

/-- Two automata with the same states, initial state, transitions and final
states (the renumbering between them is the identity). -/
def Graph.same_structure (g g' : Graph) : Prop :=
  g.size = g'.size ∧ g.initial_state = g'.initial_state ∧
  (∀ (q : Int) (b : Bool), g.next_state q b = g'.next_state q b) ∧
  ∀ q : Int, g.is_final_state q = g'.is_final_state q

end Homfa

namespace Homfa

/-! ## The text format: `Graph::dump` and `Graph::from_file`

A text (the content of a file or of an output stream) is a `List Char`. A
numeric field is read by `std::stoi`, whose result is an `int` of 32 bits. -/

/-- The ways `from_file` ends without an automaton: the two calls of
`error::die`, and an exception that nothing catches (`std::out_of_range` of
`at` or of `std::stoi`). -/
inductive LoadError where
  | not_a_number (field : List Char)
  | invalid_state_number (written : Int) (expected : Int)
  | uncaught_exception
  deriving DecidableEq, Repr

deriving instance DecidableEq for Except

/-- Modelled from the spec: `error::die` of `error.hpp`, a header that is not
among the sources. A fatal error aborts the load entirely with a message that
identifies the bad value and the expectation violated: the load ends with the
error `e`, which carries those values, and nothing after the call runs. -/
def die {α : Type} (e : LoadError) : Except LoadError α := Except.error e

/-- Repeated `std::getline(stream, field, delim)` until it fails: the pieces of
the text between delimiters; a text that ends with the delimiter has no empty
last piece. `cur` is the piece being read. -/
def getline_all (delim : Char) : List Char → List Char → List (List Char)
  | [], cur => if cur = [] then [] else [cur]
  | c :: rest, cur =>
    if c = delim then cur :: getline_all delim rest []
    else getline_all delim rest (cur ++ [c])

/-- The character class `\s` of the regular expression. -/
def is_space (c : Char) : Bool :=
  c = ' ' || c = '\t' || c = '\n' || c = Char.ofNat 11 || c = Char.ofNat 12 || c = '\r'

/-- The character class `[\d,]` of the regular expression. -/
def is_digit_or_comma (c : Char) : Bool := c.isDigit || c = ','

/-- The value of a string of decimal digits. -/
def decimal_value (ds : List Char) : Nat :=
  ds.foldl (fun acc c => 10 * acc + (c.toNat - 48)) 0

/-- Whether the text starts with the character `c`. -/
def starts_with (c : Char) : List Char → Bool
  | [] => false
  | a :: _ => decide (a = c)

/-- The two exceptions `std::stoi` throws. -/
inductive StoiError where
  | invalid_argument
  | out_of_range
  deriving DecidableEq, Repr

/-- The function `std::stoi`: leading white space, an optional sign, then the
longest run of digits. It throws `std::invalid_argument` when there is no
digit, and `std::out_of_range` when the value is not an `int`, that is, not
between `-2147483648` and `2147483647`. -/
def stoi (s : List Char) : Except StoiError Int :=
  let s1 := s.dropWhile is_space
  let neg : Bool := starts_with '-' s1
  let s2 : List Char := if starts_with '-' s1 || starts_with '+' s1 then s1.tail else s1
  let ds := s2.takeWhile Char.isDigit
  if ds = [] then Except.error StoiError.invalid_argument
  else
    let v : Int := if neg then -(decimal_value ds : Int) else (decimal_value ds : Int)
    if v < -2147483648 ∨ 2147483647 < v then Except.error StoiError.out_of_range
    else Except.ok v

/-- The sub-matches of a line that matches the regular expression. -/
structure LineMatch where
  initial : Bool
  number : List Char
  final : Bool
  field0 : List Char
  field1 : List Char
  deriving DecidableEq, Repr

/-- A successor field `(_|[\d,]+)` at the start of `r`, with what follows it. -/
def match_field (r : List Char) : Option (List Char × List Char) :=
  if starts_with '_' r then some (['_'], r.tail)
  else if r.takeWhile is_digit_or_comma = [] then none
  else some (r.takeWhile is_digit_or_comma, r.dropWhile is_digit_or_comma)

/-- The call `std::regex_match(line, match, re)` for the regular expression
`^(>)?(\d+)(\*)?\s+(_|[\d,]+)\s+(_|[\d,]+)$`. No character class of the
expression overlaps the one that follows it, so every repetition takes the
longest run. -/
def match_line (line : List Char) : Option LineMatch :=
  let initial : Bool := starts_with '>' line
  let r1 : List Char := if initial then line.tail else line
  let number := r1.takeWhile Char.isDigit
  let r2 := r1.dropWhile Char.isDigit
  if number = [] then none
  else
    let final : Bool := starts_with '*' r2
    let r3 : List Char := if final then r2.tail else r2
    if r3.takeWhile is_space = [] then none
    else
      match match_field (r3.dropWhile is_space) with
      | none => none
      | some (field0, r5) =>
        if r5.takeWhile is_space = [] then none
        else
          match match_field (r5.dropWhile is_space) with
          | some (field1, []) =>
            some { initial := initial, number := number, final := final,
                   field0 := field0, field1 := field1 }
          | _ => none

/-- The loop of the lambda `load_comma_separated_states` over the fields. Its
`catch` clause handles `std::invalid_argument` only; `std::out_of_range`
leaves the lambda and `from_file`. -/
def load_fields : List (List Char) → List Int → Except LoadError (List Int)
  | [], ret => Except.ok ret
  | field :: rest, ret =>
    match stoi field with
    | Except.error StoiError.invalid_argument => die (LoadError.not_a_number field)
    | Except.error StoiError.out_of_range => Except.error LoadError.uncaught_exception
    | Except.ok v => load_fields rest (ret ++ [v])

/-- The lambda `load_comma_separated_states`. -/
def load_comma_separated_states (s : List Char) : Except LoadError (List Int) :=
  if s = ['_'] then Except.ok []
  else load_fields (getline_all ',' s []) []

/-- The local variables of `from_file` that its reading loop updates. -/
structure LoadState where
  init_sts : List Int
  final_sts : List Int
  delta : NFADelta
  is_dfa : Bool
  deriving DecidableEq, Repr

/-- The body of the reading loop of `from_file` for one line. The call of
`std::stoi` on the state number is outside any `try`. -/
def load_line (s : LoadState) (line : List Char) : Except LoadError LoadState :=
  match match_line line with
  | none => Except.ok s
  | some m =>
    let q : Int := (s.delta.length : Int)
    match load_comma_separated_states m.field0 with
    | Except.error e => Except.error e
    | Except.ok q0s =>
      match load_comma_separated_states m.field1 with
      | Except.error e => Except.error e
      | Except.ok q1s =>
        match stoi m.number with
        | Except.error _ => Except.error LoadError.uncaught_exception
        | Except.ok written =>
          if q ≠ written then die (LoadError.invalid_state_number written q)
          else
            Except.ok
              { init_sts := if m.initial then set_insert s.init_sts q else s.init_sts,
                final_sts := if m.final then set_insert s.final_sts q else s.final_sts,
                delta := s.delta ++ [(q, q0s, q1s)],
                is_dfa := if q0s.length ≠ 1 ∨ q1s.length ≠ 1 then false else s.is_dfa }

/-- The reading loop of `from_file` over the lines. -/
def load_lines : List (List Char) → LoadState → Except LoadError LoadState
  | [], s => Except.ok s
  | line :: rest, s =>
    match load_line s line with
    | Except.error e => Except.error e
    | Except.ok s1 => load_lines rest s1

/-- What `from_file` has read when its loop ends, with the final value of
`is_dfa`. -/
def parse_file (content : List Char) : Except LoadError LoadState :=
  match load_lines (getline_all '\n' content [])
      { init_sts := [], final_sts := [], delta := [], is_dfa := true } with
  | Except.error e => Except.error e
  | Except.ok s =>
    Except.ok { s with is_dfa := if s.init_sts.length ≠ 1 then false else s.is_dfa }

/-- The loop that builds `new_delta` on the deterministic path. -/
def dfa_delta : NFADelta → DFADelta → Option DFADelta
  | [], new_delta => some new_delta
  | e :: rest, new_delta =>
    match e.2.1[0]?, e.2.2[0]? with
    | some q0, some q1 => dfa_delta rest (new_delta ++ [(e.1, q0, q1)])
    | _, _ => none

/-- An exception that leaves `from_file` is not caught. -/
def uncaught (r : Option Graph) : Except LoadError Graph :=
  match r with
  | some g => Except.ok g
  | none => Except.error LoadError.uncaught_exception

/-- The function `Graph::from_file`, on the content of the file. -/
def Graph.from_file (content : List Char) : Except LoadError Graph :=
  match parse_file content with
  | Except.error e => Except.error e
  | Except.ok s =>
    if s.is_dfa then
      match s.init_sts.head?, dfa_delta s.delta [] with
      | some init_st, some new_delta => uncaught (Graph.ctor init_st s.final_sts new_delta)
      | _, _ => Except.error LoadError.uncaught_exception
    else uncaught (Graph.from_nfa s.init_sts s.final_sts s.delta)

/-- The output of `os << q` for a `State`. -/
def print_state (q : Int) : List Char :=
  if q < 0 then '-' :: Nat.toDigits 10 q.natAbs else Nat.toDigits 10 q.toNat

/-- The text `dump` writes for the state `q`. -/
def dump_line (g : Graph) (q : Int) : Option (List Char) :=
  match g.next_state q false, g.next_state q true with
  | some n0, some n1 =>
    some ((if g.initial_state = q then ['>'] else []) ++ print_state q ++
      (if g.is_final_state q then ['*'] else []) ++ ['\t'] ++ print_state n0 ++
      ['\t'] ++ print_state n1 ++ ['\n'])
  | _, _ => none

/-- The loop of `dump` over the states `qs`; `os` is what has been written. -/
def dump_states (g : Graph) : List Int → List Char → Option (List Char)
  | [], os => some os
  | q :: rest, os => (dump_line g q).bind (fun l => dump_states g rest (os ++ l))

/-- The method `Graph::dump`: the text written to the stream. -/
def Graph.dump (g : Graph) : Option (List Char) :=
  dump_states g g.all_states []

/-! ## Auxiliary definitions used in the proofs about the text format -/

/-- The line `dump` writes for the state `q`, without the end of line. -/
def dump_body (g : Graph) (q : Int) : List Char :=
  (if g.initial_state = q then ['>'] else []) ++ print_state q ++
    (if g.is_final_state q then ['*'] else []) ++ ['\t'] ++
    print_state ((g.next_state q false).getD 0) ++ ['\t'] ++
    print_state ((g.next_state q true).getD 0)

/-- A non-empty string of decimal digits. -/
def is_numeral (ds : List Char) : Prop :=
  (∀ c ∈ ds, c.isDigit = true) ∧ ds ≠ []

end Homfa

namespace Homfa

/-! ## Further examples and auxiliary definitions -/

/-- A two-state automaton whose initial state is not its smallest state: state 1
is initial and goes to state 0 on both symbols, state 0 is final and loops. -/
def example_init_one : Graph :=
  { table_ := [⟨0, 0, 0, [0, 1], [0, 1]⟩, ⟨1, 0, 0, [], []⟩],
    states_at_depth_ := [], final_state_ := [0], init_state_ := 1 }

/-- An automaton of 24 states on which the table-filling loop of
`grouped_nondistinguishable` pops the pair number 63 of its queue, the last of
the first block of the queue, and pushes more than 64 pairs while it handles
it. Symbol 0 moves every state along one of three cycles of eight states,
symbol 1 leads to state 15 or to state 18; the states 0, 16, 18 and 21 are the
ones that are not final, and state 11 is initial. Every state is reachable. -/
def example_stale_front : Graph :=
  Graph.mk
    [⟨0, 6, 18, [8], []⟩,
     ⟨1, 2, 15, [3], []⟩,
     ⟨2, 14, 15, [1], []⟩,
     ⟨3, 1, 15, [16], []⟩,
     ⟨4, 7, 15, [20], []⟩,
     ⟨5, 20, 15, [21], []⟩,
     ⟨6, 19, 15, [0], []⟩,
     ⟨7, 22, 18, [4], []⟩,
     ⟨8, 0, 15, [23], []⟩,
     ⟨9, 15, 18, [14], []⟩,
     ⟨10, 16, 18, [15], []⟩,
     ⟨11, 23, 15, [17], []⟩,
     ⟨12, 17, 18, [19], []⟩,
     ⟨13, 21, 18, [18], []⟩,
     ⟨14, 9, 18, [2], []⟩,
     ⟨15, 10, 15, [9], [1, 2, 3, 4, 5, 6, 8, 11, 15, 16, 18, 20]⟩,
     ⟨16, 3, 15, [10], []⟩,
     ⟨17, 11, 18, [12], []⟩,
     ⟨18, 13, 15, [22], [0, 7, 9, 10, 12, 13, 14, 17, 19, 21, 22, 23]⟩,
     ⟨19, 12, 18, [6], []⟩,
     ⟨20, 4, 15, [5], []⟩,
     ⟨21, 5, 18, [13], []⟩,
     ⟨22, 18, 18, [7], []⟩,
     ⟨23, 8, 18, [11], []⟩]
    [] [1, 2, 3, 4, 5, 6, 7, 8, 9, 10, 11, 12, 13, 14, 15, 17, 19, 20, 22, 23] 11

/-- The classes the grouping loops leave on `example_stale_front`. -/
def example_stale_front_classes : List (List Int) :=
  [[0], [1], [2, 4], [3], [5], [6], [7, 14], [8], [9, 22], [10], [11], [12], [13], [15], [16], [17], [18], [19], [20], [21], [23]]

/-- The automaton of 21 states that `minimized` returns on
`example_stale_front`. -/
def example_stale_front_minimized : Graph :=
  Graph.mk
    [⟨0, 5, 16, [7], []⟩,
     ⟨1, 2, 13, [3], []⟩,
     ⟨2, 6, 13, [1, 18], []⟩,
     ⟨3, 1, 13, [14], []⟩,
     ⟨4, 18, 13, [19], []⟩,
     ⟨5, 17, 13, [0], []⟩,
     ⟨6, 8, 16, [2], []⟩,
     ⟨7, 0, 13, [20], []⟩,
     ⟨8, 13, 16, [6], []⟩,
     ⟨9, 14, 16, [13], []⟩,
     ⟨10, 20, 13, [15], []⟩,
     ⟨11, 15, 16, [17], []⟩,
     ⟨12, 19, 16, [16], []⟩,
     ⟨13, 9, 13, [8], [1, 2, 3, 4, 5, 7, 10, 13, 14, 16, 18]⟩,
     ⟨14, 3, 13, [9], []⟩,
     ⟨15, 10, 16, [11], []⟩,
     ⟨16, 12, 13, [], [0, 6, 8, 9, 11, 12, 15, 17, 19, 20]⟩,
     ⟨17, 11, 16, [5], []⟩,
     ⟨18, 2, 13, [4], []⟩,
     ⟨19, 4, 16, [12], []⟩,
     ⟨20, 7, 16, [10], []⟩]
    [] [1, 2, 3, 4, 5, 6, 7, 8, 9, 10, 11, 12, 13, 15, 17, 18, 20] 10

/-- The sub-matches of the lines of the text that match the regular expression
of `from_file`, in the order of the lines. -/
def matching_lines (content : List Char) : List LineMatch :=
  (getline_all '\n' content []).filterMap match_line

/-- The state of the reading loop after a line that is read without error. -/
def after_line (s : LoadState) (m : LineMatch) (q0s q1s : List Int) : LoadState :=
  { init_sts := if m.initial then set_insert s.init_sts (s.delta.length : Int) else s.init_sts,
    final_sts := if m.final then set_insert s.final_sts (s.delta.length : Int) else s.final_sts,
    delta := s.delta ++ [((s.delta.length : Int), q0s, q1s)],
    is_dfa := if q0s.length ≠ 1 ∨ q1s.length ≠ 1 then false else s.is_dfa }

/-- A text whose second matching line carries the number 2: the line between the
two does not match and is skipped. -/
def text_out_of_sequence : List Char :=
  ">0\t2\t2\n# a comment\n2\t2\t2\n".toList

/-- A text with a skipped line whose matching lines are numbered 0, 1, 2; it
describes `example_three`. -/
def text_in_sequence : List Char :=
  ">0\t2\t2\n# a comment\n1\t2\t2\n2*\t2\t2\n".toList

/-- A text of one matching line, numbered 0 and marked initial, whose two
successor lists have one element each, the number 1, which is not the number of
a line. -/
def text_successor_out_of_range : List Char :=
  ">0\t1\t1\n".toList

/-- The text of the determinization example of the specification: lines 0 and 1
are marked initial and go to state 2 on both symbols, state 2 is final and
loops. -/
def text_two_initial : List Char :=
  ">0\t2\t2\n>1\t2\t2\n2*\t2\t2\n".toList

/-- A text whose second matching line carries the number 4294967297, which is
not an `int`. -/
def text_number_not_int : List Char :=
  ">0\t0\t0\n4294967297\t0\t0\n".toList

/-- A text of two matching lines numbered 0 and 1 whose second line has the
successor 99999999999, which is not an `int`. -/
def text_successor_not_int : List Char :=
  ">0\t0\t0\n1\t99999999999\t_\n".toList

/-- What the reading loop of `from_file` holds once it has read, without error,
the matching lines `ms`: line `i` gave the entry `i` of `delta` with its two
successor fields loaded, `init_sts` and `final_sts` hold the positions of the
lines marked initial and final, and `is_dfa` tells whether every successor list
read has exactly one element. -/
structure LoadInv (ms : List LineMatch) (s : LoadState) : Prop where
  len : s.delta.length = ms.length
  rows : ∀ (i : Nat) (m : LineMatch), ms[i]? = some m →
    ∃ q0s q1s : List Int, load_comma_separated_states m.field0 = Except.ok q0s ∧
      load_comma_separated_states m.field1 = Except.ok q1s ∧
      s.delta[i]? = some ((i : Int), q0s, q1s)
  init_sorted : s.init_sts.Sorted (· < ·)
  init_mem : ∀ q : Int, q ∈ s.init_sts ↔
    ∃ (i : Nat) (m : LineMatch), ms[i]? = some m ∧ m.initial = true ∧ q = (i : Int)
  init_count : s.init_sts.length = (ms.filter (fun m => m.initial)).length
  final_sorted : s.final_sts.Sorted (· < ·)
  final_mem : ∀ q : Int, q ∈ s.final_sts ↔
    ∃ (i : Nat) (m : LineMatch), ms[i]? = some m ∧ m.final = true ∧ q = (i : Int)
  dfa : s.is_dfa = true ↔ ∀ e ∈ s.delta, e.2.1.length = 1 ∧ e.2.2.length = 1

/-- Appending `x` to `acc` unless `acc` holds it already. -/
def see {α : Type} [DecidableEq α] (acc : List α) (x : α) : List α :=
  if x ∈ acc then acc else acc ++ [x]

/-- The elements of `xs` in the order of their first occurrences. -/
def first_seen {α : Type} [DecidableEq α] (xs : List α) : List α :=
  xs.foldl see []

/-- The state ids in the order `from_nfa` asks `get_or_create_state` for them
when it processes the states in the order of their ids: for each row of the
table, the state itself, its successor on symbol 0, its successor on symbol 1. -/
def Graph.requests (g : Graph) : List Int :=
  g.table_.flatMap (fun t => [t.index, t.child0, t.child1])

/-- The part of the loop invariant of `from_nfa` that concerns the order in
which ids are assigned: the memo table lists the subsets in the order of their
first occurrences among the subsets processed and those in the queue, the ids
of the rows written so far appear in increasing order of first occurrence, and
every subset met is reached from `q0n` by some word. -/
structure SeenInv (q0n : List Int) (dn : NFADelta) (s : NfaLoop) : Prop where
  head : (s.visited.reverse ++ s.que).head? = some q0n
  keys : (s.st_map = [] ∧ s.visited = [] ∧ s.que = [q0n]) ∨
    s.st_map.map Prod.fst = first_seen (s.visited.reverse ++ s.que)
  rows : first_seen ((s.df.take s.visited.length).flatMap
      (fun e => [e.1, e.2.1, e.2.2])) = (List.range s.st_map.length).map Int.ofNat
  reach_keys : ∀ p ∈ s.st_map, ∃ w : Word, subset_run dn q0n w = some p.1
  reach_que : ∀ S ∈ s.que, ∃ w : Word, subset_run dn q0n w = some S

end Homfa

namespace Homfa

/-! ## Vectors -/

theorem vat_natCast {α : Type} (v : List α) (k : Nat) : vat v (k : Int) = v[k]? := by
  unfold vat
  have : ¬ ((k : Int) < 0) := by omega
  simp [this]

theorem vat_eq_some_iff {α : Type} (v : List α) (i : Int) (x : α) :
    vat v i = some x ↔ ∃ k : Nat, i = (k : Int) ∧ v[k]? = some x := by
  constructor
  · intro h
    unfold vat at h
    split at h
    · simp at h
    · exact ⟨i.toNat, by omega, h⟩
  · rintro ⟨k, rfl, h⟩
    rw [vat_natCast]; exact h

theorem vat_neg {α : Type} (v : List α) (i : Int) (h : i < 0) : vat v i = none := by
  unfold vat; simp [h]

theorem vat_eq_none_iff {α : Type} (v : List α) (i : Int) :
    vat v i = none ↔ (i < 0 ∨ (v.length : Int) ≤ i) := by
  unfold vat
  split
  · simp [*]
  · rw [List.getElem?_eq_none_iff]; omega

theorem vat_lt {α : Type} {v : List α} {i : Int} {x : α} (h : vat v i = some x) :
    0 ≤ i ∧ i < (v.length : Int) := by
  rcases (vat_eq_some_iff v i x).1 h with ⟨k, rfl, hk⟩
  have := (List.getElem?_eq_some_iff.1 hk).1
  omega

theorem vset_natCast {α : Type} (v : List α) (k : Nat) (x : α) (h : k < v.length) :
    vset v (k : Int) x = some (v.set k x) := by
  unfold vset
  have : ¬ ((k : Int) < 0) := by omega
  simp [this, h]

theorem vset_eq_some_iff {α : Type} (v : List α) (i : Int) (x : α) (w : List α) :
    vset v i x = some w ↔ ∃ k : Nat, i = (k : Int) ∧ k < v.length ∧ w = v.set k x := by
  constructor
  · intro h
    unfold vset at h
    split at h
    · simp at h
    · split at h
      · refine ⟨i.toNat, by omega, by assumption, ?_⟩
        simpa using h.symm
      · simp at h
  · rintro ⟨k, rfl, hk, rfl⟩
    exact vset_natCast v k x hk

/-! ## The constructor -/

theorem set_map_eq {items : List TableItem}
    (hidx : ∀ (j : Nat) (t : TableItem), items[j]? = some t → t.index = (j : Int))
    (g h : TableItem → TableItem) (c : Nat) (t : TableItem) (hc : items[c]? = some t) :
    (items.map g).set c (h (g t)) =
      items.map (fun u => if u.index = (c : Int) then h (g u) else g u) := by
  apply List.ext_getElem?
  intro j
  rw [List.getElem?_set]
  by_cases hj : c = j
  · subst hj
    have hlt : c < items.length := (List.getElem?_eq_some_iff.1 hc).1
    have ht : items[c] = t := by
      rw [List.getElem?_eq_getElem hlt] at hc; exact Option.some.inj hc
    simp [hlt, ht, hidx c t hc]
  · simp only [hj, if_false, List.getElem?_map]
    cases hu : items[j]? with
    | none => simp
    | some u =>
      have := hidx j u hu
      have hne : ¬ (u.index = (c : Int)) := by
        intro heq; rw [this] at heq; exact hj (by exact_mod_cast heq.symm)
      simp [hne]

theorem push_parent_map {items : List TableItem}
    (hidx : ∀ (j : Nat) (t : TableItem), items[j]? = some t → t.index = (j : Int))
    (g : TableItem → TableItem) (child : Int) (input : Bool) (idx : Int)
    (hc : 0 ≤ child ∧ child < (items.length : Int)) :
    push_parent (items.map g) child input idx =
      some (items.map (fun u => if u.index = child then
        (if input then { g u with parents1 := (g u).parents1 ++ [idx] }
         else { g u with parents0 := (g u).parents0 ++ [idx] }) else g u)) := by
  obtain ⟨h0, h1⟩ := hc
  lift child to ℕ using h0 with c
  have hlt : c < items.length := by exact_mod_cast h1
  unfold push_parent
  rw [vat_natCast]
  have hget : items[c]? = some items[c] := List.getElem?_eq_getElem hlt
  simp only [List.getElem?_map, hget, Option.map_some']
  rw [vset_natCast _ _ _ (by simpa using hlt)]
  congr 1
  exact set_map_eq hidx g
    (fun r => if input then { r with parents1 := r.parents1 ++ [idx] }
              else { r with parents0 := r.parents0 ++ [idx] }) c items[c] hget

theorem link_item_map {items : List TableItem}
    (hidx : ∀ (j : Nat) (t : TableItem), items[j]? = some t → t.index = (j : Int))
    (pre : List TableItem) (item : TableItem)
    (h0 : 0 ≤ item.child0 ∧ item.child0 < (items.length : Int))
    (h1 : 0 ≤ item.child1 ∧ item.child1 < (items.length : Int)) :
    link_item (items.map (linked_row pre)) item =
      some (items.map (linked_row (pre ++ [item]))) := by
  unfold link_item
  rw [push_parent_map hidx _ _ _ _ h0]
  simp only [Option.some_bind]
  have hidx2 : ∀ (j : Nat) (t : TableItem), items[j]? = some t → t.index = (j : Int) := hidx
  rw [push_parent_map hidx _ _ _ _ h1]
  congr 1
  apply List.map_congr_left
  intro u _
  by_cases a : u.index = item.child0 <;> by_cases b : u.index = item.child1 <;>
    simp [linked_row, a, b, List.filter_append, eq_comm] <;>
    simp_all [eq_comm]

theorem link_items_map {items : List TableItem}
    (hidx : ∀ (j : Nat) (t : TableItem), items[j]? = some t → t.index = (j : Int))
    (suf : List TableItem) :
    ∀ pre : List TableItem,
    (∀ t ∈ suf, (0 ≤ t.child0 ∧ t.child0 < (items.length : Int)) ∧
                (0 ≤ t.child1 ∧ t.child1 < (items.length : Int))) →
    link_items suf (items.map (linked_row pre)) =
      some (items.map (linked_row (pre ++ suf))) := by
  induction suf with
  | nil => intro pre _; simp [link_items]
  | cons item rest ih =>
    intro pre h
    have hi := h item (List.mem_cons_self _ _)
    simp only [link_items]
    rw [link_item_map hidx pre item hi.1 hi.2]
    simp only [Option.some_bind]
    rw [ih (pre ++ [item]) (fun t ht => h t (List.mem_cons_of_mem _ ht))]
    simp

theorem linked_row_nil (t : TableItem) : linked_row [] t = t := by
  cases t; simp [linked_row]

theorem initial_rows_getElem? (delta : DFADelta) (j : Nat) :
    (initial_rows delta)[j]? =
      (delta[j]?).map (fun e => TableItem.mk e.1 e.2.1 e.2.2 [] []) := by
  simp [initial_rows]

theorem delta_ok_index {delta : DFADelta} (h : delta_ok delta) (j : Nat)
    (e : Int × Int × Int) (he : delta[j]? = some e) : e.1 = (j : Int) := by
  have hlt : j < delta.length := (List.getElem?_eq_some_iff.1 he).1
  exact h.1 j (List.mem_range.2 hlt) e he

theorem initial_rows_index {delta : DFADelta} (h : delta_ok delta) :
    ∀ (j : Nat) (t : TableItem), (initial_rows delta)[j]? = some t → t.index = (j : Int) := by
  intro j t ht
  rw [initial_rows_getElem?] at ht
  cases he : delta[j]? with
  | none => simp [he] at ht
  | some e =>
    simp [he] at ht
    subst ht
    exact delta_ok_index h j e he

theorem link_items_initial {delta : DFADelta} (h : delta_ok delta) :
    link_items (initial_rows delta) (initial_rows delta) = some (built_table delta) := by
  have key := link_items_map (initial_rows_index h) (initial_rows delta) []
    (by
      intro t ht
      simp only [initial_rows, List.mem_map] at ht
      obtain ⟨e, he, rfl⟩ := ht
      simpa [initial_rows] using h.2 e he)
  have hnil : (initial_rows delta).map (linked_row []) = initial_rows delta := by
    have : linked_row [] = id := funext linked_row_nil
    rw [this, List.map_id]
  rw [hnil] at key
  simpa [built_table] using key

/-- On an accepted transition list the constructor returns the built table. -/
theorem ctor_eq_some (init_st : Int) (final_sts : List Int) {delta : DFADelta}
    (h : delta_ok delta) :
    Graph.ctor init_st final_sts delta =
      some (Graph.mk (built_table delta) [] final_sts init_st) := by
  unfold Graph.ctor
  have := link_items_initial h
  simp only [initial_rows] at this
  simp [this]

theorem built_table_length (delta : DFADelta) : (built_table delta).length = delta.length := by
  simp [built_table, initial_rows]

theorem built_table_getElem? (delta : DFADelta) (j : Nat) :
    (built_table delta)[j]? =
      (delta[j]?).map (fun e => linked_row (initial_rows delta)
        (TableItem.mk e.1 e.2.1 e.2.2 [] [])) := by
  simp [built_table, initial_rows]
  rfl

/-- The child of entry `e` on symbol `b`. -/
theorem built_next_state (delta : DFADelta) (sd : List (List Int)) (fin : List Int)
    (init : Int) (q : Int) (b : Bool) :
    (Graph.mk (built_table delta) sd fin init).next_state q b =
      (vat delta q).map (fun e => if b then e.2.2 else e.2.1) := by
  unfold Graph.next_state
  by_cases hq : q < 0
  · simp [vat_neg _ _ hq]
  · lift q to ℕ using (by omega) with k
    simp only [vat_natCast, built_table_getElem?]
    cases delta[k]? <;> simp [linked_row]

theorem delta_map_fst {delta : DFADelta} (h : delta_ok delta) :
    delta.map (·.1) = (List.range delta.length).map Int.ofNat := by
  apply List.ext_getElem?
  intro j
  simp only [List.getElem?_map]
  cases he : delta[j]? with
  | none =>
    have : delta.length ≤ j := List.getElem?_eq_none_iff.1 he
    have h2 : (List.range delta.length)[j]? = none :=
      List.getElem?_eq_none_iff.2 (by simpa using this)
    simp [h2]
  | some e =>
    have hlt : j < delta.length := (List.getElem?_eq_some_iff.1 he).1
    have h2 : (List.range delta.length)[j]? = some j := by
      rw [List.getElem?_eq_getElem (by simpa using hlt)]; simp
    simp [h2, delta_ok_index h j e he]

theorem built_prev_states {delta : DFADelta} (h : delta_ok delta) (sd : List (List Int))
    (fin : List Int) (init : Int) (k : Nat) (hk : k < delta.length) (b : Bool) :
    (Graph.mk (built_table delta) sd fin init).prev_states (k : Int) b =
      some ((delta.filter (fun e => (if b then e.2.2 else e.2.1) = (k : Int))).map (·.1)) := by
  unfold Graph.prev_states
  simp only [vat_natCast, built_table_getElem?]
  have he : delta[k]? = some delta[k] := List.getElem?_eq_getElem hk
  have hi := delta_ok_index h k _ he
  rw [he]
  cases b <;>
    simp [linked_row, initial_rows, List.filter_map, hi, Function.comp_def]

theorem filter_map_fst_nodup {delta : DFADelta} (h : delta_ok delta)
    (p : Int × Int × Int → Bool) : ((delta.filter p).map (·.1)).Nodup := by
  have hsub : ((delta.filter p).map (·.1)).Sublist (delta.map (·.1)) :=
    (List.filter_sublist delta).map _
  apply hsub.nodup
  rw [delta_map_fst h]
  exact (List.nodup_range _).map (fun a b hab => by simpa using hab)

theorem mem_filter_map_fst {delta : DFADelta} (h : delta_ok delta) (b : Bool) (r q : Int) :
    q ∈ (delta.filter (fun e => (if b then e.2.2 else e.2.1) = r)).map (·.1) ↔
      (vat delta q).map (fun e => if b then e.2.2 else e.2.1) = some r := by
  constructor
  · intro hq
    simp only [List.mem_map, List.mem_filter] at hq
    obtain ⟨e, ⟨hmem, hp⟩, rfl⟩ := hq
    obtain ⟨j, hj, hje⟩ := List.mem_iff_getElem.1 hmem
    have he : delta[j]? = some e := by rw [List.getElem?_eq_getElem hj, hje]
    rw [delta_ok_index h j e he, vat_natCast, he]
    simpa using hp
  · intro hq
    cases hv : vat delta q with
    | none => simp [hv] at hq
    | some e =>
      obtain ⟨j, rfl, he⟩ := (vat_eq_some_iff _ _ _).1 hv
      simp only [hv, Option.map_some', Option.some.injEq] at hq
      simp only [List.mem_map, List.mem_filter]
      refine ⟨e, ⟨(List.getElem?_mem he), by simpa using hq⟩, delta_ok_index h j e he⟩

/-- The automaton built from an accepted transition list is well-formed as soon
as its initial state and final states are in range. -/
theorem built_well_formed {delta : DFADelta} (h : delta_ok delta) (sd : List (List Int))
    (fin : List Int) (init : Int)
    (hinit : 0 ≤ init ∧ init < (delta.length : Int))
    (hsorted : fin.Sorted (· < ·))
    (hfin : ∀ q ∈ fin, 0 ≤ q ∧ q < (delta.length : Int)) :
    (Graph.mk (built_table delta) sd fin init).well_formed := by
  have hsize : (Graph.mk (built_table delta) sd fin init).size = delta.length := by
    simp [Graph.size, built_table_length]
  refine ⟨?_, ?_, hsorted, ?_⟩
  · intro i hi t ht
    rw [hsize, List.mem_range] at hi
    have he : delta[i]? = some delta[i] := List.getElem?_eq_getElem hi
    have hidx := delta_ok_index h i _ he
    have hch := h.2 _ ((List.getElem?_mem he))
    have hp0 := built_prev_states h sd fin init i hi false
    have hp1 := built_prev_states h sd fin init i hi true
    simp only [Option.mem_def] at ht
    have ht2 : t = linked_row (initial_rows delta)
        (TableItem.mk delta[i].1 delta[i].2.1 delta[i].2.2 [] []) := by
      have := built_table_getElem? delta i
      simp only [he, Option.map_some'] at this
      have ht3 : (built_table delta)[i]? = some t := ht
      rw [this] at ht3
      exact (Option.some.inj ht3).symm
    have hpar0 : t.parents0 = (delta.filter (fun e => e.2.1 = (i : Int))).map (·.1) := by
      unfold Graph.prev_states at hp0
      rw [vat_natCast] at hp0
      have ht3 : (built_table delta)[i]? = some t := ht
      simp only [ht3, Option.map_some'] at hp0
      simpa using hp0
    have hpar1 : t.parents1 = (delta.filter (fun e => e.2.2 = (i : Int))).map (·.1) := by
      unfold Graph.prev_states at hp1
      rw [vat_natCast] at hp1
      have ht3 : (built_table delta)[i]? = some t := ht
      simp only [ht3, Option.map_some'] at hp1
      simpa using hp1
    refine ⟨?_, ?_, ?_, ?_, ?_, ?_, ?_, ?_, ?_⟩
    · rw [ht2]; simpa [linked_row] using hidx
    · rw [ht2]; simpa [linked_row, Graph.in_range, hsize] using hch.1
    · rw [ht2]; simpa [linked_row, Graph.in_range, hsize] using hch.2
    · rw [hpar0]; exact filter_map_fst_nodup h _
    · rw [hpar1]; exact filter_map_fst_nodup h _
    · intro q hq
      rw [hpar0] at hq
      rw [built_next_state]
      simpa using (mem_filter_map_fst h false (i : Int) q).1 (by simpa using hq)
    · intro q _ hq
      rw [built_next_state] at hq
      rw [hpar0]
      simpa using (mem_filter_map_fst h false (i : Int) q).2 (by simpa using hq)
    · intro q hq
      rw [hpar1] at hq
      rw [built_next_state]
      simpa using (mem_filter_map_fst h true (i : Int) q).1 (by simpa using hq)
    · intro q _ hq
      rw [built_next_state] at hq
      rw [hpar1]
      simpa using (mem_filter_map_fst h true (i : Int) q).2 (by simpa using hq)
  · simpa [Graph.in_range, hsize] using hinit
  · intro q hq
    simpa [Graph.in_range, hsize] using hfin q hq

end Homfa

namespace Homfa

/-! ## `std::set` insertion -/

theorem mem_set_insert (s : List Int) (x y : Int) :
    y ∈ set_insert s x ↔ y = x ∨ y ∈ s := by
  induction s with
  | nil => simp [set_insert]
  | cons a t ih =>
    simp only [set_insert]
    split
    · simp
    · split
      · subst_vars; simp
      · simp only [List.mem_cons, ih]; tauto

theorem set_insert_sorted (s : List Int) (x : Int) (h : s.Sorted (· < ·)) :
    (set_insert s x).Sorted (· < ·) := by
  induction s with
  | nil => simp [set_insert]
  | cons a t ih =>
    simp only [set_insert]
    split
    · rename_i hlt
      rw [List.sorted_cons]
      refine ⟨?_, h⟩
      intro b hb
      rcases List.mem_cons.1 hb with rfl | hb
      · exact hlt
      · exact lt_trans hlt ((List.sorted_cons.1 h).1 b hb)
    · split
      · exact h
      · rename_i h1 h2
        rw [List.sorted_cons] at h ⊢
        refine ⟨?_, ih h.2⟩
        intro b hb
        rcases (mem_set_insert t x b).1 hb with rfl | hb
        · omega
        · exact h.1 b hb

theorem mem_set_insert_all (xs : List Int) : ∀ (s : List Int) (y : Int),
    y ∈ set_insert_all s xs ↔ y ∈ s ∨ y ∈ xs := by
  induction xs with
  | nil => intro s y; simp [set_insert_all]
  | cons a t ih =>
    intro s y
    have := ih (set_insert s a) y
    simp only [set_insert_all, List.foldl_cons] at this ⊢
    rw [this, mem_set_insert]
    simp only [List.mem_cons]; tauto

theorem set_insert_all_sorted (xs : List Int) : ∀ (s : List Int),
    s.Sorted (· < ·) → (set_insert_all s xs).Sorted (· < ·) := by
  induction xs with
  | nil => intro s h; simpa [set_insert_all] using h
  | cons a t ih =>
    intro s h
    have := ih (set_insert s a) (set_insert_sorted s a h)
    simpa [set_insert_all] using this

theorem set_contains_iff (s : List Int) (x : Int) : set_contains s x = true ↔ x ∈ s := by
  simp [set_contains]

/-! ## Subset successors -/

theorem nfa_successors_spec (dn : NFADelta) (qs : List Int) :
    ∀ (acc : List Int × List Int),
    (∀ q ∈ qs, 0 ≤ q ∧ q < (dn.length : Int)) →
    ∃ r, nfa_successors dn qs acc = some r ∧
      (∀ y, y ∈ r.1 ↔ y ∈ acc.1 ∨ ∃ q ∈ qs, y ∈ nfa_next dn q false) ∧
      (∀ y, y ∈ r.2 ↔ y ∈ acc.2 ∨ ∃ q ∈ qs, y ∈ nfa_next dn q true) ∧
      (acc.1.Sorted (· < ·) → r.1.Sorted (· < ·)) ∧
      (acc.2.Sorted (· < ·) → r.2.Sorted (· < ·)) := by
  induction qs with
  | nil => intro acc _; exact ⟨acc, rfl, by simp, by simp, id, id⟩
  | cons q rest ih =>
    intro acc hr
    have hq := hr q (List.mem_cons_self _ _)
    have hne : vat dn q ≠ none := by
      rw [Ne, vat_eq_none_iff]; omega
    obtain ⟨e, he⟩ := Option.ne_none_iff_exists'.1 hne
    obtain ⟨r, hr1, hr2, hr3, hr4, hr5⟩ :=
      ih (set_insert_all acc.1 e.2.1, set_insert_all acc.2 e.2.2)
        (fun a ha => hr a (List.mem_cons_of_mem _ ha))
    refine ⟨r, ?_, ?_, ?_, ?_, ?_⟩
    · simp only [nfa_successors, he]; exact hr1
    · intro y
      rw [hr2, mem_set_insert_all]
      simp only [List.mem_cons, exists_eq_or_imp, nfa_next, he, Bool.false_eq_true, if_false]
      tauto
    · intro y
      rw [hr3, mem_set_insert_all]
      simp only [List.mem_cons, exists_eq_or_imp, nfa_next, he, if_true]
      tauto
    · intro h; exact hr4 (set_insert_all_sorted _ _ h)
    · intro h; exact hr5 (set_insert_all_sorted _ _ h)

theorem nfa_next_in_range {dn : NFADelta} (h : nfa_ok dn) (q : Int) (b : Bool) (r : Int)
    (hr : r ∈ nfa_next dn q b) : 0 ≤ r ∧ r < (dn.length : Int) := by
  unfold nfa_next at hr
  cases hv : vat dn q with
  | none => simp [hv] at hr
  | some e =>
    obtain ⟨j, _, he⟩ := (vat_eq_some_iff _ _ _).1 hv
    have := h e (List.getElem?_mem he)
    simp only [hv] at hr
    cases b
    · exact this.1 r (by simpa using hr)
    · exact this.2 r (by simpa using hr)

/-- On an in-range NFA the successor loop succeeds on every subset in range, and
its two results are again subsets in range, holding exactly the successors of
the members of the subset. -/
theorem nfa_successors_ok {dn : NFADelta} (h : nfa_ok dn) (qs : List Int)
    (hqs : subset_ok dn.length qs) :
    ∃ qs0 qs1, nfa_successors dn qs ([], []) = some (qs0, qs1) ∧
      subset_ok dn.length qs0 ∧ subset_ok dn.length qs1 ∧
      (∀ y, y ∈ qs0 ↔ ∃ q ∈ qs, y ∈ nfa_next dn q false) ∧
      (∀ y, y ∈ qs1 ↔ ∃ q ∈ qs, y ∈ nfa_next dn q true) := by
  obtain ⟨r, hr1, hr2, hr3, hr4, hr5⟩ := nfa_successors_spec dn qs ([], []) hqs.2
  refine ⟨r.1, r.2, hr1, ⟨hr4 (by simp), ?_⟩, ⟨hr5 (by simp), ?_⟩, ?_, ?_⟩
  · intro y hy
    obtain ⟨q, _, hq⟩ := by simpa using (hr2 y).1 hy
    exact nfa_next_in_range h q false y hq
  · intro y hy
    obtain ⟨q, _, hq⟩ := by simpa using (hr3 y).1 hy
    exact nfa_next_in_range h q true y hq
  · intro y; simpa using hr2 y
  · intro y; simpa using hr3 y

end Homfa

namespace Homfa

/-! ## The memo table of `from_nfa` -/

theorem map_ok_pos {α : Type} {m : List (α × Int)} (h : map_ok m) {S : α} {i : Int}
    (hmem : (S, i) ∈ m) : ∃ k : Nat, i = (k : Int) ∧ m[k]? = some (S, i) := by
  obtain ⟨k, hk, hke⟩ := List.mem_iff_getElem.1 hmem
  have hk2 : m[k]? = some (S, i) := by rw [List.getElem?_eq_getElem hk, hke]
  exact ⟨k, h.2 k _ hk2, hk2⟩

theorem map_ok_lt {α : Type} {m : List (α × Int)} (h : map_ok m) {S : α} {i : Int}
    (hmem : (S, i) ∈ m) : 0 ≤ i ∧ i < (m.length : Int) := by
  obtain ⟨k, rfl, hk⟩ := map_ok_pos h hmem
  have := (List.getElem?_eq_some_iff.1 hk).1
  omega

theorem map_ok_key_inj {α : Type} {m : List (α × Int)} (h : map_ok m) {S S' : α} {i : Int}
    (h1 : (S, i) ∈ m) (h2 : (S', i) ∈ m) : S = S' := by
  obtain ⟨k, hk, hk1⟩ := map_ok_pos h h1
  obtain ⟨k', hk', hk2⟩ := map_ok_pos h h2
  have : k = k' := by omega
  subst this
  rw [hk1] at hk2
  exact (Prod.mk.inj (Option.some.inj hk2)).1

theorem map_ok_id_inj {α : Type} {m : List (α × Int)} (h : map_ok m) {S : α} {i j : Int}
    (h1 : (S, i) ∈ m) (h2 : (S, j) ∈ m) : i = j := by
  obtain ⟨k, hk, hk1⟩ := map_ok_pos h h1
  obtain ⟨k', hk', hk2⟩ := map_ok_pos h h2
  have e1 : (m.map Prod.fst)[k]? = some S := by simp [hk1]
  have e2 : (m.map Prod.fst)[k']? = some S := by simp [hk2]
  have hlt1 := (List.getElem?_eq_some_iff.1 e1).1
  have hlt2 := (List.getElem?_eq_some_iff.1 e2).1
  have g1 := (List.getElem?_eq_some_iff.1 e1).2
  have g2 := (List.getElem?_eq_some_iff.1 e2).2
  have : k = k' := (List.Nodup.getElem_inj_iff h.1).1 (by rw [g1, g2])
  omega

theorem lookup_eq_none_iff {α : Type} [BEq α] [LawfulBEq α] (m : List (α × Int)) (S : α) :
    m.lookup S = none ↔ ∀ i, (S, i) ∉ m := by
  induction m with
  | nil => simp
  | cons p t ih =>
    obtain ⟨a, b⟩ := p
    simp only [List.lookup_cons]
    by_cases hab : S = a
    · subst hab
      simp only [beq_self_eq_true]
      constructor
      · intro h; simp at h
      · intro h; exact absurd (List.mem_cons_self _ _) (h b)
    · have : (S == a) = false := by simpa using hab
      simp only [this, ih, List.mem_cons, Prod.mk.injEq, hab, false_and, false_or]

theorem lookup_eq_some_mem {α : Type} [BEq α] [LawfulBEq α] (m : List (α × Int)) (S : α) (i : Int)
    (h : m.lookup S = some i) : (S, i) ∈ m := by
  induction m with
  | nil => simp at h
  | cons p t ih =>
    obtain ⟨a, b⟩ := p
    simp only [List.lookup_cons] at h
    by_cases hab : S = a
    · subst hab
      simp only [beq_self_eq_true, Option.some.injEq] at h
      subst h
      exact List.mem_cons_self _ _
    · have : (S == a) = false := by simpa using hab
      simp only [this] at h
      exact List.mem_cons_of_mem _ (ih h)

theorem lookup_of_mem {α : Type} [BEq α] [LawfulBEq α] {m : List (α × Int)} (hm : map_ok m) {S : α} {i : Int}
    (h : (S, i) ∈ m) : m.lookup S = some i := by
  cases hl : m.lookup S with
  | none => exact absurd h ((lookup_eq_none_iff m S).1 hl i)
  | some j =>
    have := map_ok_id_inj hm (lookup_eq_some_mem m S j hl) h
    rw [this]

theorem vat_append_left {α : Type} (d e : List α) (i : Int) (x : α)
    (h : vat d i = some x) : vat (d ++ e) i = some x := by
  obtain ⟨k, rfl, hk⟩ := (vat_eq_some_iff _ _ _).1 h
  rw [vat_natCast]
  have := (List.getElem?_eq_some_iff.1 hk).1
  rw [List.getElem?_append_left this]; exact hk

/-- What one call of `get_or_create_state` does to the memo table and to `df`. -/
theorem get_or_create_state_spec (m : List (List Int × Int)) (d : DFADelta) (S : List Int)
    (hm : map_ok m) (hl : d.length = m.length) :
    map_ok (get_or_create_state m d S).2.1 ∧
    (get_or_create_state m d S).2.2.length = (get_or_create_state m d S).2.1.length ∧
    (∀ p, p ∈ (get_or_create_state m d S).2.1 ↔
      p ∈ m ∨ p = (S, (get_or_create_state m d S).1)) ∧
    (∀ i e, vat d i = some e → vat (get_or_create_state m d S).2.2 i = some e) := by
  unfold get_or_create_state
  cases hlk : m.lookup S with
  | some i =>
    have hmem := lookup_eq_some_mem m S i hlk
    refine ⟨hm, hl, ?_, fun _ _ h => h⟩
    intro p
    constructor
    · intro h; exact Or.inl h
    · rintro (h | rfl)
      · exact h
      · exact hmem
  | none =>
    have hnot := (lookup_eq_none_iff m S).1 hlk
    refine ⟨⟨?_, ?_⟩, ?_, ?_, ?_⟩
    · simp only [List.map_append, List.map_cons, List.map_nil]
      rw [List.nodup_append]
      refine ⟨hm.1, by simp, ?_⟩
      intro a ha hb
      simp only [List.mem_singleton] at hb
      subst hb
      obtain ⟨p, hp, rfl⟩ := List.mem_map.1 ha
      exact hnot p.2 hp
    · intro i p hp
      by_cases hi : i < m.length
      · rw [List.getElem?_append_left hi] at hp
        exact hm.2 i p hp
      · rw [List.getElem?_append_right (by omega)] at hp
        have hi0 : i - m.length = 0 := by
          by_contra hne
          have h1 : 1 ≤ i - m.length := by omega
          have : ([(S, (d.length : Int))] : List (List Int × Int))[i - m.length]? = none :=
            List.getElem?_eq_none_iff.2 (by simpa using h1)
          rw [this] at hp
          exact Option.noConfusion hp
        rw [hi0] at hp
        simp only [List.getElem?_cons_zero, Option.some.injEq] at hp
        subst hp
        simp only
        omega
    · simp [hl]
    · intro p; simp
    · intro i e h; exact vat_append_left _ _ _ _ h

theorem map_ok_snoc {α : Type} {m : List (α × Int)} (hm : map_ok m) (S : α)
    (hnot : ∀ i, (S, i) ∉ m) : map_ok (m ++ [(S, (m.length : Int))]) := by
  refine ⟨?_, ?_⟩
  · simp only [List.map_append, List.map_cons, List.map_nil]
    rw [List.nodup_append]
    refine ⟨hm.1, by simp, ?_⟩
    intro a ha hb
    simp only [List.mem_singleton] at hb
    subst hb
    obtain ⟨p, hp, rfl⟩ := List.mem_map.1 ha
    exact hnot p.2 hp
  · intro i p hp
    by_cases hi : i < m.length
    · rw [List.getElem?_append_left hi] at hp
      exact hm.2 i p hp
    · rw [List.getElem?_append_right (by omega)] at hp
      have hi0 : i - m.length = 0 := by
        by_contra hne
        have h1 : 1 ≤ i - m.length := by omega
        have : ([(S, (m.length : Int))] : List (α × Int))[i - m.length]? = none :=
          List.getElem?_eq_none_iff.2 (by simpa using h1)
        rw [this] at hp
        exact Option.noConfusion hp
      rw [hi0] at hp
      simp only [List.getElem?_cons_zero, Option.some.injEq] at hp
      subst hp
      simp only
      omega

end Homfa

namespace Homfa

theorem vat_vset {α : Type} {d d' : List α} {i : Int} {x : α} (h : vset d i x = some d')
    (j : Int) : vat d' j = if j = i then some x else vat d j := by
  obtain ⟨k, rfl, hk, rfl⟩ := (vset_eq_some_iff _ _ _ _).1 h
  by_cases hj : j < 0
  · have : j ≠ (k : Int) := by omega
    simp [vat_neg _ _ hj, this]
  · lift j to ℕ using (by omega) with l
    simp only [vat_natCast, List.getElem?_set]
    by_cases hkl : k = l
    · subst hkl; simp [hk]
    · have : ¬ ((l : Int) = (k : Int)) := by omega
      simp [hkl, this]

theorem vset_length {α : Type} {d d' : List α} {i : Int} {x : α} (h : vset d i x = some d') :
    d'.length = d.length := by
  obtain ⟨k, rfl, hk, rfl⟩ := (vset_eq_some_iff _ _ _ _).1 h
  simp

theorem vset_isSome {α : Type} (d : List α) (i : Int) (x : α) (h0 : 0 ≤ i)
    (h1 : i < (d.length : Int)) : ∃ d', vset d i x = some d' := by
  lift i to ℕ using h0 with k
  exact ⟨_, vset_natCast d k x (by exact_mod_cast h1)⟩

/-- The skipping branch of the loop body. -/
theorem from_nfa_step_skip {q0n Fn : List Int} {dn : NFADelta} {s : NfaLoop} {qs : List Int}
    {rest : List (List Int)} (hq : s.que = qs :: rest) (hinv : NfaInv q0n Fn dn s)
    (hv : qs ∈ s.visited) :
    from_nfa_step Fn dn s qs rest = some { s with que := rest } ∧
      NfaInv q0n Fn dn { s with que := rest } := by
  constructor
  · unfold from_nfa_step
    simp [hv]
  · refine ⟨hinv.map, hinv.len, ?_, hinv.done, hinv.ff_sorted, hinv.ff_mem, ?_, hinv.vis_ok,
      hinv.vis_nodup, ?_⟩
    · intro p hp
      rcases hinv.pending p hp with h | h
      · exact Or.inl h
      · rw [hq] at h
        rcases List.mem_cons.1 h with h | h
        · exact Or.inl (h ▸ hv)
        · exact Or.inr h
    · intro S hS
      exact hinv.que_ok S (by rw [hq]; exact List.mem_cons_of_mem _ hS)
    · rcases hinv.start with h | h
      · rw [hq] at h
        rcases List.mem_cons.1 h with h | h
        · exact Or.inr (h ▸ hv)
        · exact Or.inl h
      · exact Or.inr h

/-- The processing branch of the loop body. -/
theorem from_nfa_step_visit {q0n Fn : List Int} {dn : NFADelta} (hdn : nfa_ok dn)
    {s : NfaLoop} {qs : List Int}
    {rest : List (List Int)} (hq : s.que = qs :: rest) (hinv : NfaInv q0n Fn dn s)
    (hv : qs ∉ s.visited) :
    ∃ s', from_nfa_step Fn dn s qs rest = some s' ∧ NfaInv q0n Fn dn s' ∧
      s'.visited = qs :: s.visited ∧ s'.que.length = rest.length + 2 := by
  have hqs_ok : subset_ok dn.length qs := hinv.que_ok qs (by rw [hq]; exact List.mem_cons_self _ _)
  obtain ⟨qs0, qs1, hsucc, hok0, hok1, -, -⟩ := nfa_successors_ok hdn qs hqs_ok
  obtain ⟨hm1, hl1, hmem1, hvat1⟩ :=
    get_or_create_state_spec s.st_map s.df qs hinv.map hinv.len
  generalize hr : get_or_create_state s.st_map s.df qs = r at hm1 hl1 hmem1 hvat1
  obtain ⟨hm2, hl2, hmem2, hvat2⟩ := get_or_create_state_spec r.2.1 r.2.2 qs0 hm1 hl1
  generalize hr0 : get_or_create_state r.2.1 r.2.2 qs0 = r0 at hm2 hl2 hmem2 hvat2
  obtain ⟨hm3, hl3, hmem3, hvat3⟩ := get_or_create_state_spec r0.2.1 r0.2.2 qs1 hm2 hl2
  generalize hr1 : get_or_create_state r0.2.1 r0.2.2 qs1 = r1 at hm3 hl3 hmem3 hvat3
  have hmem : ∀ p, p ∈ r1.2.1 ↔
      p ∈ s.st_map ∨ p = (qs, r.1) ∨ p = (qs0, r0.1) ∨ p = (qs1, r1.1) := by
    intro p; rw [hmem3, hmem2, hmem1]; tauto
  have hvat : ∀ i e, vat s.df i = some e → vat r1.2.2 i = some e :=
    fun i e h => hvat3 i e (hvat2 i e (hvat1 i e h))
  have hqsd : (qs, r.1) ∈ r1.2.1 := (hmem _).2 (Or.inr (Or.inl rfl))
  have hqs0d : (qs0, r0.1) ∈ r1.2.1 := (hmem _).2 (Or.inr (Or.inr (Or.inl rfl)))
  have hqs1d : (qs1, r1.1) ∈ r1.2.1 := (hmem _).2 (Or.inr (Or.inr (Or.inr rfl)))
  have hlt := map_ok_lt hm3 hqsd
  obtain ⟨df, hdf⟩ := vset_isSome r1.2.2 r.1 (r.1, r0.1, r1.1) hlt.1 (by rw [hl3]; exact hlt.2)
  have hold : ∀ S ∈ s.visited, ∀ i, (S, i) ∈ r1.2.1 → i ≠ r.1 := by
    intro S hS i hi heq
    subst heq
    have := map_ok_key_inj hm3 hi hqsd
    subst this
    exact hv hS
  refine ⟨{ st_map := r1.2.1, df := df,
             Ff := if (qs.any fun q => set_contains Fn q) = true then set_insert s.Ff r.1
                   else s.Ff,
             visited := qs :: s.visited, que := rest ++ [qs0, qs1] }, ?_, ?_, rfl, by simp⟩
  · unfold from_nfa_step
    have : s.visited.contains qs = false := by simpa using hv
    simp only [this, Bool.false_eq_true, if_false, hsucc, hr, hr0, hr1, hdf]
  · refine ⟨hm3, ?_, ?_, ?_, ?_, ?_, ?_, ?_, ?_, ?_⟩
    · show df.length = r1.2.1.length
      rw [vset_length hdf, hl3]
    · intro p hp
      rcases (hmem p).1 hp with h | rfl | rfl | rfl
      · rcases hinv.pending p h with h | h
        · exact Or.inl (List.mem_cons_of_mem _ h)
        · rw [hq] at h
          rcases List.mem_cons.1 h with h | h
          · exact Or.inl (h ▸ List.mem_cons_self _ _)
          · exact Or.inr (List.mem_append_left _ h)
      · exact Or.inl (List.mem_cons_self _ _)
      · exact Or.inr (by simp)
      · exact Or.inr (by simp)
    · intro S hS
      rcases List.mem_cons.1 hS with rfl | hS
      · refine ⟨r.1, qs0, qs1, r0.1, r1.1, hqsd, hsucc, hqs0d, hqs1d, ?_, ?_⟩
        · rw [vat_vset hdf]; simp
        · show r.1 ∈ (if (S.any fun q => set_contains Fn q) = true then set_insert s.Ff r.1
            else s.Ff) ↔ _
          by_cases hfin : (S.any fun q => set_contains Fn q) = true
          · simp [hfin, mem_set_insert]
          · simp only [hfin, if_false, Bool.false_eq_true, iff_false]
            intro hin
            obtain ⟨S', hS', hmem'⟩ := hinv.ff_mem _ hin
            exact hold S' hS' r.1 ((hmem _).2 (Or.inl hmem')) rfl
      · obtain ⟨i, S0, S1, i0, i1, h1, h2, h3, h4, h5, h6⟩ := hinv.done S hS
        have hne : i ≠ r.1 := hold S hS i ((hmem _).2 (Or.inl h1))
        refine ⟨i, S0, S1, i0, i1, (hmem _).2 (Or.inl h1), h2, (hmem _).2 (Or.inl h3),
          (hmem _).2 (Or.inl h4), ?_, ?_⟩
        · rw [vat_vset hdf, if_neg hne]; exact hvat _ _ h5
        · rw [← h6]
          show i ∈ (if (qs.any fun q => set_contains Fn q) = true then set_insert s.Ff r.1
            else s.Ff) ↔ _
          split
          · rw [mem_set_insert]; simp [hne]
          · rfl
    · show (if (qs.any fun q => set_contains Fn q) = true then set_insert s.Ff r.1
        else s.Ff).Sorted (· < ·)
      split
      · exact set_insert_sorted _ _ hinv.ff_sorted
      · exact hinv.ff_sorted
    · intro i hi
      have hi' : i = r.1 ∨ i ∈ s.Ff := by
        have hi2 : i ∈ (if (qs.any fun q => set_contains Fn q) = true then set_insert s.Ff r.1
          else s.Ff) := hi
        split at hi2
        · exact (mem_set_insert _ _ _).1 hi2
        · exact Or.inr hi2
      rcases hi' with rfl | hi'
      · exact ⟨qs, List.mem_cons_self _ _, hqsd⟩
      · obtain ⟨S, hS, hSm⟩ := hinv.ff_mem i hi'
        exact ⟨S, List.mem_cons_of_mem _ hS, (hmem _).2 (Or.inl hSm)⟩
    · intro S hS
      have hS' : S ∈ rest ++ [qs0, qs1] := hS
      rcases List.mem_append.1 hS' with h | h
      · exact hinv.que_ok S (by rw [hq]; exact List.mem_cons_of_mem _ h)
      · simp only [List.mem_cons, List.mem_singleton, List.not_mem_nil, or_false] at h
        rcases h with rfl | rfl
        · exact hok0
        · exact hok1
    · intro S hS
      rcases List.mem_cons.1 hS with rfl | hS
      · exact hqs_ok
      · exact hinv.vis_ok S hS
    · exact List.nodup_cons.2 ⟨hv, hinv.vis_nodup⟩
    · rcases hinv.start with h | h
      · rw [hq] at h
        rcases List.mem_cons.1 h with h | h
        · exact Or.inr (h ▸ List.mem_cons_self _ _)
        · exact Or.inl (List.mem_append_left _ h)
      · exact Or.inr (List.mem_cons_of_mem _ h)

end Homfa

namespace Homfa

/-- There are at most `2 ^ n` distinct `std::set`s of states below `n`. -/
theorem subsets_length_le (n : Nat) (L : List (List Int)) (hnd : L.Nodup)
    (hok : ∀ S ∈ L, subset_ok n S) : L.length ≤ 2 ^ n := by
  have hinj : ∀ S ∈ L, ∀ T ∈ L, S.toFinset = T.toFinset → S = T := by
    intro S hS T hT h
    have h1 := (hok S hS).1
    have h2 := (hok T hT).1
    exact List.eq_of_perm_of_sorted
      (List.perm_of_nodup_nodup_toFinset_eq h1.nodup h2.nodup h) h1 h2
  have hnd2 : (L.map List.toFinset).Nodup := List.Nodup.map_on hinj hnd
  have hsub : (L.map List.toFinset).toFinset ⊆ (Finset.Ico (0 : Int) n).powerset := by
    intro F hF
    simp only [List.mem_toFinset, List.mem_map] at hF
    obtain ⟨S, hS, rfl⟩ := hF
    rw [Finset.mem_powerset]
    intro x hx
    rw [List.mem_toFinset] at hx
    have := (hok S hS).2 x hx
    simp [Finset.mem_Ico, this.1, this.2]
  have hcard := Finset.card_le_card hsub
  rw [List.toFinset_card_of_nodup hnd2, Finset.card_powerset, Int.card_Ico] at hcard
  simpa using hcard

/-- The worklist loop of `from_nfa` terminates within the fuel that bounds its
potential, in a state that satisfies the invariant with an empty queue. -/
theorem from_nfa_loop_spec {q0n Fn : List Int} {dn : NFADelta} (hdn : nfa_ok dn) :
    ∀ (fuel : Nat) (s : NfaLoop), NfaInv q0n Fn dn s →
      s.que.length + 2 * (2 ^ dn.length - s.visited.length) ≤ fuel →
      ∃ s', from_nfa_loop Fn dn fuel s = some s' ∧ NfaInv q0n Fn dn s' ∧ s'.que = [] := by
  intro fuel
  induction fuel with
  | zero =>
    intro s hinv hpot
    have hq : s.que = [] := List.length_eq_zero.1 (by omega)
    refine ⟨s, ?_, hinv, hq⟩
    unfold from_nfa_loop; simp [hq]
  | succ fuel ih =>
    intro s hinv hpot
    cases hq : s.que with
    | nil =>
      refine ⟨s, ?_, hinv, hq⟩
      unfold from_nfa_loop; simp [hq]
    | cons qs rest =>
      have hvl := subsets_length_le dn.length s.visited hinv.vis_nodup hinv.vis_ok
      by_cases hv : qs ∈ s.visited
      · obtain ⟨hstep, hinv'⟩ := from_nfa_step_skip hq hinv hv
        obtain ⟨s', hs', hinv'', hq'⟩ := ih { s with que := rest } hinv' (by
          simp only [hq, List.length_cons] at hpot ⊢; omega)
        refine ⟨s', ?_, hinv'', hq'⟩
        rw [from_nfa_loop]
        simp only [hq, hstep, Option.some_bind]
        exact hs'
      · obtain ⟨s1, hstep, hinv', hvis, hlen⟩ := from_nfa_step_visit hdn hq hinv hv
        have hvl' := subsets_length_le dn.length s1.visited hinv'.vis_nodup hinv'.vis_ok
        obtain ⟨s', hs', hinv'', hq'⟩ := ih s1 hinv' (by
          rw [hvis, List.length_cons] at hvl' ⊢
          rw [hlen]
          simp only [hq, List.length_cons] at hpot
          omega)
        refine ⟨s', ?_, hinv'', hq'⟩
        rw [from_nfa_loop]
        simp only [hq, hstep, Option.some_bind]
        exact hs'

/-- The invariant holds when the loop is entered. -/
theorem nfa_inv_init (q0n Fn : List Int) (dn : NFADelta) (hq0 : subset_ok dn.length q0n) :
    NfaInv q0n Fn dn { st_map := [], df := [], Ff := [], visited := [], que := [q0n] } := by
  refine ⟨⟨by simp, by simp⟩, rfl, by simp, by simp, by simp, by simp, ?_, by simp, by simp,
    by simp⟩
  intro S hS
  simp only [List.mem_singleton] at hS
  subst hS; exact hq0

end Homfa

namespace Homfa

/-- When the loop has ended, `df` is a transition list the constructor accepts. -/
theorem nfa_inv_delta_ok {q0n Fn : List Int} {dn : NFADelta} {s : NfaLoop}
    (hinv : NfaInv q0n Fn dn s) (hq : s.que = []) : delta_ok s.df := by
  have hrow : ∀ (k : Nat), k < s.df.length → ∃ (i0 i1 : Int),
      s.df[k]? = some ((k : Int), i0, i1) ∧ (0 ≤ i0 ∧ i0 < (s.df.length : Int)) ∧
      (0 ≤ i1 ∧ i1 < (s.df.length : Int)) := by
    intro k hk
    rw [hinv.len] at hk
    have hp : s.st_map[k]? = some s.st_map[k] := List.getElem?_eq_getElem hk
    have hid := hinv.map.2 k _ hp
    have hmemp : s.st_map[k] ∈ s.st_map := List.getElem_mem hk
    have hvis : s.st_map[k].1 ∈ s.visited := by
      rcases hinv.pending _ hmemp with h | h
      · exact h
      · rw [hq] at h; simp at h
    obtain ⟨i, S0, S1, i0, i1, h1, h2, h3, h4, h5, h6⟩ := hinv.done _ hvis
    have hi : i = (k : Int) := by
      have : (s.st_map[k].1, s.st_map[k].2) ∈ s.st_map := hmemp
      rw [← hid]
      exact map_ok_id_inj hinv.map h1 this
    subst hi
    rw [vat_natCast] at h5
    refine ⟨i0, i1, h5, ?_, ?_⟩
    · rw [hinv.len]; exact map_ok_lt hinv.map h3
    · rw [hinv.len]; exact map_ok_lt hinv.map h4
  constructor
  · intro i hi e he
    rw [List.mem_range] at hi
    obtain ⟨i0, i1, h, -, -⟩ := hrow i hi
    have he' : s.df[i]? = some e := he
    rw [h] at he'
    rw [← Option.some.inj he']
  · intro e he
    obtain ⟨k, hk, hke⟩ := List.mem_iff_getElem.1 he
    obtain ⟨i0, i1, h, h0, h1⟩ := hrow k hk
    rw [List.getElem?_eq_getElem hk, hke] at h
    rw [Option.some.inj h]
    exact ⟨h0, h1⟩

/-- The result of `from_nfa` on an in-range NFA: the automaton the constructor
builds from the final `df`, with the id of `q0n` as its initial state. -/
theorem from_nfa_eq_some (q0n Fn : List Int) {dn : NFADelta} (hdn : nfa_ok dn)
    (hq0 : subset_ok dn.length q0n) :
    ∃ (s : NfaLoop) (i : Int), NfaInv q0n Fn dn s ∧ s.que = [] ∧ (q0n, i) ∈ s.st_map ∧
      delta_ok s.df ∧
      Graph.from_nfa q0n Fn dn = some (Graph.mk (built_table s.df) [] s.Ff i) := by
  obtain ⟨s, hloop, hinv, hq⟩ := from_nfa_loop_spec hdn (2 * 2 ^ dn.length + 1)
    { st_map := [], df := [], Ff := [], visited := [], que := [q0n] }
    (nfa_inv_init q0n Fn dn hq0) (by simp; omega)
  have hstart : q0n ∈ s.visited := by
    rcases hinv.start with h | h
    · rw [hq] at h; simp at h
    · exact h
  obtain ⟨i, S0, S1, i0, i1, h1, -⟩ := hinv.done _ hstart
  have hdok := nfa_inv_delta_ok hinv hq
  refine ⟨s, i, hinv, hq, h1, hdok, ?_⟩
  unfold Graph.from_nfa
  rw [hloop]
  simp only [Option.some_bind]
  have hgoc : get_or_create_state s.st_map s.df q0n = (i, s.st_map, s.df) := by
    unfold get_or_create_state
    rw [lookup_of_mem hinv.map h1]
  rw [hgoc]
  exact ctor_eq_some i s.Ff hdok

/-- Reading a word in the determinized automaton follows the subsets. -/
theorem from_nfa_run {q0n Fn : List Int} {dn : NFADelta} {s : NfaLoop}
    (hinv : NfaInv q0n Fn dn s) (hq : s.que = []) (init : Int) (w : Word) :
    ∀ (S : List Int) (i : Int), (S, i) ∈ s.st_map →
      ∃ (S' : List Int) (i' : Int), subset_run dn S w = some S' ∧ (S', i') ∈ s.st_map ∧
        (Graph.mk (built_table s.df) [] s.Ff init).run i w = some i' := by
  induction w with
  | nil => intro S i h; exact ⟨S, i, rfl, h, rfl⟩
  | cons b w ih =>
    intro S i h
    have hvis : S ∈ s.visited := by
      rcases hinv.pending _ h with h | h
      · exact h
      · rw [hq] at h; simp at h
    obtain ⟨j, S0, S1, i0, i1, h1, h2, h3, h4, h5, h6⟩ := hinv.done _ hvis
    have hj : j = i := map_ok_id_inj hinv.map h1 h
    subst hj
    obtain ⟨S', i', hS', hm', hrun⟩ :=
      ih (if b then S1 else S0) (if b then i1 else i0) (by cases b <;> simp [h3, h4])
    refine ⟨S', i', ?_, hm', ?_⟩
    · simp only [subset_run, h2, Option.some_bind]; exact hS'
    · simp only [Graph.run, built_next_state, h5, Option.map_some', Option.some_bind]
      exact hrun

/-- A state of the determinized automaton is final iff its subset meets `Fn`. -/
theorem from_nfa_final {q0n Fn : List Int} {dn : NFADelta} {s : NfaLoop}
    (hinv : NfaInv q0n Fn dn s) (hq : s.que = []) (init : Int) (S : List Int) (i : Int)
    (h : (S, i) ∈ s.st_map) :
    (Graph.mk (built_table s.df) [] s.Ff init).is_final_state i =
      S.any (fun q => set_contains Fn q) := by
  have hvis : S ∈ s.visited := by
    rcases hinv.pending _ h with h | h
    · exact h
    · rw [hq] at h; simp at h
  obtain ⟨j, S0, S1, i0, i1, h1, h2, h3, h4, h5, h6⟩ := hinv.done _ hvis
  have hj : j = i := map_ok_id_inj hinv.map h1 h
  subst hj
  rw [Bool.eq_iff_iff, ← h6]
  simp [Graph.is_final_state, set_contains]

theorem nfa_successors_in_range (dn : NFADelta) (qs : List Int) :
    ∀ (acc r : List Int × List Int), nfa_successors dn qs acc = some r →
      ∀ q ∈ qs, 0 ≤ q ∧ q < (dn.length : Int) := by
  induction qs with
  | nil => intro _ _ _ q hq; simp at hq
  | cons a rest ih =>
    intro acc r h q hq
    simp only [nfa_successors] at h
    cases hv : vat dn a with
    | none => simp [hv] at h
    | some e =>
      simp only [hv] at h
      rcases List.mem_cons.1 hq with rfl | hq
      · exact vat_lt hv
      · exact ih _ _ h q hq

/-- The non-deterministic runs follow the subsets as well. -/
theorem nfa_accepts_subset_run (dn : NFADelta) (F : List Int) (w : Word) :
    ∀ (S S' : List Int), subset_run dn S w = some S' →
      nfa_accepts dn S F w = S'.any (fun q => set_contains F q) := by
  induction w with
  | nil =>
    intro S S' h
    simp only [subset_run, Option.some.injEq] at h
    subst h
    simp [nfa_accepts, nfa_accepts_from, set_contains]
  | cons b w ih =>
    intro S S' h
    simp only [subset_run] at h
    cases hs : nfa_successors dn S ([], []) with
    | none => simp [hs] at h
    | some r =>
      simp only [hs, Option.some_bind] at h
      rw [← ih _ _ h]
      have hin : ∀ q ∈ S, 0 ≤ q ∧ q < (dn.length : Int) :=
        nfa_successors_in_range dn S _ _ hs
      obtain ⟨r', hr1, hr2, hr3, -, -⟩ := nfa_successors_spec dn S ([], []) hin
      rw [hs] at hr1
      have hrr : r = r' := Option.some.inj hr1
      subst hrr
      rw [Bool.eq_iff_iff]
      simp only [nfa_accepts, nfa_accepts_from, List.any_eq_true]
      constructor
      · rintro ⟨q, hq, y, hy, hacc⟩
        refine ⟨y, ?_, hacc⟩
        cases b
        · simpa using (hr2 y).2 (Or.inr ⟨q, hq, hy⟩)
        · simpa using (hr3 y).2 (Or.inr ⟨q, hq, hy⟩)
      · rintro ⟨y, hy, hacc⟩
        cases b
        · obtain ⟨q, hq, hqy⟩ := by simpa using (hr2 y).1 (by simpa using hy)
          exact ⟨q, hq, y, hqy, hacc⟩
        · obtain ⟨q, hq, hqy⟩ := by simpa using (hr3 y).1 (by simpa using hy)
          exact ⟨q, hq, y, hqy, hacc⟩

/-- What `from_nfa` returns on an in-range NFA accepts a word exactly when some
run of the NFA from a state of `q0n` ends in `Fn`. -/
theorem from_nfa_language (q0n Fn : List Int) {dn : NFADelta} (hdn : nfa_ok dn)
    (hq0 : subset_ok dn.length q0n) :
    ∃ g : Graph, Graph.from_nfa q0n Fn dn = some g ∧
      ∀ w : Word, g.accepts w = nfa_accepts dn q0n Fn w := by
  obtain ⟨s, i, hinv, hq, hmem, -, hres⟩ := from_nfa_eq_some q0n Fn hdn hq0
  refine ⟨_, hres, ?_⟩
  intro w
  obtain ⟨S', i', hS', hm', hrun⟩ := from_nfa_run hinv hq i w q0n i hmem
  rw [nfa_accepts_subset_run dn Fn w q0n S' hS']
  simp only [Graph.accepts, Graph.accepts_from, Graph.initial_state, hrun]
  exact from_nfa_final hinv hq i S' i' hm'

end Homfa

namespace Homfa

/-! ## Consequences of well-formedness -/

theorem mem_all_states (g : Graph) (q : Int) : q ∈ g.all_states ↔ g.in_range q := by
  unfold Graph.all_states Graph.in_range
  simp only [List.mem_map, List.mem_range]
  constructor
  · rintro ⟨k, hk, rfl⟩
    simp only [Int.ofNat_eq_coe]; omega
  · rintro ⟨h0, h1⟩
    exact ⟨q.toNat, by omega, by simp only [Int.ofNat_eq_coe]; omega⟩

theorem next_state_in_range {g : Graph} {q r : Int} {b : Bool}
    (h : g.next_state q b = some r) : g.in_range q := by
  unfold Graph.next_state at h
  cases hv : vat g.table_ q with
  | none => simp [hv] at h
  | some t => exact vat_lt hv

theorem prev_states_in_range {g : Graph} {q : Int} {ps : List Int} {b : Bool}
    (h : g.prev_states q b = some ps) : g.in_range q := by
  unfold Graph.prev_states at h
  cases hv : vat g.table_ q with
  | none => simp [hv] at h
  | some t => exact vat_lt hv

theorem wf_row {g : Graph} (h : g.well_formed) {q : Int} (hq : g.in_range q) :
    ∃ (k : Nat) (t : TableItem), q = (k : Int) ∧ vat g.table_ q = some t ∧ g.row_ok k t := by
  obtain ⟨h0, h1⟩ := hq
  lift q to ℕ using h0 with k
  have hk : k < g.table_.length := by
    unfold Graph.size at h1; exact_mod_cast h1
  have ht : g.table_[k]? = some g.table_[k] := List.getElem?_eq_getElem hk
  refine ⟨k, g.table_[k], rfl, by rw [vat_natCast]; exact ht, ?_⟩
  exact h.1 k (List.mem_range.2 hk) _ ht

theorem wf_next_state {g : Graph} (h : g.well_formed) {q : Int} (hq : g.in_range q)
    (b : Bool) : ∃ r, g.next_state q b = some r ∧ g.in_range r := by
  obtain ⟨k, t, rfl, ht, hrow⟩ := wf_row h hq
  refine ⟨if b then t.child1 else t.child0, by simp [Graph.next_state, ht], ?_⟩
  cases b
  · simpa using hrow.2.1
  · simpa using hrow.2.2.1

theorem wf_next_state_range {g : Graph} (h : g.well_formed) {q r : Int} {b : Bool}
    (hn : g.next_state q b = some r) : g.in_range r := by
  obtain ⟨r', h1, h2⟩ := wf_next_state h (next_state_in_range hn) b
  rw [hn] at h1
  rw [Option.some.inj h1]; exact h2

theorem wf_prev_states {g : Graph} (h : g.well_formed) {r : Int} (hr : g.in_range r)
    (b : Bool) : ∃ ps, g.prev_states r b = some ps ∧ ps.Nodup ∧
      ∀ q, q ∈ ps ↔ g.next_state q b = some r := by
  obtain ⟨k, t, rfl, ht, hrow⟩ := wf_row h hr
  obtain ⟨-, -, -, hn0, hn1, ha0, hb0, ha1, hb1⟩ := hrow
  refine ⟨if b then t.parents1 else t.parents0, by simp [Graph.prev_states, ht], ?_, ?_⟩
  · cases b
    · simpa using hn0
    · simpa using hn1
  · intro q
    cases b
    · simp only [Bool.false_eq_true, if_false]
      exact ⟨ha0 q, fun hq => hb0 q ((mem_all_states g q).2 (next_state_in_range hq)) hq⟩
    · simp only [if_true]
      exact ⟨ha1 q, fun hq => hb1 q ((mem_all_states g q).2 (next_state_in_range hq)) hq⟩

theorem wf_run {g : Graph} (h : g.well_formed) (w : Word) :
    ∀ {q : Int}, g.in_range q → ∃ r, g.run q w = some r ∧ g.in_range r := by
  induction w with
  | nil => intro q hq; exact ⟨q, rfl, hq⟩
  | cons b w ih =>
    intro q hq
    obtain ⟨r, hr, hrr⟩ := wf_next_state h hq b
    obtain ⟨r', hr', hrr'⟩ := ih hrr
    exact ⟨r', by simp [Graph.run, hr, hr'], hrr'⟩

theorem run_append (g : Graph) (u v : Word) :
    ∀ q : Int, g.run q (u ++ v) = (g.run q u).bind (fun r => g.run r v) := by
  induction u with
  | nil => intro q; simp [Graph.run]
  | cons b u ih =>
    intro q
    simp only [List.cons_append, Graph.run]
    cases g.next_state q b with
    | none => simp
    | some r => simp [ih r]

/-! ## Reversal -/

theorem reversed_delta_spec {g : Graph} (h : g.well_formed) (qs : List Int) :
    ∀ (delta : NFADelta), delta.length = g.size → (∀ q ∈ qs, g.in_range q) →
      ∃ delta', reversed_delta g qs delta = some delta' ∧ delta'.length = g.size ∧
        ∀ x : Int, (x ∈ qs → ∃ p0 p1, g.prev_states x false = some p0 ∧
            g.prev_states x true = some p1 ∧ vat delta' x = some (x, p0, p1)) ∧
          (x ∉ qs → vat delta' x = vat delta x) := by
  induction qs with
  | nil =>
    intro delta hl _
    exact ⟨delta, rfl, hl, fun x => ⟨fun hx => by simp at hx, fun _ => rfl⟩⟩
  | cons q rest ih =>
    intro delta hl hqs
    have hq := hqs q (List.mem_cons_self _ _)
    obtain ⟨p0, hp0, -, -⟩ := wf_prev_states h hq false
    obtain ⟨p1, hp1, -, -⟩ := wf_prev_states h hq true
    obtain ⟨d1, hd1⟩ := vset_isSome delta q (q, p0, p1) hq.1 (by rw [hl]; exact hq.2)
    obtain ⟨delta', hres, hlen, hspec⟩ := ih d1 (by rw [vset_length hd1, hl])
      (fun a ha => hqs a (List.mem_cons_of_mem _ ha))
    refine ⟨delta', ?_, hlen, ?_⟩
    · simp only [reversed_delta, hp0, hp1, hd1, Option.some_bind]; exact hres
    · intro x
      constructor
      · intro hx
        by_cases hxr : x ∈ rest
        · exact (hspec x).1 hxr
        · have hxq : x = q := by
            rcases List.mem_cons.1 hx with h | h
            · exact h
            · exact absurd h hxr
          subst hxq
          refine ⟨p0, p1, hp0, hp1, ?_⟩
          rw [(hspec x).2 hxr, vat_vset hd1]; simp
      · intro hx
        have hxr : x ∉ rest := fun h => hx (List.mem_cons_of_mem _ h)
        have hxq : x ≠ q := fun h => hx (h ▸ List.mem_cons_self _ _)
        rw [(hspec x).2 hxr, vat_vset hd1, if_neg hxq]

/-- The relation `reversed` hands to `from_nfa` lists, for every state, exactly
its predecessors. -/
theorem reversed_delta_ok {g : Graph} (h : g.well_formed) :
    ∃ delta, reversed_delta g g.all_states (List.replicate g.size (0, [], [])) = some delta ∧
      delta.length = g.size ∧
      (∀ (q r : Int) (b : Bool), r ∈ nfa_next delta q b ↔ g.next_state r b = some q) ∧
      nfa_ok delta := by
  obtain ⟨delta, hres, hlen, hspec⟩ := reversed_delta_spec h g.all_states
    (List.replicate g.size (0, [], [])) (by simp) (fun q hq => (mem_all_states g q).1 hq)
  have hnext : ∀ (q r : Int) (b : Bool),
      r ∈ nfa_next delta q b ↔ g.next_state r b = some q := by
    intro q r b
    by_cases hq : g.in_range q
    · obtain ⟨p0, p1, hp0, hp1, hv⟩ := (hspec q).1 ((mem_all_states g q).2 hq)
      obtain ⟨ps, hps, -, hmem⟩ := wf_prev_states h hq b
      simp only [nfa_next, hv]
      cases b
      · rw [hp0] at hps
        simp only [Bool.false_eq_true, if_false]
        rw [Option.some.inj hps]; exact hmem r
      · rw [hp1] at hps
        simp only [if_true]
        rw [Option.some.inj hps]; exact hmem r
    · have hv : vat delta q = none := by
        rw [vat_eq_none_iff, hlen]
        unfold Graph.in_range at hq; omega
      simp only [nfa_next, hv, List.not_mem_nil, false_iff]
      intro hn
      exact hq (wf_next_state_range h hn)
  refine ⟨delta, hres, hlen, hnext, ?_⟩
  intro e he
  obtain ⟨k, hk, hke⟩ := List.mem_iff_getElem.1 he
  have hv : vat delta (k : Int) = some e := by
    rw [vat_natCast, List.getElem?_eq_getElem hk, hke]
  constructor
  · intro r hr
    have : r ∈ nfa_next delta (k : Int) false := by simpa [nfa_next, hv] using hr
    have := next_state_in_range ((hnext _ _ _).1 this)
    rw [hlen]; exact this
  · intro r hr
    have : r ∈ nfa_next delta (k : Int) true := by simpa [nfa_next, hv] using hr
    have := next_state_in_range ((hnext _ _ _).1 this)
    rw [hlen]; exact this

/-- A run of the reversed relation from `q` to `p` on `w` is a run of the
automaton from `p` to `q` on the reverse of `w`. -/
theorem reversed_accepts_from {g : Graph} {delta : NFADelta}
    (hnext : ∀ (q r : Int) (b : Bool), r ∈ nfa_next delta q b ↔ g.next_state r b = some q)
    (p : Int) (w : Word) :
    ∀ q : Int, nfa_accepts_from delta [p] q w = true ↔ g.run p w.reverse = some q := by
  induction w with
  | nil =>
    intro q
    simp only [nfa_accepts_from, List.reverse_nil, Graph.run, Option.some.injEq]
    simp [eq_comm]
  | cons b w ih =>
    intro q
    simp only [nfa_accepts_from, List.any_eq_true, List.reverse_cons, run_append]
    constructor
    · rintro ⟨r, hr, hacc⟩
      rw [(ih r).1 hacc]
      simp [Graph.run, (hnext q r b).1 hr]
    · intro hrun
      cases hr : g.run p w.reverse with
      | none => simp [hr] at hrun
      | some r =>
        simp only [hr, Option.some_bind, Graph.run] at hrun
        cases hn : g.next_state r b with
        | none => simp [hn] at hrun
        | some q' =>
          simp only [hn, Option.some_bind, Option.some.injEq] at hrun
          subst hrun
          exact ⟨r, (hnext _ _ _).2 hn, (ih r).2 hr⟩

end Homfa

namespace Homfa

/-! ## The traversal of `removed_unreachable` -/

theorem set_insert_of_mem (s : List Int) (x : Int) (hs : s.Sorted (· < ·)) (hx : x ∈ s) :
    set_insert s x = s := by
  induction s with
  | nil => simp at hx
  | cons a t ih =>
    rw [List.sorted_cons] at hs
    simp only [set_insert]
    rcases List.mem_cons.1 hx with rfl | hx
    · simp
    · have := hs.1 x hx
      have h1 : ¬ x < a := by omega
      have h2 : ¬ x = a := by omega
      simp [h1, h2, ih hs.2 hx]

theorem set_insert_length (s : List Int) (x : Int) (hs : s.Sorted (· < ·)) :
    (set_insert s x).length = if x ∈ s then s.length else s.length + 1 := by
  by_cases hx : x ∈ s
  · rw [set_insert_of_mem s x hs hx, if_pos hx]
  · rw [if_neg hx]
    induction s with
    | nil => simp [set_insert]
    | cons a t ih =>
      rw [List.sorted_cons] at hs
      simp only [List.mem_cons, not_or] at hx
      simp only [set_insert]
      split
      · simp
      · simp [hx.1, ih hs.2 hx.2]

theorem sorted_range_length_le (n : Nat) (s : List Int) (hs : s.Sorted (· < ·))
    (hr : ∀ q ∈ s, 0 ≤ q ∧ q < (n : Int)) : s.length ≤ n := by
  have hsub : s ⊆ (List.range n).map Int.ofNat := by
    intro q hq
    have := hr q hq
    simp only [List.mem_map, List.mem_range]
    exact ⟨q.toNat, by omega, by simp only [Int.ofNat_eq_coe]; omega⟩
  have := (List.Nodup.subperm hs.nodup hsub).length_le
  simpa using this

theorem reach_in_range {g : Graph} (h : g.well_formed) {q : Int} (hq : g.reach q) :
    g.in_range q := by
  obtain ⟨w, hw⟩ := hq
  obtain ⟨r, hr, hrr⟩ := wf_run h w h.2.1
  unfold Graph.initial_state at hw
  rw [hw] at hr
  rw [Option.some.inj hr]; exact hrr

theorem reach_next {g : Graph} {q r : Int} {b : Bool} (hq : g.reach q)
    (hn : g.next_state q b = some r) : g.reach r := by
  obtain ⟨w, hw⟩ := hq
  exact ⟨w ++ [b], by simp [run_append, hw, Graph.run, hn]⟩

theorem reach_initial (g : Graph) : g.reach g.initial_state := ⟨[], rfl⟩

theorem three_pow_step {a b : Nat} (h : a < b) : 2 * 3 ^ a + 1 ≤ 3 ^ b := by
  have h1 : 3 ^ (a + 1) ≤ 3 ^ b := Nat.pow_le_pow_right (by norm_num) h
  have h2 : 1 ≤ 3 ^ a := Nat.one_le_pow _ _ (by norm_num)
  rw [pow_succ] at h1
  omega

/-- One iteration of the traversal keeps the invariant and lowers the potential. -/
theorem reach_step_spec {g : Graph} (h : g.well_formed) {s : ReachLoop} {q : Int}
    {rest : List Int} (hq : s.que = q :: rest) (hinv : ReachInv g s)
    {qr : List (Int × Nat)} (hrk : ranks_ok g s qr) :
    ∃ s' qr', reach_step g s q rest = some s' ∧ ReachInv g s' ∧ ranks_ok g s' qr' ∧
      rank_potential qr' + 1 ≤ rank_potential qr := by
  have hqreach : g.reach q := hinv.que_sound q (by rw [hq]; exact List.mem_cons_self _ _)
  have hqr := reach_in_range h hqreach
  obtain ⟨q0, hq0, -⟩ := wf_next_state h hqr false
  obtain ⟨q1, hq1, -⟩ := wf_next_state h hqr true
  -- split the ranked queue
  obtain ⟨hmap, hranks⟩ := hrk
  rw [hq] at hmap
  cases qr with
  | nil => simp at hmap
  | cons p qr' =>
    simp only [List.map_cons, List.cons.injEq] at hmap
    obtain ⟨hp1, hmap'⟩ := hmap
    have hR'sorted : (set_insert s.reachable q).Sorted (· < ·) :=
      set_insert_sorted _ _ hinv.sorted
    have hR'sound : ∀ x ∈ set_insert s.reachable q, g.reach x := by
      intro x hx
      rcases (mem_set_insert _ _ _).1 hx with rfl | hx
      · exact hqreach
      · exact hinv.sound x hx
    have hR'len : (set_insert s.reachable q).length ≤ g.size :=
      sorted_range_length_le g.size _ hR'sorted (fun x hx => reach_in_range h (hR'sound x hx))
    have hlen := set_insert_length s.reachable q hinv.sorted
    have hp := hranks p (List.mem_cons_self _ _)
    rw [hp1] at hp
    -- the rank of the entries pushed in this iteration
    set u' := g.size - (set_insert s.reachable q).length with hu'
    have hu'lt : u' < p.2 := by
      by_cases hqR : q ∈ s.reachable
      · rw [if_pos hqR] at hlen
        have := hp.2 hqR
        omega
      · rw [if_neg hqR] at hlen
        have := hp.1 hqR
        omega
    have hu'le : u' ≤ g.size - s.reachable.length := by
      split at hlen <;> omega
    set new0 : List (Int × Nat) :=
      if set_contains (set_insert s.reachable q) q0 then [] else [(q0, u')] with hnew0
    set new1 : List (Int × Nat) :=
      if set_contains (set_insert s.reachable q) q1 then [] else [(q1, u')] with hnew1
    refine ⟨{ reachable := set_insert s.reachable q,
              que := (if set_contains (set_insert s.reachable q) q1 then
                        (if set_contains (set_insert s.reachable q) q0 then rest
                         else rest ++ [q0])
                      else (if set_contains (set_insert s.reachable q) q0 then rest
                         else rest ++ [q0]) ++ [q1]) },
            qr' ++ new0 ++ new1, ?_, ?_, ?_, ?_⟩
    · simp only [reach_step, hq0, hq1]
    · refine ⟨hR'sorted, hR'sound, ?_, ?_, ?_⟩
      · intro x hx
        have hx' : x ∈ rest ∨ x = q0 ∨ x = q1 := by
          simp only at hx
          split at hx <;> split at hx <;> (try simp at hx) <;> tauto
        rcases hx' with hx' | rfl | rfl
        · exact hinv.que_sound x (by rw [hq]; exact List.mem_cons_of_mem _ hx')
        · exact reach_next hqreach hq0
        · exact reach_next hqreach hq1
      · simp only
        rcases hinv.start with hs | hs
        · exact Or.inl ((mem_set_insert _ _ _).2 (Or.inr hs))
        · rw [hq] at hs
          rcases List.mem_cons.1 hs with hs | hs
          · exact Or.inl ((mem_set_insert _ _ _).2 (Or.inl hs))
          · right
            split <;> split <;> simp [hs]
      · intro x hx b r hn
        simp only at hx ⊢
        rcases (mem_set_insert _ _ _).1 hx with rfl | hx
        · have hr : r = q0 ∨ r = q1 := by
            cases b
            · rw [hq0] at hn; exact Or.inl (Option.some.inj hn).symm
            · rw [hq1] at hn; exact Or.inr (Option.some.inj hn).symm
          rcases hr with rfl | rfl
          · by_cases hc : set_contains (set_insert s.reachable x) r = true
            · exact Or.inl ((set_contains_iff _ _).1 hc)
            · right
              split <;> simp [hc]
          · by_cases hc : set_contains (set_insert s.reachable x) r = true
            · exact Or.inl ((set_contains_iff _ _).1 hc)
            · right
              simp [hc]
        · rcases hinv.closed x hx b r hn with hr | hr
          · exact Or.inl ((mem_set_insert _ _ _).2 (Or.inr hr))
          · rw [hq] at hr
            rcases List.mem_cons.1 hr with hr | hr
            · exact Or.inl ((mem_set_insert _ _ _).2 (Or.inl hr))
            · right
              split <;> split <;> simp [hr]
    · constructor
      · simp only [List.map_append, hmap', hnew0, hnew1]
        split <;> split <;> simp
      · intro x hx
        simp only
        rcases List.mem_append.1 hx with hx | hx
        · rcases List.mem_append.1 hx with hx | hx
          · have hold := hranks x (List.mem_cons_of_mem _ hx)
            constructor
            · intro hnot
              have : x.1 ∉ s.reachable := fun hh => hnot ((mem_set_insert _ _ _).2 (Or.inr hh))
              have := hold.1 this
              omega
            · intro hin
              rcases (mem_set_insert _ _ _).1 hin with heq | hin
              · by_cases hqR : q ∈ s.reachable
                · have := hold.2 (heq ▸ hqR)
                  omega
                · have := hold.1 (heq ▸ hqR)
                  rw [if_neg hqR] at hlen
                  omega
              · have := hold.2 hin
                omega
          · rw [hnew0] at hx
            split at hx
            · simp at hx
            · rename_i hc
              simp only [List.mem_singleton] at hx
              subst hx
              simp only [le_refl, implies_true, true_and]
              intro hin
              exact absurd ((set_contains_iff _ _).2 hin) hc
        · rw [hnew1] at hx
          split at hx
          · simp at hx
          · rename_i hc
            simp only [List.mem_singleton] at hx
            subst hx
            simp only [le_refl, implies_true, true_and]
            intro hin
            exact absurd ((set_contains_iff _ _).2 hin) hc
    · have hstep := three_pow_step hu'lt
      have h0 : rank_potential new0 ≤ 3 ^ u' := by
        rw [hnew0]; split <;> simp [rank_potential]
      have h1 : rank_potential new1 ≤ 3 ^ u' := by
        rw [hnew1]; split <;> simp [rank_potential]
      have happ : ∀ a b : List (Int × Nat),
          rank_potential (a ++ b) = rank_potential a + rank_potential b := by
        intro a b; simp [rank_potential]
      have hcons : rank_potential (p :: qr') = 3 ^ p.2 + rank_potential qr' := by
        simp [rank_potential]
      rw [happ, happ, hcons]
      omega

end Homfa

namespace Homfa

theorem reach_loop_spec {g : Graph} (h : g.well_formed) :
    ∀ (fuel : Nat) (s : ReachLoop) (qr : List (Int × Nat)), ReachInv g s → ranks_ok g s qr →
      rank_potential qr ≤ fuel →
      ∃ s', reach_loop g fuel s = some s' ∧ ReachInv g s' ∧ s'.que = [] := by
  intro fuel
  induction fuel with
  | zero =>
    intro s qr hinv hrk hpot
    have hqr : qr = [] := by
      cases qr with
      | nil => rfl
      | cons p t =>
        have : 1 ≤ 3 ^ p.2 := Nat.one_le_pow _ _ (by norm_num)
        simp only [rank_potential, List.map_cons, List.sum_cons] at hpot
        omega
    have hq : s.que = [] := by rw [← hrk.1, hqr]; rfl
    refine ⟨s, ?_, hinv, hq⟩
    unfold reach_loop; simp [hq]
  | succ fuel ih =>
    intro s qr hinv hrk hpot
    cases hq : s.que with
    | nil =>
      refine ⟨s, ?_, hinv, hq⟩
      unfold reach_loop; simp [hq]
    | cons q rest =>
      obtain ⟨s1, qr1, hstep, hinv1, hrk1, hpot1⟩ := reach_step_spec h hq hinv hrk
      obtain ⟨s', hs', hinv', hq'⟩ := ih s1 qr1 hinv1 hrk1 (by omega)
      refine ⟨s', ?_, hinv', hq'⟩
      rw [reach_loop]
      simp only [hq, hstep, Option.some_bind]
      exact hs'

/-- The traversal of a well-formed automaton ends with exactly the reachable
states, as a strictly increasing list. -/
theorem reach_loop_result {g : Graph} (h : g.well_formed) :
    ∃ s, reach_loop g (3 ^ g.size) { reachable := [], que := [g.initial_state] } = some s ∧
      s.reachable.Sorted (· < ·) ∧ ∀ q, q ∈ s.reachable ↔ g.reach q := by
  obtain ⟨s, hs, hinv, hq⟩ := reach_loop_spec h (3 ^ g.size)
    { reachable := [], que := [g.initial_state] } [(g.initial_state, g.size)]
    ⟨by simp, by simp, by
        intro q hq
        simp only [List.mem_singleton] at hq
        subst hq; exact reach_initial g,
      by simp, by simp⟩
    ⟨by simp, by simp⟩ (by simp [rank_potential])
  refine ⟨s, hs, hinv.sorted, fun q => ⟨hinv.sound q, ?_⟩⟩
  rintro ⟨w, hw⟩
  have hstart : g.initial_state ∈ s.reachable := by
    rcases hinv.start with h | h
    · exact h
    · rw [hq] at h; simp at h
  revert q
  induction w using List.reverseRecOn with
  | nil =>
    intro q hw
    simp only [Graph.run, Option.some.injEq] at hw
    subst hw; exact hstart
  | append_singleton u b ih =>
    intro q hw
    rw [run_append] at hw
    cases hr : g.run g.initial_state u with
    | none => simp [hr] at hw
    | some r =>
      simp only [hr, Option.some_bind, Graph.run] at hw
      cases hn : g.next_state r b with
      | none => simp [hn] at hw
      | some q' =>
        simp only [hn, Option.some_bind, Option.some.injEq] at hw
        subst hw
        rcases hinv.closed r (ih r hr) b q' hn with h | h
        · exact h
        · rw [hq] at h; simp at h

/-! ## The relabeling of `removed_unreachable` -/

theorem build_old2new_spec (rest : List Int) :
    ∀ m : List (Int × Int), map_ok m → (m.map Prod.fst ++ rest).Nodup →
      map_ok (build_old2new rest m) ∧
      (build_old2new rest m).map Prod.fst = m.map Prod.fst ++ rest := by
  induction rest with
  | nil => intro m hm _; simp [build_old2new, hm]
  | cons old rest ih =>
    intro m hm hnd
    have hnot : ∀ i, (old, i) ∉ m := by
      intro i hi
      have h1 : old ∈ m.map Prod.fst := List.mem_map.2 ⟨(old, i), hi, rfl⟩
      have := (List.nodup_append.1 hnd).2.2 h1 (List.mem_cons_self _ _)
      exact this
    have hlk : m.lookup old = none := (lookup_eq_none_iff m old).2 hnot
    simp only [build_old2new, hlk, Option.isSome_none, Bool.false_eq_true, if_false]
    have hm' := map_ok_snoc hm old hnot
    obtain ⟨h1, h2⟩ := ih (m ++ [(old, (m.length : Int))]) hm' (by
      simpa using hnd)
    exact ⟨h1, by rw [h2]; simp⟩

theorem relabel_finals_spec (R : List Int) (o : List (Int × Int))
    (ho : ∀ q ∈ R, ∃ i, o.lookup q = some i) (fin : List Int) :
    ∀ acc : List Int, acc.Sorted (· < ·) →
      ∃ F, relabel_finals R o fin acc = some F ∧ F.Sorted (· < ·) ∧
        ∀ n, n ∈ F ↔ n ∈ acc ∨ ∃ q ∈ fin, q ∈ R ∧ o.lookup q = some n := by
  induction fin with
  | nil => intro acc hacc; exact ⟨acc, rfl, hacc, by simp⟩
  | cons q rest ih =>
    intro acc hacc
    by_cases hq : q ∈ R
    · obtain ⟨i, hi⟩ := ho q hq
      obtain ⟨F, hF, hFs, hFm⟩ := ih (set_insert acc i) (set_insert_sorted _ _ hacc)
      refine ⟨F, ?_, hFs, ?_⟩
      · simp only [relabel_finals, (set_contains_iff R q).2 hq, if_true, hi]; exact hF
      · intro n
        rw [hFm, mem_set_insert]
        simp only [List.mem_cons, exists_eq_or_imp, hq, true_and, hi, Option.some.injEq]
        constructor
        · rintro ((h | h) | h)
          · exact Or.inr (Or.inl h.symm)
          · exact Or.inl h
          · exact Or.inr (Or.inr h)
        · rintro (h | h | h)
          · exact Or.inl (Or.inr h)
          · exact Or.inl (Or.inl h.symm)
          · exact Or.inr h
    · obtain ⟨F, hF, hFs, hFm⟩ := ih acc hacc
      refine ⟨F, ?_, hFs, ?_⟩
      · have : set_contains R q = false := by
          rw [← Bool.not_eq_true, set_contains_iff]; exact hq
        simp only [relabel_finals, this, Bool.false_eq_true, if_false]; exact hF
      · intro n
        rw [hFm]
        simp only [List.mem_cons, exists_eq_or_imp, hq, false_and, false_or]

theorem relabel_delta_spec (R : List Int) (o : List (Int × Int)) (n : Nat)
    (hdom : ∀ q i, o.lookup q = some i → q ∈ R ∧ 0 ≤ i ∧ i < (n : Int))
    (rows : List TableItem) :
    ∀ delta : DFADelta, delta.length = n →
      (∀ row ∈ rows, row.index ∈ R → ∃ x0 x1, o.lookup row.child0 = some x0 ∧
        o.lookup row.child1 = some x1 ∧ ∃ x, o.lookup row.index = some x) →
      ∃ delta', relabel_delta R o rows delta = some delta' ∧ delta'.length = n ∧
        ∀ x : Int,
          ((∃ row ∈ rows, o.lookup row.index = some x) →
            ∃ row ∈ rows, o.lookup row.index = some x ∧ ∃ x0 x1,
              o.lookup row.child0 = some x0 ∧ o.lookup row.child1 = some x1 ∧
              vat delta' x = some (x, x0, x1)) ∧
          ((¬ ∃ row ∈ rows, o.lookup row.index = some x) → vat delta' x = vat delta x) := by
  induction rows with
  | nil =>
    intro delta hl _
    exact ⟨delta, rfl, hl, fun x => ⟨fun ⟨_, h, _⟩ => by simp at h, fun _ => rfl⟩⟩
  | cons e rest ih =>
    intro delta hl hrows
    by_cases he : e.index ∈ R
    · obtain ⟨x0, x1, h0, h1, xe, hxe⟩ := hrows e (List.mem_cons_self _ _) he
      have hxr := (hdom _ _ hxe).2
      obtain ⟨d1, hd1⟩ := vset_isSome delta xe (xe, x0, x1) hxr.1 (by rw [hl]; exact hxr.2)
      obtain ⟨delta', hres, hlen, hspec⟩ := ih d1 (by rw [vset_length hd1, hl])
        (fun row hr => hrows row (List.mem_cons_of_mem _ hr))
      refine ⟨delta', ?_, hlen, ?_⟩
      · simp only [relabel_delta, (set_contains_iff R _).2 he, if_true, hxe, h0, h1, hd1,
          Option.some_bind]
        exact hres
      · intro x
        constructor
        · rintro ⟨row, hrow, hlk⟩
          by_cases hex : ∃ row ∈ rest, o.lookup row.index = some x
          · obtain ⟨row', hr', hrest⟩ := (hspec x).1 hex
            exact ⟨row', List.mem_cons_of_mem _ hr', hrest⟩
          · have hrow_e : row = e := by
              rcases List.mem_cons.1 hrow with h | h
              · exact h
              · exact absurd ⟨row, h, hlk⟩ hex
            subst hrow_e
            rw [hxe] at hlk
            have hx : xe = x := Option.some.inj hlk
            subst hx
            refine ⟨row, List.mem_cons_self _ _, hxe, x0, x1, h0, h1, ?_⟩
            rw [(hspec xe).2 hex, vat_vset hd1]; simp
        · intro hno
          have hno' : ¬ ∃ row ∈ rest, o.lookup row.index = some x :=
            fun ⟨row, hr, hl⟩ => hno ⟨row, List.mem_cons_of_mem _ hr, hl⟩
          have hne : x ≠ xe := fun hx => hno ⟨e, List.mem_cons_self _ _, hx ▸ hxe⟩
          rw [(hspec x).2 hno', vat_vset hd1, if_neg hne]
    · obtain ⟨delta', hres, hlen, hspec⟩ := ih delta hl
        (fun row hr => hrows row (List.mem_cons_of_mem _ hr))
      have hc : set_contains R e.index = false := by
        rw [← Bool.not_eq_true, set_contains_iff]; exact he
      have hnone : ∀ x, o.lookup e.index ≠ some x := fun x hx => he (hdom _ _ hx).1
      refine ⟨delta', ?_, hlen, ?_⟩
      · simp only [relabel_delta, hc, Bool.false_eq_true, if_false]; exact hres
      · intro x
        constructor
        · rintro ⟨row, hrow, hlk⟩
          have hrow' : row ∈ rest := by
            rcases List.mem_cons.1 hrow with h | h
            · subst h; exact absurd hlk (hnone x)
            · exact h
          obtain ⟨row', hr', hrest⟩ := (hspec x).1 ⟨row, hrow', hlk⟩
          exact ⟨row', List.mem_cons_of_mem _ hr', hrest⟩
        · intro hno
          exact (hspec x).2 (fun ⟨row, hr, hl⟩ => hno ⟨row, List.mem_cons_of_mem _ hr, hl⟩)

end Homfa

namespace Homfa

theorem wf_row_of_mem {g : Graph} (h : g.well_formed) {row : TableItem}
    (hrow : row ∈ g.table_) :
    g.in_range row.index ∧ vat g.table_ row.index = some row := by
  obtain ⟨k, hk, hke⟩ := List.mem_iff_getElem.1 hrow
  have hget : g.table_[k]? = some row := by rw [List.getElem?_eq_getElem hk, hke]
  have hr := h.1 k (List.mem_range.2 hk) row hget
  rw [hr.1]
  refine ⟨⟨by omega, by unfold Graph.size; exact_mod_cast hk⟩, ?_⟩
  rw [vat_natCast]; exact hget

/-- On a well-formed automaton `removed_unreachable` returns an automaton that
is the reachable part of the input under the relabeling `old2new`. -/
theorem removed_unreachable_spec {g : Graph} (h : g.well_formed) :
    ∃ (B : Graph) (o : List (Int × Int)), g.removed_unreachable = some B ∧ PruneRel g B o := by
  obtain ⟨s, hloop, hsorted, hreach⟩ := reach_loop_result h
  obtain ⟨hmo, hkeys⟩ := build_old2new_spec s.reachable [] ⟨by simp, by simp⟩
    (by simpa using hsorted.nodup)
  simp only [List.map_nil, List.nil_append] at hkeys
  generalize ho : build_old2new s.reachable [] = o at hmo hkeys
  have holen : o.length = s.reachable.length := by rw [← hkeys]; simp
  have hmemR : ∀ q, q ∈ s.reachable ↔ ∃ i, (q, i) ∈ o := by
    intro q
    rw [← hkeys, List.mem_map]
    constructor
    · rintro ⟨p, hp, rfl⟩; exact ⟨p.2, hp⟩
    · rintro ⟨i, hi⟩; exact ⟨(q, i), hi, rfl⟩
  have hlk : ∀ q i, o.lookup q = some i ↔ (q, i) ∈ o :=
    fun q i => ⟨lookup_eq_some_mem o q i, lookup_of_mem hmo⟩
  have hdom : ∀ q i, o.lookup q = some i →
      q ∈ s.reachable ∧ 0 ≤ i ∧ i < (s.reachable.length : Int) := by
    intro q i hqi
    have hm := (hlk q i).1 hqi
    have := map_ok_lt hmo hm
    rw [holen] at this
    exact ⟨(hmemR q).2 ⟨i, hm⟩, this⟩
  have hRlk : ∀ q ∈ s.reachable, ∃ i, o.lookup q = some i := by
    intro q hq
    obtain ⟨i, hi⟩ := (hmemR q).1 hq
    exact ⟨i, (hlk q i).2 hi⟩
  -- the initial state
  obtain ⟨init_st, hinit⟩ := hRlk g.initial_state ((hreach _).2 (reach_initial g))
  -- the final states
  obtain ⟨F, hF, hFs, hFm⟩ := relabel_finals_spec s.reachable o hRlk g.final_state_ []
    (by simp)
  -- the transitions
  have hrows : ∀ row ∈ g.table_, row.index ∈ s.reachable →
      ∃ x0 x1, o.lookup row.child0 = some x0 ∧ o.lookup row.child1 = some x1 ∧
        ∃ x, o.lookup row.index = some x := by
    intro row hrow hin
    obtain ⟨-, hv⟩ := wf_row_of_mem h hrow
    have hr := (hreach _).1 hin
    have hn0 : g.next_state row.index false = some row.child0 := by
      simp [Graph.next_state, hv]
    have hn1 : g.next_state row.index true = some row.child1 := by
      simp [Graph.next_state, hv]
    obtain ⟨x0, hx0⟩ := hRlk _ ((hreach _).2 (reach_next hr hn0))
    obtain ⟨x1, hx1⟩ := hRlk _ ((hreach _).2 (reach_next hr hn1))
    exact ⟨x0, x1, hx0, hx1, hRlk _ hin⟩
  obtain ⟨delta, hdelta, hdlen, hdspec⟩ := relabel_delta_spec s.reachable o s.reachable.length
    hdom g.table_ (List.replicate s.reachable.length (0, 0, 0)) (by simp) hrows
  -- every old/new pair has its row in `delta`
  have hpair : ∀ q i, (q, i) ∈ o → ∃ row x0 x1, vat g.table_ q = some row ∧
      o.lookup row.child0 = some x0 ∧ o.lookup row.child1 = some x1 ∧
      vat delta i = some (i, x0, x1) := by
    intro q i hqi
    have hqR := (hmemR q).2 ⟨i, hqi⟩
    have hqr := reach_in_range h ((hreach q).1 hqR)
    obtain ⟨k, t, rfl, ht, hrow⟩ := wf_row h hqr
    obtain ⟨k', hk'⟩ := (vat_eq_some_iff _ _ _).1 ht
    have htmem : t ∈ g.table_ := List.getElem?_mem hk'.2
    have hti : t.index = (k : Int) := hrow.1
    obtain ⟨row, hrmem, hrlk, x0, x1, h0, h1, hv⟩ :=
      (hdspec i).1 ⟨t, htmem, by rw [hti]; exact (hlk _ _).2 hqi⟩
    have hri : row.index = (k : Int) := map_ok_key_inj hmo ((hlk _ _).1 hrlk) hqi
    obtain ⟨-, hrv⟩ := wf_row_of_mem h hrmem
    rw [hri] at hrv
    exact ⟨row, x0, x1, hrv, h0, h1, hv⟩
  have hdok : delta_ok delta := by
    have hrow : ∀ (k : Nat), k < delta.length → ∃ (x0 x1 : Int),
        delta[k]? = some ((k : Int), x0, x1) ∧ (0 ≤ x0 ∧ x0 < (delta.length : Int)) ∧
        (0 ≤ x1 ∧ x1 < (delta.length : Int)) := by
      intro k hk
      rw [hdlen, ← holen] at hk
      have hp : o[k]? = some o[k] := List.getElem?_eq_getElem hk
      have hid := hmo.2 k _ hp
      have hmem : (o[k].1, (k : Int)) ∈ o := by
        rw [← hid]; exact List.getElem_mem hk
      obtain ⟨row, x0, x1, -, h0, h1, hv⟩ := hpair _ _ hmem
      rw [vat_natCast] at hv
      refine ⟨x0, x1, hv, ?_, ?_⟩
      · rw [hdlen]; exact (hdom _ _ h0).2
      · rw [hdlen]; exact (hdom _ _ h1).2
    constructor
    · intro i hi e he
      rw [List.mem_range] at hi
      obtain ⟨x0, x1, hx, -, -⟩ := hrow i hi
      have he' : delta[i]? = some e := he
      rw [hx] at he'
      rw [← Option.some.inj he']
    · intro e he
      obtain ⟨k, hk, hke⟩ := List.mem_iff_getElem.1 he
      obtain ⟨x0, x1, hx, h0, h1⟩ := hrow k hk
      rw [List.getElem?_eq_getElem hk, hke] at hx
      rw [Option.some.inj hx]
      exact ⟨h0, h1⟩
  have hFr : ∀ n ∈ F, 0 ≤ n ∧ n < (delta.length : Int) := by
    intro n hn
    obtain ⟨q, -, -, hq⟩ := by simpa using (hFm n).1 hn
    rw [hdlen]; exact (hdom _ _ hq).2
  have hinit_r : 0 ≤ init_st ∧ init_st < (delta.length : Int) := by
    rw [hdlen]; exact (hdom _ _ hinit).2
  refine ⟨Graph.mk (built_table delta) [] F init_st, o, ?_, ?_⟩
  · unfold Graph.removed_unreachable
    rw [hloop]
    simp only [Option.some_bind, ho, hinit, hF, hdelta]
    exact ctor_eq_some init_st F hdok
  · refine ⟨hmo, by rw [hkeys]; exact hsorted, ?_, ?_, ?_, ?_, ?_, ?_⟩
    · intro q; rw [← hreach q]; exact hmemR q
    · simp [Graph.size, built_table_length, hdlen, holen]
    · exact built_well_formed hdok [] F init_st hinit_r hFs hFr
    · exact (hlk _ _).1 hinit
    · intro q i b hqi
      obtain ⟨row, x0, x1, hv, h0, h1, hd⟩ := hpair q i hqi
      refine ⟨if b then row.child1 else row.child0, if b then x1 else x0, ?_, ?_, ?_⟩
      · simp [Graph.next_state, hv]
      · rw [built_next_state, hd]; rfl
      · cases b
        · exact (hlk _ _).1 h0
        · exact (hlk _ _).1 h1
    · intro q i hqi
      rw [Bool.eq_iff_iff]
      simp only [Graph.is_final_state, set_contains_iff]
      rw [hFm]
      simp only [List.not_mem_nil, false_or]
      constructor
      · rintro ⟨q', hq', -, hlk'⟩
        have : q' = q := map_ok_key_inj hmo ((hlk _ _).1 hlk') hqi
        exact this ▸ hq'
      · intro hq
        exact ⟨q, hq, (hmemR q).2 ⟨i, hqi⟩, (hlk _ _).2 hqi⟩

end Homfa

namespace Homfa

/-- Reading a word in the pruned automaton mirrors reading it in the input. -/
theorem prune_run {g B : Graph} {o : List (Int × Int)} (hp : PruneRel g B o) (w : Word) :
    ∀ (q i : Int), (q, i) ∈ o →
      ∃ q' i', g.run q w = some q' ∧ B.run i w = some i' ∧ (q', i') ∈ o := by
  induction w with
  | nil => intro q i h; exact ⟨q, i, rfl, rfl, h⟩
  | cons b w ih =>
    intro q i h
    obtain ⟨q1, i1, hq1, hi1, h1⟩ := hp.next q i b h
    obtain ⟨q', i', hq', hi', h'⟩ := ih q1 i1 h1
    exact ⟨q', i', by simp [Graph.run, hq1, hq'], by simp [Graph.run, hi1, hi'], h'⟩

theorem prune_accepts_from {g B : Graph} {o : List (Int × Int)} (hp : PruneRel g B o)
    (w : Word) (q i : Int) (h : (q, i) ∈ o) : B.accepts_from i w = g.accepts_from q w := by
  obtain ⟨q', i', hq', hi', h'⟩ := prune_run hp w q i h
  simp only [Graph.accepts_from, hq', hi']
  exact hp.final q' i' h'

theorem prune_accepts {g B : Graph} {o : List (Int × Int)} (hp : PruneRel g B o)
    (w : Word) : B.accepts w = g.accepts w :=
  prune_accepts_from hp w _ _ hp.init

/-- Every state of the pruned automaton is the image of a state of the input. -/
theorem prune_surj {g B : Graph} {o : List (Int × Int)} (hp : PruneRel g B o) {i : Int}
    (hi : B.in_range i) : ∃ q, (q, i) ∈ o := by
  obtain ⟨h0, h1⟩ := hi
  lift i to ℕ using h0 with k
  rw [hp.size] at h1
  have hk : k < o.length := by exact_mod_cast h1
  have hget : o[k]? = some o[k] := List.getElem?_eq_getElem hk
  have hid := hp.map.2 k _ hget
  refine ⟨o[k].1, ?_⟩
  rw [← hid]
  exact List.getElem_mem hk

/-- Every state of the pruned automaton is reachable. -/
theorem prune_all_reach {g B : Graph} {o : List (Int × Int)} (hp : PruneRel g B o) {i : Int}
    (hi : B.in_range i) : B.reach i := by
  obtain ⟨q, hq⟩ := prune_surj hp hi
  obtain ⟨w, hw⟩ := (hp.dom q).2 ⟨i, hq⟩
  obtain ⟨q', i', hq', hi', h'⟩ := prune_run hp w _ _ hp.init
  rw [hw] at hq'
  have hqq : q = q' := Option.some.inj hq'
  subst hqq
  have : i' = i := map_ok_id_inj hp.map h' hq
  subst this
  exact ⟨w, hi'⟩

theorem all_states_nodup (g : Graph) : g.all_states.Nodup := by
  unfold Graph.all_states
  exact (List.nodup_range _).map (fun a b hab => by simpa using hab)

theorem all_states_length (g : Graph) : g.all_states.length = g.size := by
  simp [Graph.all_states]

end Homfa

namespace Homfa

/-! ## Depth layering -/

theorem collect_layer_spec (l : List Nat) :
    ∀ (sts : List Bool) (tmp : List Int), l.Nodup → (∀ i ∈ l, i < sts.length) →
      ∃ sts', collect_layer l (sts, tmp) =
          some (sts', tmp ++ (l.filter (fun (i : Nat) => vat sts (i : Int) == some true)).map Int.ofNat) ∧
        sts'.length = sts.length ∧
        ∀ q : Int, vat sts' q =
          if (∃ j ∈ l, q = (j : Int)) then (vat sts q).map (fun _ => false) else vat sts q := by
  induction l with
  | nil => intro sts tmp _ _; exact ⟨sts, by simp [collect_layer], rfl, by simp⟩
  | cons a rest ih =>
    intro sts tmp hnd hlt
    have ha := hlt a (List.mem_cons_self _ _)
    rw [List.nodup_cons] at hnd
    have hva : vat sts (a : Int) = some sts[a] := by
      rw [vat_natCast]; exact List.getElem?_eq_getElem ha
    have hset : vset sts (a : Int) false = some (sts.set a false) := vset_natCast _ _ _ ha
    obtain ⟨sts', hres, hlen, hspec⟩ := ih (sts.set a false)
      (if sts[a] then tmp ++ [(a : Int)] else tmp) hnd.2
      (fun i hi => by simpa using hlt i (List.mem_cons_of_mem _ hi))
    have hfilter : rest.filter (fun (i : Nat) => vat (sts.set a false) (i : Int) == some true) =
        rest.filter (fun (i : Nat) => vat sts (i : Int) == some true) := by
      apply List.filter_congr
      intro i hi
      have hne : (i : Int) ≠ (a : Int) := by
        intro heq
        have : i = a := by exact_mod_cast heq
        exact hnd.1 (this ▸ hi)
      rw [vat_vset hset, if_neg hne]
    refine ⟨sts', ?_, by simpa using hlen, ?_⟩
    · simp only [collect_layer, hva, hset, Option.some_bind]
      rw [hres, hfilter]
      congr 2
      simp only [List.filter_cons, hva]
      cases sts[a] <;> simp
    · intro q
      rw [hspec q, vat_vset hset]
      by_cases hq : q = (a : Int)
      · subst hq
        have hnr : ¬ ∃ j ∈ rest, (a : Int) = (j : Int) := by
          rintro ⟨j, hj, hje⟩
          have : a = j := by exact_mod_cast hje
          exact hnd.1 (this ▸ hj)
        simp [hnr, hva]
      · have : (∃ j ∈ a :: rest, q = (j : Int)) ↔ ∃ j ∈ rest, q = (j : Int) := by
          simp [hq]
        simp only [hq, if_false, this]

theorem activate_next_spec {g : Graph} (h : g.well_formed) (tmp : List Int) :
    ∀ (sts : List Bool), sts.length = g.size → (∀ st ∈ tmp, g.in_range st) →
      ∃ sts', activate_next g tmp sts = some sts' ∧ sts'.length = g.size ∧
        ∀ q : Int, vat sts' q = some true ↔
          (vat sts q = some true ∨ g.in_range q ∧ ∃ st ∈ tmp, ∃ b, g.next_state st b = some q) := by
  induction tmp with
  | nil => intro sts hl _; exact ⟨sts, rfl, hl, by simp⟩
  | cons a rest ih =>
    intro sts hl hr
    have ha := hr a (List.mem_cons_self _ _)
    obtain ⟨n0, hn0, hr0⟩ := wf_next_state h ha false
    obtain ⟨n1, hn1, hr1⟩ := wf_next_state h ha true
    obtain ⟨s1, hs1⟩ := vset_isSome sts n0 true hr0.1 (by rw [hl]; exact hr0.2)
    obtain ⟨s2, hs2⟩ := vset_isSome s1 n1 true hr1.1 (by
      rw [vset_length hs1, hl]; exact hr1.2)
    obtain ⟨sts', hres, hlen, hspec⟩ := ih s2 (by rw [vset_length hs2, vset_length hs1, hl])
      (fun st hst => hr st (List.mem_cons_of_mem _ hst))
    refine ⟨sts', ?_, hlen, ?_⟩
    · simp only [activate_next, hn0, hs1, Option.some_bind, hn1, hs2]; exact hres
    · intro q
      rw [hspec q, vat_vset hs2, vat_vset hs1]
      constructor
      · rintro (hq | ⟨hqr, st, hst, b, hb⟩)
        · by_cases h1 : q = n1
          · subst h1
            exact Or.inr ⟨hr1, a, List.mem_cons_self _ _, true, hn1⟩
          · by_cases h0 : q = n0
            · subst h0
              exact Or.inr ⟨hr0, a, List.mem_cons_self _ _, false, hn0⟩
            · simp only [h1, h0, if_false] at hq
              exact Or.inl hq
        · exact Or.inr ⟨hqr, st, List.mem_cons_of_mem _ hst, b, hb⟩
      · rintro (hq | ⟨hqr, st, hst, b, hb⟩)
        · left
          by_cases h1 : q = n1
          · simp [h1]
          · by_cases h0 : q = n0
            · simp [h0, h1]
            · simp only [h1, h0, if_false]; exact hq
        · rcases List.mem_cons.1 hst with rfl | hst
          · left
            cases b
            · rw [hn0] at hb
              have : n0 = q := Option.some.inj hb
              subst this
              by_cases h1 : n0 = n1 <;> simp [h1]
            · rw [hn1] at hb
              have : n1 = q := Option.some.inj hb
              subst this
              simp
          · exact Or.inr ⟨hqr, st, hst, b, hb⟩

theorem exact_reach_zero (g : Graph) (q : Int) : g.exact_reach 0 q ↔ q = g.initial_state := by
  constructor
  · rintro ⟨w, hw, hrun⟩
    rw [List.length_eq_zero] at hw
    subst hw
    simp only [Graph.run, Option.some.injEq] at hrun
    exact hrun.symm
  · rintro rfl; exact ⟨[], rfl, rfl⟩

theorem exact_reach_succ (g : Graph) (k : Nat) (q : Int) :
    g.exact_reach (k + 1) q ↔ ∃ r b, g.exact_reach k r ∧ g.next_state r b = some q := by
  constructor
  · rintro ⟨w, hw, hrun⟩
    rcases List.eq_nil_or_concat w with rfl | ⟨u, b, rfl⟩
    · simp at hw
    · simp only [List.concat_eq_append, List.length_append, List.length_singleton,
        add_left_inj] at hw
      rw [List.concat_eq_append, run_append] at hrun
      cases hr : g.run g.initial_state u with
      | none => simp [hr] at hrun
      | some r =>
        simp only [hr, Option.some_bind, Graph.run] at hrun
        cases hn : g.next_state r b with
        | none => simp [hn] at hrun
        | some q' =>
          simp only [hn, Option.some_bind, Option.some.injEq] at hrun
          subst hrun
          exact ⟨r, b, ⟨u, hw, hr⟩, hn⟩
  · rintro ⟨r, b, ⟨u, hu, hr⟩, hn⟩
    exact ⟨u ++ [b], by simp [hu], by simp [run_append, hr, Graph.run, hn]⟩

theorem exact_reach_in_range {g : Graph} (h : g.well_formed) {k : Nat} {q : Int}
    (hq : g.exact_reach k q) : g.in_range q := by
  obtain ⟨w, -, hw⟩ := hq
  exact reach_in_range h ⟨w, hw⟩

end Homfa

namespace Homfa

theorem sorted_eq_singleton {L : List Int} {a : Int} (hs : L.Sorted (· < ·))
    (hm : ∀ q, q ∈ L ↔ q = a) : L = [a] := by
  cases L with
  | nil => exact absurd ((hm a).2 rfl) (by simp)
  | cons x t =>
    have hx : x = a := (hm x).1 (List.mem_cons_self _ _)
    subst hx
    cases t with
    | nil => rfl
    | cons y t' =>
      have hy : y = x := (hm y).1 (by simp)
      rw [List.sorted_cons] at hs
      have := hs.1 y (by simp)
      omega

/-- The layer collected from a flag vector. -/
theorem layer_of_flags (n : Nat) (sts : List Bool) (hl : sts.length = n) :
    (((List.range n).filter (fun (i : Nat) => vat sts (i : Int) == some true)).map
        Int.ofNat).Sorted (· < ·) ∧
    ∀ q : Int, q ∈ ((List.range n).filter
        (fun (i : Nat) => vat sts (i : Int) == some true)).map Int.ofNat ↔
      vat sts q = some true := by
  constructor
  · have h1 : (List.range n).Sorted (· < ·) := List.sorted_lt_range n
    have h2 : ((List.range n).filter
        (fun (i : Nat) => vat sts (i : Int) == some true)).Sorted (· < ·) :=
      h1.sublist (List.filter_sublist _)
    exact List.Pairwise.map _ (fun a b hab => by simpa using hab) h2
  · intro q
    simp only [List.mem_map, List.mem_filter, List.mem_range, beq_iff_eq]
    constructor
    · rintro ⟨j, ⟨-, hj⟩, rfl⟩
      simpa using hj
    · intro hq
      obtain ⟨k, rfl, hk⟩ := (vat_eq_some_iff _ _ _).1 hq
      have := (List.getElem?_eq_some_iff.1 hk).1
      exact ⟨k, ⟨by omega, by rw [vat_natCast]; exact hk⟩, rfl⟩

theorem depth_loop_spec {g : Graph} (h : g.well_formed) :
    ∀ (d i : Nat) (sts : List Bool) (layers : List (List Int)), sts.length = g.size →
      (∀ q : Int, vat sts q = some true ↔ g.exact_reach i q) →
      ∃ res, depth_loop g d sts layers = some res ∧ res.length = layers.length + d ∧
        (∀ k, k < layers.length → res[k]? = layers[k]?) ∧
        ∀ k, k < d → ∃ L, res[layers.length + k]? = some L ∧ L.Sorted (· < ·) ∧
          ∀ q, q ∈ L ↔ g.exact_reach (i + k) q := by
  intro d
  induction d with
  | zero =>
    intro i sts layers _ _
    exact ⟨layers, rfl, rfl, fun _ _ => rfl, fun k hk => absurd hk (by omega)⟩
  | succ d ih =>
    intro i sts layers hl hsts
    obtain ⟨stc, hcol, hclen, hcspec⟩ := collect_layer_spec (List.range g.size) sts []
      (List.nodup_range _) (fun j hj => by rw [hl]; exact List.mem_range.1 hj)
    obtain ⟨hLs, hLm⟩ := layer_of_flags g.size sts hl
    generalize hL : ((List.range g.size).filter
      (fun (i : Nat) => vat sts (i : Int) == some true)).map Int.ofNat = L at hcol hLs hLm
    simp only [List.nil_append] at hcol
    have hLreach : ∀ q, q ∈ L ↔ g.exact_reach i q := fun q => (hLm q).trans (hsts q)
    have hclear : ∀ q : Int, vat stc q ≠ some true := by
      intro q
      rw [hcspec q]
      by_cases hq : ∃ j ∈ List.range g.size, q = (j : Int)
      · rw [if_pos hq]
        cases vat sts q <;> simp
      · rw [if_neg hq]
        have : vat sts q = none := by
          rw [vat_eq_none_iff, hl]
          by_contra hcon
          push_neg at hcon
          exact hq ⟨q.toNat, List.mem_range.2 (by omega), by omega⟩
        rw [this]; simp
    obtain ⟨st1, hact, halen, haspec⟩ := activate_next_spec h L stc (by rw [hclen, hl])
      (fun st hst => exact_reach_in_range h ((hLreach st).1 hst))
    have hnext : ∀ q : Int, vat st1 q = some true ↔ g.exact_reach (i + 1) q := by
      intro q
      rw [haspec q, exact_reach_succ]
      constructor
      · rintro (hq | ⟨-, st, hst, b, hb⟩)
        · exact absurd hq (hclear q)
        · exact ⟨st, b, (hLreach st).1 hst, hb⟩
      · rintro ⟨r, b, hr, hb⟩
        exact Or.inr ⟨wf_next_state_range h hb, r, (hLreach r).2 hr, b, hb⟩
    obtain ⟨res, hres, hrlen, hrold, hrnew⟩ := ih (i + 1) st1 (layers ++ [L]) halen hnext
    refine ⟨res, ?_, ?_, ?_, ?_⟩
    · simp only [depth_loop, hcol, Option.some_bind, hact]; exact hres
    · rw [hrlen]; simp; omega
    · intro k hk
      rw [hrold k (by simp; omega), List.getElem?_append_left hk]
    · intro k hk
      cases k with
      | zero =>
        refine ⟨L, ?_, hLs, by simpa using hLreach⟩
        rw [Nat.add_zero, hrold _ (by simp), List.getElem?_append_right (le_refl _)]
        simp
      | succ k =>
        obtain ⟨L', hL', hs', hm'⟩ := hrnew k (by omega)
        refine ⟨L', ?_, hs', ?_⟩
        · rw [← hL']; congr 1; simp; omega
        · intro q; rw [hm' q]
          have : i + 1 + k = i + (k + 1) := by omega
          rw [this]

/-- What `reserve_states_at_depth` stores on a well-formed automaton. -/
theorem reserve_states_at_depth_spec {g : Graph} (h : g.well_formed) (D : Nat) :
    ∃ G, g.reserve_states_at_depth D = some G ∧ G.states_at_depth_.length = D ∧
      ∀ k, k < D → ∃ L, G.states_at_depth k = some L ∧ L.Sorted (· < ·) ∧
        ∀ q, q ∈ L ↔ g.exact_reach k q := by
  obtain ⟨sts, hsts⟩ := vset_isSome (List.replicate g.size false) g.initial_state true
    h.2.1.1 (by simpa using h.2.1.2)
  have hflags : ∀ q : Int, vat sts q = some true ↔ g.exact_reach 0 q := by
    intro q
    rw [vat_vset hsts, exact_reach_zero]
    unfold Graph.initial_state
    by_cases hq : q = g.init_state_
    · simp [hq]
    · simp only [hq, if_false, iff_false]
      intro hv
      obtain ⟨k, -, hk⟩ := (vat_eq_some_iff _ _ _).1 hv
      have := List.getElem?_mem hk
      simp at this
  obtain ⟨res, hres, hlen, -, hnew⟩ := depth_loop_spec h D 0 sts []
    (by rw [vset_length hsts]; simp) hflags
  refine ⟨{ g with states_at_depth_ := res }, ?_, by simpa using hlen, ?_⟩
  · simp only [Graph.reserve_states_at_depth, hsts, Option.some_bind, hres, Option.map_some']
  · intro k hk
    obtain ⟨L, hL, hs, hm⟩ := hnew k hk
    refine ⟨L, by simpa [Graph.states_at_depth] using hL, hs, ?_⟩
    intro q; simpa using hm q

theorem exact_reach_self_loop {g : Graph}
    (h0 : g.next_state g.initial_state false = some g.initial_state)
    (h1 : g.next_state g.initial_state true = some g.initial_state) (k : Nat) (q : Int) :
    g.exact_reach k q ↔ q = g.initial_state := by
  induction k generalizing q with
  | zero => exact exact_reach_zero g q
  | succ k ih =>
    rw [exact_reach_succ]
    constructor
    · rintro ⟨r, b, hr, hb⟩
      rw [(ih r).1 hr] at hb
      cases b
      · rw [h0] at hb; exact (Option.some.inj hb).symm
      · rw [h1] at hb; exact (Option.some.inj hb).symm
    · rintro rfl
      exact ⟨g.initial_state, false, (ih _).2 rfl, h0⟩

end Homfa

namespace Homfa

/-! ## Cells of the marking table -/

theorem dist_symm {g : Graph} {a b : Int} (h : g.dist a b) : g.dist b a := by
  obtain ⟨w, hw⟩ := h
  exact ⟨w, fun h' => hw h'.symm⟩

end Homfa

namespace Homfa

/-! ## The pairs visited by the nested loops -/

theorem accepts_from_nil (g : Graph) (q : Int) : g.accepts_from q [] = g.is_final_state q := by
  simp [Graph.accepts_from, Graph.run]

theorem accepts_from_cons {g : Graph} {q r : Int} {s : Bool} (h : g.next_state q s = some r)
    (w : Word) : g.accepts_from q (s :: w) = g.accepts_from r w := by
  simp [Graph.accepts_from, Graph.run, h]

end Homfa

namespace Homfa

/-! ## The table-filling algorithm ends -/

end Homfa

namespace Homfa

/-! ## Equivalence of states -/

theorem not_dist_iff (g : Graph) (a b : Int) : ¬ g.dist a b ↔ g.equiv a b := by
  unfold Graph.dist Graph.equiv
  push_neg
  rfl

theorem equiv_refl (g : Graph) (a : Int) : g.equiv a a := fun _ => rfl

theorem equiv_symm {g : Graph} {a b : Int} (h : g.equiv a b) : g.equiv b a :=
  fun w => (h w).symm

theorem equiv_trans {g : Graph} {a b c : Int} (h1 : g.equiv a b) (h2 : g.equiv b c) :
    g.equiv a c := fun w => (h1 w).trans (h2 w)

theorem equiv_next {g : Graph} {a b a' b' : Int} {s : Bool} (h : g.equiv a b)
    (ha : g.next_state a s = some a') (hb : g.next_state b s = some b') : g.equiv a' b' := by
  intro w
  have := h (s :: w)
  rwa [accepts_from_cons ha, accepts_from_cons hb] at this

theorem equiv_final {g : Graph} {a b : Int} (h : g.equiv a b) :
    g.is_final_state a = g.is_final_state b := by
  have := h []
  rwa [accepts_from_nil, accepts_from_nil] at this

/-! ## Permutations of a vector under `set` and `erase` -/

end Homfa

namespace Homfa

end Homfa

namespace Homfa

/-! ## The last loop of `grouped_nondistinguishable` -/

end Homfa

namespace Homfa

end Homfa

namespace Homfa

/-! ## Well-formedness of the determinized automaton -/

theorem from_nfa_well_formed (q0n Fn : List Int) {dn : NFADelta} (hdn : nfa_ok dn)
    (hq0 : subset_ok dn.length q0n) :
    ∃ g : Graph, Graph.from_nfa q0n Fn dn = some g ∧ g.well_formed := by
  obtain ⟨s, i, hinv, hq, hmem, hdok, hres⟩ := from_nfa_eq_some q0n Fn hdn hq0
  refine ⟨_, hres, built_well_formed hdok [] s.Ff i ?_ hinv.ff_sorted ?_⟩
  · rw [hinv.len]; exact map_ok_lt hinv.map hmem
  · intro x hx
    obtain ⟨S, -, hS⟩ := hinv.ff_mem x hx
    rw [hinv.len]; exact map_ok_lt hinv.map hS

theorem reversed_well_formed {g : Graph} (h : g.well_formed) :
    ∃ r : Graph, g.reversed = some r ∧ r.well_formed := by
  obtain ⟨delta, hres, hlen, -, hok⟩ := reversed_delta_ok h
  have hq0 : subset_ok delta.length g.final_state_ := by
    rw [hlen]; exact ⟨h.2.2.1, h.2.2.2⟩
  obtain ⟨r, hr, hwf⟩ := from_nfa_well_formed g.final_state_ [g.initial_state] hok hq0
  exact ⟨r, by unfold Graph.reversed; rw [hres]; exact hr, hwf⟩

/-! ## Minimization -/

end Homfa

namespace Homfa

end Homfa

namespace Homfa

/-! ## Pruning an automaton whose states are all reachable -/

theorem all_states_sorted (g : Graph) : g.all_states.Sorted (· < ·) := by
  unfold Graph.all_states
  exact List.Pairwise.map _ (fun a b hab => by simpa using hab) (List.sorted_lt_range _)

theorem next_state_none {g : Graph} {q : Int} (hq : ¬ g.in_range q) (b : Bool) :
    g.next_state q b = none := by
  cases hn : g.next_state q b with
  | none => rfl
  | some r => exact absurd (next_state_in_range hn) hq

theorem is_final_out_of_range {g : Graph} (h : g.well_formed) {q : Int}
    (hq : ¬ g.in_range q) : g.is_final_state q = false := by
  rw [← Bool.not_eq_true]
  intro hf
  exact hq (h.2.2.2 q ((set_contains_iff _ _).1 hf))

/-- When every state is reachable the relabeling of the pruning is the
identity. -/
theorem prune_identity {g B : Graph} {o : List (Int × Int)} (hp : PruneRel g B o)
    (h : g.well_formed) (hall : ∀ q, g.in_range q → g.reach q) :
    ∀ q i, (q, i) ∈ o ↔ (g.in_range q ∧ i = q) := by
  have hkeys : o.map Prod.fst = g.all_states := by
    apply List.eq_of_perm_of_sorted _ hp.keys_sorted (all_states_sorted g)
    apply (List.perm_ext_iff_of_nodup hp.keys_sorted.nodup (all_states_nodup g)).2
    intro q
    rw [mem_all_states, List.mem_map]
    constructor
    · rintro ⟨p, hp', rfl⟩
      exact reach_in_range h ((hp.dom p.1).2 ⟨p.2, hp'⟩)
    · intro hq
      obtain ⟨i, hi⟩ := (hp.dom q).1 (hall q hq)
      exact ⟨(q, i), hi, rfl⟩
  have hfwd : ∀ q i, (q, i) ∈ o → g.in_range q ∧ i = q := by
    intro q i hqi
    obtain ⟨k, rfl, hk⟩ := map_ok_pos hp.map hqi
    have hk' : (o.map Prod.fst)[k]? = some q := by simp [hk]
    rw [hkeys] at hk'
    unfold Graph.all_states at hk'
    rw [List.getElem?_map] at hk'
    have hlt : k < g.size := by
      by_contra hge
      rw [List.getElem?_eq_none_iff.2 (by simpa using hge)] at hk'
      simp at hk'
    rw [List.getElem?_eq_getElem (by simpa using hlt)] at hk'
    simp only [List.getElem_range, Option.map_some', Option.some.injEq,
      Int.ofNat_eq_coe] at hk'
    subst hk'
    exact ⟨⟨by omega, by exact_mod_cast hlt⟩, rfl⟩
  intro q i
  constructor
  · exact hfwd q i
  · rintro ⟨hq, rfl⟩
    obtain ⟨j, hj⟩ := (hp.dom i).1 (hall i hq)
    rw [(hfwd i j hj).2] at hj
    exact hj

theorem length_all_states_keys {g B : Graph} {o : List (Int × Int)} (hp : PruneRel g B o)
    (h : g.well_formed) (hall : ∀ q, g.in_range q → g.reach q) : B.size = g.size := by
  have hid := prune_identity hp h hall
  have hnd : (o.map Prod.fst).Nodup := hp.keys_sorted.nodup
  have hperm : (o.map Prod.fst).Perm g.all_states := by
    apply (List.perm_ext_iff_of_nodup hnd (all_states_nodup g)).2
    intro q
    rw [mem_all_states, List.mem_map]
    constructor
    · rintro ⟨p, hp', rfl⟩
      exact ((hid p.1 p.2).1 hp').1
    · intro hq
      exact ⟨(q, q), (hid q q).2 ⟨hq, rfl⟩, rfl⟩
  have := hperm.length_eq
  rw [hp.size]
  simpa [all_states_length] using this

/-- Pruning an automaton whose states are all reachable changes nothing. -/
theorem prune_same_structure {g B : Graph} {o : List (Int × Int)} (hp : PruneRel g B o)
    (h : g.well_formed) (hall : ∀ q, g.in_range q → g.reach q) :
    B.same_structure g ∧ ∀ q, g.in_range q → ∀ w : Word,
      B.accepts_from q w = g.accepts_from q w := by
  have hid := prune_identity hp h hall
  have hsize := length_all_states_keys hp h hall
  refine ⟨⟨hsize, ((hid _ _).1 hp.init).2, ?_, ?_⟩, ?_⟩
  · intro q b
    by_cases hq : g.in_range q
    · obtain ⟨q', i', hn, hB, hi'⟩ := hp.next q q b ((hid q q).2 ⟨hq, rfl⟩)
      rw [hn, hB, ((hid _ _).1 hi').2]
    · have hqB : ¬ B.in_range q := by
        unfold Graph.in_range at hq ⊢; rw [hsize]; exact hq
      rw [next_state_none hq, next_state_none hqB]
  · intro q
    by_cases hq : g.in_range q
    · exact hp.final q q ((hid q q).2 ⟨hq, rfl⟩)
    · have hqB : ¬ B.in_range q := by
        unfold Graph.in_range at hq ⊢; rw [hsize]; exact hq
      rw [is_final_out_of_range h hq, is_final_out_of_range hp.wf hqB]
  · intro q hq w
    exact prune_accepts_from hp w q q ((hid q q).2 ⟨hq, rfl⟩)

end Homfa

namespace Homfa

/-! ## Decimal numerals -/

theorem digitChar_isDigit (d : Nat) (h : d < 10) : (Nat.digitChar d).isDigit = true := by
  interval_cases d <;> decide

theorem digitChar_value (d : Nat) (h : d < 10) : (Nat.digitChar d).toNat - 48 = d := by
  interval_cases d <;> decide

theorem toDigitsCore_acc (fuel : Nat) : ∀ (n : Nat) (ds : List Char),
    Nat.toDigitsCore 10 fuel n ds = Nat.toDigitsCore 10 fuel n [] ++ ds := by
  induction fuel with
  | zero => intro n ds; simp [Nat.toDigitsCore]
  | succ fuel ih =>
    intro n ds
    simp only [Nat.toDigitsCore]
    split
    · simp
    · rw [ih (n / 10) (Nat.digitChar (n % 10) :: ds), ih (n / 10) [Nat.digitChar (n % 10)]]
      simp

theorem decimal_value_snoc (l : List Char) (c : Char) :
    decimal_value (l ++ [c]) = 10 * decimal_value l + (c.toNat - 48) := by
  simp [decimal_value, List.foldl_append]

theorem toDigitsCore_spec (fuel : Nat) : ∀ n : Nat, n < fuel →
    decimal_value (Nat.toDigitsCore 10 fuel n []) = n ∧
    (∀ c ∈ Nat.toDigitsCore 10 fuel n [], c.isDigit = true) ∧
    Nat.toDigitsCore 10 fuel n [] ≠ [] := by
  induction fuel with
  | zero => intro n h; omega
  | succ fuel ih =>
    intro n h
    simp only [Nat.toDigitsCore]
    have hd : n % 10 < 10 := Nat.mod_lt _ (by norm_num)
    split
    · rename_i h0
      have hn : n % 10 = n := by omega
      refine ⟨?_, ?_, by simp⟩
      · simp only [decimal_value, List.foldl_cons, List.foldl_nil, Nat.mul_zero, Nat.zero_add]
        rw [digitChar_value _ hd]; exact hn
      · intro c hc
        simp only [List.mem_singleton] at hc
        subst hc; exact digitChar_isDigit _ hd
    · rename_i h0
      obtain ⟨h1, h2, h3⟩ := ih (n / 10) (by omega)
      rw [toDigitsCore_acc]
      refine ⟨?_, ?_, by simp⟩
      · rw [decimal_value_snoc, h1, digitChar_value _ hd]; omega
      · intro c hc
        rcases List.mem_append.1 hc with hc | hc
        · exact h2 c hc
        · simp only [List.mem_singleton] at hc
          subst hc; exact digitChar_isDigit _ hd

/-- The text of a state in range is a non-empty string of digits whose value is
the state. -/
theorem print_state_spec {q : Int} (h : 0 ≤ q) :
    (∀ c ∈ print_state q, c.isDigit = true) ∧ print_state q ≠ [] ∧
    (decimal_value (print_state q) : Int) = q := by
  have hq : ¬ q < 0 := by omega
  simp only [print_state, hq, if_false]
  obtain ⟨h1, h2, h3⟩ := toDigitsCore_spec (q.toNat + 1) q.toNat (by omega)
  refine ⟨h2, h3, ?_⟩
  unfold Nat.toDigits
  rw [h1]; omega

theorem takeWhile_all {p : Char → Bool} {l : List Char} (h : ∀ c ∈ l, p c = true) :
    l.takeWhile p = l := by
  induction l with
  | nil => rfl
  | cons a t ih =>
    simp only [List.takeWhile_cons, h a (List.mem_cons_self _ _), if_true]
    rw [ih (fun c hc => h c (List.mem_cons_of_mem _ hc))]

theorem dropWhile_all {p : Char → Bool} {l : List Char} (h : ∀ c ∈ l, p c = true) :
    l.dropWhile p = [] := by
  induction l with
  | nil => rfl
  | cons a t ih =>
    simp only [List.dropWhile_cons, h a (List.mem_cons_self _ _), if_true]
    exact ih (fun c hc => h c (List.mem_cons_of_mem _ hc))

theorem takeWhile_append_stop {p : Char → Bool} {l : List Char} (h : ∀ c ∈ l, p c = true)
    (c : Char) (r : List Char) (hc : p c = false) : (l ++ c :: r).takeWhile p = l := by
  induction l with
  | nil => simp [List.takeWhile_cons, hc]
  | cons a t ih =>
    simp only [List.cons_append, List.takeWhile_cons, h a (List.mem_cons_self _ _), if_true]
    rw [ih (fun x hx => h x (List.mem_cons_of_mem _ hx))]

theorem dropWhile_append_stop {p : Char → Bool} {l : List Char} (h : ∀ c ∈ l, p c = true)
    (c : Char) (r : List Char) (hc : p c = false) : (l ++ c :: r).dropWhile p = c :: r := by
  induction l with
  | nil => simp [List.dropWhile_cons, hc]
  | cons a t ih =>
    simp only [List.cons_append, List.dropWhile_cons, h a (List.mem_cons_self _ _), if_true]
    exact ih (fun x hx => h x (List.mem_cons_of_mem _ hx))

theorem digit_not_space {c : Char} (h : c.isDigit = true) : is_space c = false := by
  cases hsp : is_space c with
  | false => rfl
  | true =>
    simp only [is_space, Bool.or_eq_true, decide_eq_true_eq] at hsp
    rcases hsp with ((((rfl | rfl) | rfl) | rfl) | rfl) | rfl <;>
      exact absurd h (by decide)

theorem digit_ne {c d : Char} (h : c.isDigit = true) (hd : d.isDigit = false) : c ≠ d := by
  intro heq; subst heq; rw [h] at hd; exact Bool.noConfusion hd

theorem starts_with_digit {a c : Char} (t : List Char) (ha : a.isDigit = true)
    (hc : c.isDigit = false) : starts_with c (a :: t) = false := by
  simp [starts_with, digit_ne ha hc]

/-- `std::stoi` reads back a non-empty string of digits whose value is an
`int`. -/
theorem stoi_digits {ds : List Char} (hd : ∀ c ∈ ds, c.isDigit = true) (hne : ds ≠ [])
    (hv : (decimal_value ds : Int) ≤ 2147483647) :
    stoi ds = Except.ok (decimal_value ds : Int) := by
  cases ds with
  | nil => exact absurd rfl hne
  | cons a t =>
    have ha : a.isDigit = true := hd a (List.mem_cons_self _ _)
    have hs : is_space a = false := digit_not_space ha
    have hdrop : (a :: t).dropWhile is_space = a :: t := by
      simp [List.dropWhile_cons, hs]
    unfold stoi
    simp only [hdrop, starts_with_digit t ha (show ('-' : Char).isDigit = false by decide),
      starts_with_digit t ha (show ('+' : Char).isDigit = false by decide),
      Bool.or_self, Bool.false_eq_true, if_false, takeWhile_all hd]
    have hrange : ¬ ((decimal_value (a :: t) : Int) < -2147483648 ∨
        2147483647 < (decimal_value (a :: t) : Int)) := by omega
    rw [if_neg (by simp), if_neg hrange]

/-- Above the range of `int`, `std::stoi` throws `std::out_of_range`. -/
theorem stoi_digits_out_of_range {ds : List Char} (hd : ∀ c ∈ ds, c.isDigit = true)
    (hne : ds ≠ []) (hv : 2147483647 < (decimal_value ds : Int)) :
    stoi ds = Except.error StoiError.out_of_range := by
  cases ds with
  | nil => exact absurd rfl hne
  | cons a t =>
    have ha : a.isDigit = true := hd a (List.mem_cons_self _ _)
    have hs : is_space a = false := digit_not_space ha
    have hdrop : (a :: t).dropWhile is_space = a :: t := by
      simp [List.dropWhile_cons, hs]
    unfold stoi
    simp only [hdrop, starts_with_digit t ha (show ('-' : Char).isDigit = false by decide),
      starts_with_digit t ha (show ('+' : Char).isDigit = false by decide),
      Bool.or_self, Bool.false_eq_true, if_false, takeWhile_all hd]
    rw [if_neg (by simp), if_pos (Or.inr hv)]

end Homfa

namespace Homfa

/-! ## Matching a dumped line -/

theorem digit_is_digit_or_comma {c : Char} (h : c.isDigit = true) :
    is_digit_or_comma c = true := by
  simp [is_digit_or_comma, h]

theorem match_field_stop {f : List Char} (hf : is_numeral f) (c : Char) (r : List Char)
    (hc : is_digit_or_comma c = false) : match_field (f ++ c :: r) = some (f, c :: r) := by
  obtain ⟨hd, hne⟩ := hf
  cases f with
  | nil => exact absurd rfl hne
  | cons a t =>
    have ha := hd a (List.mem_cons_self _ _)
    have hall : ∀ x ∈ a :: t, is_digit_or_comma x = true :=
      fun x hx => digit_is_digit_or_comma (hd x hx)
    unfold match_field
    rw [takeWhile_append_stop hall c r hc, dropWhile_append_stop hall c r hc]
    simp [starts_with_digit _ ha (show ('_' : Char).isDigit = false by decide)]

theorem match_field_end {f : List Char} (hf : is_numeral f) : match_field f = some (f, []) := by
  obtain ⟨hd, hne⟩ := hf
  cases f with
  | nil => exact absurd rfl hne
  | cons a t =>
    have ha := hd a (List.mem_cons_self _ _)
    have hall : ∀ x ∈ a :: t, is_digit_or_comma x = true :=
      fun x hx => digit_is_digit_or_comma (hd x hx)
    unfold match_field
    rw [takeWhile_all hall, dropWhile_all hall]
    simp [starts_with_digit _ ha (show ('_' : Char).isDigit = false by decide)]

theorem tab_then_numeral {f : List Char} (hf : is_numeral f) (r : List Char) :
    ('\t' :: (f ++ r)).takeWhile is_space = ['\t'] ∧
    ('\t' :: (f ++ r)).dropWhile is_space = f ++ r := by
  obtain ⟨hd, hne⟩ := hf
  cases f with
  | nil => exact absurd rfl hne
  | cons a t =>
    have hs := digit_not_space (hd a (List.mem_cons_self _ _))
    have htab : is_space '\t' = true := by decide
    simp [List.takeWhile_cons, List.dropWhile_cons, htab, hs]

theorem match_line_core {line num f0 f1 : List Char} (hn : is_numeral num)
    (h0 : is_numeral f0) (h1 : is_numeral f1) (i f : Bool) (hst : starts_with '>' line = i)
    (hr1 : (if i = true then line.tail else line) =
      num ++ ((if f = true then ['*'] else []) ++ '\t' :: (f0 ++ '\t' :: f1))) :
    match_line line =
      some { initial := i, number := num, final := f, field0 := f0, field1 := f1 } := by
  obtain ⟨hnd, hnne⟩ := hn
  have hfield0 : match_field (f0 ++ '\t' :: f1) = some (f0, '\t' :: f1) :=
    match_field_stop h0 '\t' f1 (by decide)
  have hfield1 := match_field_end h1
  have hsp0 := tab_then_numeral h0 ('\t' :: f1)
  have hsp1 := tab_then_numeral h1 []
  simp only [List.append_nil] at hsp1
  have hnum : (num ++ ((if f = true then ['*'] else []) ++ '\t' :: (f0 ++ '\t' :: f1))).takeWhile
        Char.isDigit = num ∧
      (num ++ ((if f = true then ['*'] else []) ++ '\t' :: (f0 ++ '\t' :: f1))).dropWhile
        Char.isDigit = (if f = true then ['*'] else []) ++ '\t' :: (f0 ++ '\t' :: f1) := by
    cases f
    · exact ⟨takeWhile_append_stop hnd '\t' _ (by decide),
        dropWhile_append_stop hnd '\t' _ (by decide)⟩
    · exact ⟨takeWhile_append_stop hnd '*' _ (by decide),
        dropWhile_append_stop hnd '*' _ (by decide)⟩
  have hr3 : (if starts_with '*' ((if f = true then ['*'] else []) ++
        '\t' :: (f0 ++ '\t' :: f1)) = true
      then ((if f = true then ['*'] else []) ++ '\t' :: (f0 ++ '\t' :: f1)).tail
      else (if f = true then ['*'] else []) ++ '\t' :: (f0 ++ '\t' :: f1)) =
      '\t' :: (f0 ++ '\t' :: f1) ∧
      starts_with '*' ((if f = true then ['*'] else []) ++ '\t' :: (f0 ++ '\t' :: f1)) = f := by
    cases f <;> simp [starts_with]
  have e1 : ¬ (['\t'] : List Char) = [] := by simp
  have hr3' : (if f = true
      then ((if f = true then ['*'] else []) ++ '\t' :: (f0 ++ '\t' :: f1)).tail
      else (if f = true then ['*'] else []) ++ '\t' :: (f0 ++ '\t' :: f1)) =
      '\t' :: (f0 ++ '\t' :: f1) := by
    cases f <;> simp
  simp only [match_line, hst, hr1, hnum.1, hnum.2, hnne, if_false, hr3.2, hr3', hsp0.1,
    hsp0.2, e1, hfield0, hsp1.1, hsp1.2, hfield1]

/-- The regular expression matches a dumped line and yields its parts. -/
theorem match_line_dumped {num f0 f1 : List Char} (hn : is_numeral num) (h0 : is_numeral f0)
    (h1 : is_numeral f1) (i f : Bool) :
    match_line ((if i then ['>'] else []) ++ num ++ (if f then ['*'] else []) ++ ['\t'] ++
        f0 ++ ['\t'] ++ f1) =
      some { initial := i, number := num, final := f, field0 := f0, field1 := f1 } := by
  apply match_line_core hn h0 h1 i f
  · cases i
    · obtain ⟨hnd, hnne⟩ := hn
      cases num with
      | nil => exact absurd rfl hnne
      | cons a t =>
        have ha := hnd a (List.mem_cons_self _ _)
        simp [starts_with_digit _ ha (show ('>' : Char).isDigit = false by decide)]
    · simp [starts_with]
  · cases i <;> simp

end Homfa

namespace Homfa

/-! ## Splitting a text into pieces -/

theorem getline_all_no_delim (d : Char) (l : List Char) :
    ∀ cur : List Char, d ∉ l →
      getline_all d l cur = if cur ++ l = [] then [] else [cur ++ l] := by
  induction l with
  | nil => intro cur _; simp [getline_all]
  | cons c rest ih =>
    intro cur hd
    have hc : c ≠ d := fun h => hd (h ▸ List.mem_cons_self _ _)
    simp only [getline_all, hc, if_false]
    rw [ih (cur ++ [c]) (fun h => hd (List.mem_cons_of_mem _ h))]
    simp

theorem getline_all_piece (d : Char) (l : List Char) :
    ∀ (cur rest : List Char), d ∉ l →
      getline_all d (l ++ d :: rest) cur = (cur ++ l) :: getline_all d rest [] := by
  induction l with
  | nil => intro cur rest _; simp [getline_all]
  | cons c t ih =>
    intro cur rest hd
    have hc : c ≠ d := fun h => hd (h ▸ List.mem_cons_self _ _)
    have hstep : getline_all d ((c :: t) ++ d :: rest) cur =
        getline_all d (t ++ d :: rest) (cur ++ [c]) := by
      simp only [List.cons_append, getline_all, hc, if_false]
      rfl
    rw [hstep, ih (cur ++ [c]) rest (fun h => hd (List.mem_cons_of_mem _ h))]
    simp

theorem getline_all_lines (d : Char) (ls : List (List Char)) (h : ∀ l ∈ ls, d ∉ l) :
    getline_all d (ls.map (fun l => l ++ [d])).flatten [] = ls := by
  induction ls with
  | nil => simp [getline_all]
  | cons l rest ih =>
    simp only [List.map_cons, List.flatten_cons, List.append_assoc, List.singleton_append]
    rw [getline_all_piece d l [] _ (h l (List.mem_cons_self _ _))]
    rw [ih (fun x hx => h x (List.mem_cons_of_mem _ hx))]
    simp

/-! ## Reading a numeral field -/

theorem print_state_numeral {q : Int} (h : 0 ≤ q) : is_numeral (print_state q) :=
  ⟨(print_state_spec h).1, (print_state_spec h).2.1⟩

theorem stoi_print_state {q : Int} (h : 0 ≤ q) (hi : q ≤ 2147483647) :
    stoi (print_state q) = Except.ok q := by
  obtain ⟨h1, h2, h3⟩ := print_state_spec h
  rw [stoi_digits h1 h2 (by rw [h3]; exact hi), h3]

theorem load_numeral {q : Int} (h : 0 ≤ q) (hi : q ≤ 2147483647) :
    load_comma_separated_states (print_state q) = Except.ok [q] := by
  obtain ⟨h1, h2, h3⟩ := print_state_spec h
  have hne : print_state q ≠ ['_'] := by
    intro heq
    have := h1 '_' (by rw [heq]; simp)
    exact absurd this (by decide)
  have hcomma : ',' ∉ print_state q := by
    intro hmem
    exact absurd (h1 ',' hmem) (by decide)
  unfold load_comma_separated_states
  rw [if_neg hne, getline_all_no_delim ',' _ [] hcomma]
  simp only [List.nil_append, h2, if_false, load_fields, stoi_print_state h hi]

/-! ## What `dump` writes -/

theorem dump_line_eq {g : Graph} (h : g.well_formed) {q : Int} (hq : g.in_range q) :
    dump_line g q = some (dump_body g q ++ ['\n']) := by
  obtain ⟨n0, hn0, -⟩ := wf_next_state h hq false
  obtain ⟨n1, hn1, -⟩ := wf_next_state h hq true
  simp [dump_line, dump_body, hn0, hn1]

theorem dump_states_eq {g : Graph} (h : g.well_formed) (qs : List Int) :
    ∀ os : List Char, (∀ q ∈ qs, g.in_range q) →
      dump_states g qs os =
        some (os ++ (qs.map (fun q => dump_body g q ++ ['\n'])).flatten) := by
  induction qs with
  | nil => intro os _; simp [dump_states]
  | cons q rest ih =>
    intro os hqs
    simp only [dump_states, dump_line_eq h (hqs q (List.mem_cons_self _ _)), Option.some_bind]
    rw [ih _ (fun x hx => hqs x (List.mem_cons_of_mem _ hx))]
    simp

theorem dump_body_no_newline {g : Graph} (h : g.well_formed) {q : Int} (hq : g.in_range q) :
    '\n' ∉ dump_body g q := by
  obtain ⟨n0, hn0, hr0⟩ := wf_next_state h hq false
  obtain ⟨n1, hn1, hr1⟩ := wf_next_state h hq true
  have hd : ∀ x : Int, 0 ≤ x → '\n' ∉ print_state x := by
    intro x hx hmem
    exact absurd ((print_state_spec hx).1 '\n' hmem) (by decide)
  intro hmem
  simp only [dump_body, hn0, hn1, Option.getD_some, List.mem_append] at hmem
  rcases hmem with (((((hm | hm) | hm) | hm) | hm) | hm) | hm
  · split at hm <;> simp at hm
  · exact hd q hq.1 hm
  · split at hm <;> simp at hm
  · simp at hm
  · exact hd n0 hr0.1 hm
  · simp at hm
  · exact hd n1 hr1.1 hm

/-- The lines of the text written by `dump`. -/
theorem dump_lines {g : Graph} (h : g.well_formed) :
    ∃ text, g.dump = some text ∧
      getline_all '\n' text [] = g.all_states.map (fun q => dump_body g q) := by
  refine ⟨[] ++ (g.all_states.map (fun q => dump_body g q ++ ['\n'])).flatten, ?_, ?_⟩
  · unfold Graph.dump
    rw [dump_states_eq h g.all_states [] (fun q hq => (mem_all_states g q).1 hq)]
  · simp only [List.nil_append]
    have := getline_all_lines '\n' (g.all_states.map (fun q => dump_body g q)) (by
      intro l hl
      obtain ⟨q, hq, rfl⟩ := List.mem_map.1 hl
      exact dump_body_no_newline h ((mem_all_states g q).1 hq))
    rw [List.map_map] at this
    exact this

/-- Reading back the line of the state whose number is the number of lines read
so far. -/
theorem load_line_dumped {g : Graph} (h : g.well_formed)
    (hint : (g.size : Int) ≤ 2147483648) {q : Int} (hq : g.in_range q)
    (s : LoadState) (hs : (s.delta.length : Int) = q) :
    load_line s (dump_body g q) =
      Except.ok
        { init_sts := if g.initial_state = q then set_insert s.init_sts q else s.init_sts,
          final_sts := if g.is_final_state q = true then set_insert s.final_sts q
                       else s.final_sts,
          delta := s.delta ++ [(q, [(g.next_state q false).getD 0],
                                   [(g.next_state q true).getD 0])],
          is_dfa := s.is_dfa } := by
  obtain ⟨n0, hn0, hr0⟩ := wf_next_state h hq false
  obtain ⟨n1, hn1, hr1⟩ := wf_next_state h hq true
  have hm := match_line_dumped (print_state_numeral hq.1) (print_state_numeral hr0.1)
    (print_state_numeral hr1.1) (decide (g.initial_state = q)) (g.is_final_state q)
  have hbody : dump_body g q =
      (if decide (g.initial_state = q) = true then ['>'] else []) ++ print_state q ++
        (if g.is_final_state q = true then ['*'] else []) ++ ['\t'] ++ print_state n0 ++
        ['\t'] ++ print_state n1 := by
    simp [dump_body, hn0, hn1]
  rw [hbody]
  unfold load_line
  rw [hm]
  have hqi : q ≤ 2147483647 := by have := hq.2; omega
  have hi0 : n0 ≤ 2147483647 := by have := hr0.2; omega
  have hi1 : n1 ≤ 2147483647 := by have := hr1.2; omega
  simp only [load_numeral hr0.1 hi0, load_numeral hr1.1 hi1, stoi_print_state hq.1 hqi, hs, ne_eq,
    not_true_eq_false, if_false, hn0, hn1, Option.getD_some, List.length_singleton,
    or_self, decide_eq_true_eq]

end Homfa

namespace Homfa

/-! ## Reading back what `dump` wrote -/

theorem load_lines_dumped {g : Graph} (h : g.well_formed)
    (hint : (g.size : Int) ≤ 2147483648) (m : Nat) :
    ∀ (k : Nat) (s : LoadState), s.delta.length = k → k + m ≤ g.size →
      s.init_sts.Sorted (· < ·) → s.final_sts.Sorted (· < ·) →
      ∃ s', load_lines (((List.range' k m).map Int.ofNat).map (fun q => dump_body g q)) s =
          Except.ok s' ∧
        s'.delta = s.delta ++ (List.range' k m).map (fun (i : Nat) =>
          ((i : Int), [(g.next_state (i : Int) false).getD 0],
            [(g.next_state (i : Int) true).getD 0])) ∧
        s'.is_dfa = s.is_dfa ∧
        s'.init_sts.Sorted (· < ·) ∧ s'.final_sts.Sorted (· < ·) ∧
        (∀ x : Int, x ∈ s'.init_sts ↔ x ∈ s.init_sts ∨
          (x = g.initial_state ∧ (k : Int) ≤ x ∧ x < ((k + m : Nat) : Int))) ∧
        (∀ x : Int, x ∈ s'.final_sts ↔ x ∈ s.final_sts ∨
          (g.is_final_state x = true ∧ (k : Int) ≤ x ∧ x < ((k + m : Nat) : Int))) := by
  induction m with
  | zero =>
    intro k s _ _ hi hf
    refine ⟨s, rfl, by simp, rfl, hi, hf, ?_, ?_⟩
    · intro x; constructor
      · exact fun hx => Or.inl hx
      · rintro (hx | ⟨-, h1, h2⟩)
        · exact hx
        · omega
    · intro x; constructor
      · exact fun hx => Or.inl hx
      · rintro (hx | ⟨-, h1, h2⟩)
        · exact hx
        · omega
  | succ m ih =>
    intro k s hk hle hi hf
    have hq : g.in_range (k : Int) := ⟨by omega, by exact_mod_cast (by omega : k < g.size)⟩
    have hstep := load_line_dumped h hint hq s (by rw [hk])
    obtain ⟨s', hres, hdelta, hdfa, hi', hf', hmi, hmf⟩ := ih (k + 1)
      { init_sts := if g.initial_state = (k : Int) then set_insert s.init_sts (k : Int)
                    else s.init_sts,
        final_sts := if g.is_final_state (k : Int) = true then set_insert s.final_sts (k : Int)
                     else s.final_sts,
        delta := s.delta ++ [((k : Int), [(g.next_state (k : Int) false).getD 0],
                                 [(g.next_state (k : Int) true).getD 0])],
        is_dfa := s.is_dfa }
      (by simp [hk]) (by omega)
      (by
        show (if g.initial_state = (k : Int) then set_insert s.init_sts (k : Int)
              else s.init_sts).Sorted (· < ·)
        split
        · exact set_insert_sorted _ _ hi
        · exact hi)
      (by
        show (if g.is_final_state (k : Int) = true then set_insert s.final_sts (k : Int)
              else s.final_sts).Sorted (· < ·)
        split
        · exact set_insert_sorted _ _ hf
        · exact hf)
    refine ⟨s', ?_, ?_, hdfa, hi', hf', ?_, ?_⟩
    · simp only [List.range'_succ, List.map_cons, load_lines, Int.ofNat_eq_coe, hstep]
      exact hres
    · rw [hdelta]
      simp [List.range'_succ]
    · intro x
      rw [hmi x]
      by_cases hx : g.initial_state = (k : Int)
      · simp only [hx, if_true, mem_set_insert]
        constructor
        · rintro ((h1 | h1) | ⟨h1, h2, h3⟩)
          · exact Or.inr ⟨h1, by omega, by push_cast; omega⟩
          · exact Or.inl h1
          · push_cast at h2 h3 ⊢; omega
        · rintro (h1 | ⟨h1, h2, h3⟩)
          · exact Or.inl (Or.inr h1)
          · exact Or.inl (Or.inl h1)
      · simp only [hx, if_false]
        constructor
        · rintro (h1 | ⟨h1, h2, h3⟩)
          · exact Or.inl h1
          · exact Or.inr ⟨h1, by push_cast at h2; omega, by push_cast at h3 ⊢; omega⟩
        · rintro (h1 | ⟨h1, h2, h3⟩)
          · exact Or.inl h1
          · refine Or.inr ⟨h1, ?_, by push_cast at h3 ⊢; omega⟩
            have : x ≠ (k : Int) := fun hxk => hx (h1 ▸ hxk)
            push_cast; omega
    · intro x
      rw [hmf x]
      by_cases hx : g.is_final_state (k : Int) = true
      · simp only [hx, if_true, mem_set_insert]
        constructor
        · rintro ((h1 | h1) | ⟨h1, h2, h3⟩)
          · exact Or.inr ⟨h1 ▸ hx, by omega, by push_cast; omega⟩
          · exact Or.inl h1
          · exact Or.inr ⟨h1, by push_cast at h2; omega, by push_cast at h3 ⊢; omega⟩
        · rintro (h1 | ⟨h1, h2, h3⟩)
          · exact Or.inl (Or.inr h1)
          · by_cases hxk : x = (k : Int)
            · exact Or.inl (Or.inl hxk)
            · exact Or.inr ⟨h1, by push_cast; omega, by push_cast at h3 ⊢; omega⟩
      · simp only [hx, if_false, Bool.false_eq_true]
        constructor
        · rintro (h1 | ⟨h1, h2, h3⟩)
          · exact Or.inl h1
          · exact Or.inr ⟨h1, by push_cast at h2; omega, by push_cast at h3 ⊢; omega⟩
        · rintro (h1 | ⟨h1, h2, h3⟩)
          · exact Or.inl h1
          · refine Or.inr ⟨h1, ?_, by push_cast at h3 ⊢; omega⟩
            have : x ≠ (k : Int) := fun hxk => hx (hxk ▸ h1)
            push_cast; omega

theorem dfa_delta_singletons (l : List Nat) (a b : Nat → Int) :
    ∀ acc : DFADelta,
      dfa_delta (l.map (fun (i : Nat) => ((i : Int), [a i], [b i]))) acc =
        some (acc ++ l.map (fun (i : Nat) => ((i : Int), a i, b i))) := by
  induction l with
  | nil => intro acc; simp [dfa_delta]
  | cons i rest ih =>
    intro acc
    simp only [List.map_cons, dfa_delta, List.getElem?_cons_zero]
    rw [ih]
    simp

theorem dumped_delta_ok {g : Graph} (h : g.well_formed) :
    delta_ok ((List.range' 0 g.size).map (fun (i : Nat) =>
      ((i : Int), (g.next_state (i : Int) false).getD 0,
        (g.next_state (i : Int) true).getD 0))) := by
  constructor
  · intro i hi e he
    simp only [List.length_map, List.length_range', List.mem_range] at hi
    have he' : ((List.range' 0 g.size).map (fun (i : Nat) =>
      ((i : Int), (g.next_state (i : Int) false).getD 0,
        (g.next_state (i : Int) true).getD 0)))[i]? = some e := he
    rw [List.getElem?_map, List.getElem?_eq_getElem (by simpa using hi)] at he'
    simp only [List.getElem_range', Option.map_some', Option.some.injEq] at he'
    rw [← he']
    simp
  · intro e he
    simp only [List.mem_map, List.mem_range'_1] at he
    obtain ⟨k, hk, rfl⟩ := he
    have hq : g.in_range (k : Int) := ⟨by omega, by exact_mod_cast (by omega : k < g.size)⟩
    obtain ⟨n0, hn0, hr0⟩ := wf_next_state h hq false
    obtain ⟨n1, hn1, hr1⟩ := wf_next_state h hq true
    simp only [List.length_map, List.length_range', hn0, hn1, Option.getD_some]
    exact ⟨hr0, hr1⟩

/-- Loading the text written by `dump` takes the deterministic path and returns
an automaton with the states, the initial state, the final states and the
transitions of the dumped one. -/
theorem dump_load_round_trip {g : Graph} (h : g.well_formed)
    (hint : (g.size : Int) ≤ 2147483648) :
    ∃ (text : List Char) (s : LoadState) (G : Graph), g.dump = some text ∧
      parse_file text = Except.ok s ∧ s.is_dfa = true ∧
      Graph.from_file text = Except.ok G ∧ G.size = g.size ∧
      G.initial_state = g.initial_state ∧ G.final_state_ = g.final_state_ ∧
      ∀ (q : Int) (b : Bool), G.next_state q b = g.next_state q b := by
  obtain ⟨text, htext, hlines⟩ := dump_lines h
  have hall : g.all_states = (List.range' 0 g.size).map Int.ofNat := by
    unfold Graph.all_states; rw [List.range_eq_range']
  obtain ⟨s, hres, hdelta, hdfa, hi, hf, hmi, hmf⟩ := load_lines_dumped h hint g.size 0
    { init_sts := [], final_sts := [], delta := [], is_dfa := true } rfl (by omega)
    (by simp) (by simp)
  rw [← hall] at hres
  simp only [List.nil_append] at hdelta
  have hinit : s.init_sts = [g.initial_state] := by
    apply sorted_eq_singleton hi
    intro x
    rw [hmi x]
    simp only [List.not_mem_nil, false_or]
    constructor
    · exact fun hx => hx.1
    · rintro rfl
      exact ⟨rfl, by simpa using h.2.1.1, by simpa using h.2.1.2⟩
  have hfinal : s.final_sts = g.final_state_ := by
    apply List.eq_of_perm_of_sorted _ hf h.2.2.1
    apply (List.perm_ext_iff_of_nodup hf.nodup h.2.2.1.nodup).2
    intro x
    rw [hmf x]
    simp only [List.not_mem_nil, false_or, Graph.is_final_state, set_contains_iff]
    constructor
    · exact fun hx => hx.1
    · intro hx
      have := h.2.2.2 x hx
      exact ⟨hx, by simpa using this.1, by simpa using this.2⟩
  have hparse : parse_file text =
      Except.ok { s with is_dfa := true } := by
    unfold parse_file
    rw [hlines, hres]
    simp [hinit, hdfa]
  have hnd := dfa_delta_singletons (List.range' 0 g.size)
    (fun i => (g.next_state (i : Int) false).getD 0)
    (fun i => (g.next_state (i : Int) true).getD 0) []
  rw [← hdelta] at hnd
  simp only [List.nil_append] at hnd
  have hdok := dumped_delta_ok h
  refine ⟨text, { s with is_dfa := true },
    Graph.mk (built_table ((List.range' 0 g.size).map (fun (i : Nat) =>
      ((i : Int), (g.next_state (i : Int) false).getD 0,
        (g.next_state (i : Int) true).getD 0)))) [] s.final_sts g.initial_state,
    htext, hparse, rfl, ?_, ?_, rfl, ?_, ?_⟩
  · unfold Graph.from_file
    rw [hparse]
    simp only [if_true, hinit, List.head?_cons, hnd]
    rw [ctor_eq_some _ _ hdok]
    rfl
  · simp [Graph.size, built_table_length]
  · exact hfinal
  · intro q b
    rw [built_next_state]
    by_cases hq : g.in_range q
    · obtain ⟨h0, h1⟩ := hq
      lift q to ℕ using h0 with k
      have hk : k < g.size := by exact_mod_cast h1
      obtain ⟨n, hn, -⟩ := wf_next_state h (q := (k : Int)) ⟨by omega, h1⟩ b
      rw [vat_natCast, List.getElem?_map, List.getElem?_eq_getElem (by simpa using hk)]
      simp only [List.getElem_range', Option.map_some', zero_add, one_mul]
      cases b <;> simp [hn]
    · rw [next_state_none hq]
      have : vat ((List.range' 0 g.size).map (fun (i : Nat) =>
          ((i : Int), (g.next_state (i : Int) false).getD 0,
            (g.next_state (i : Int) true).getD 0))) q = none := by
        rw [vat_eq_none_iff]
        simp only [List.length_map, List.length_range']
        unfold Graph.in_range at hq
        omega
      rw [this]; rfl

end Homfa

namespace Homfa

/-! ## The language of the reversed automaton -/

theorem wf_final_subset_ok {g : Graph} (h : g.well_formed) : subset_ok g.size g.final_state_ :=
  ⟨h.2.2.1, h.2.2.2⟩

/-- What `reversed` returns accepts exactly the reversed words. -/
theorem reversed_language {g : Graph} (h : g.well_formed) :
    ∃ r : Graph, g.reversed = some r ∧ ∀ w : Word, r.accepts w = g.accepts w.reverse := by
  obtain ⟨delta, hres, hlen, hnext, hok⟩ := reversed_delta_ok h
  have hq0 : subset_ok delta.length g.final_state_ := by
    rw [hlen]; exact wf_final_subset_ok h
  obtain ⟨r, hr, hacc⟩ := from_nfa_language g.final_state_ [g.initial_state] hok hq0
  refine ⟨r, ?_, ?_⟩
  · unfold Graph.reversed
    rw [hres]; exact hr
  · intro w
    rw [hacc w, Bool.eq_iff_iff]
    simp only [nfa_accepts, List.any_eq_true, reversed_accepts_from hnext]
    unfold Graph.accepts Graph.accepts_from
    constructor
    · rintro ⟨q, hq, hrun⟩
      simp [hrun, Graph.is_final_state, set_contains, hq]
    · intro hacc
      cases hrun : g.run g.initial_state w.reverse with
      | none => simp [hrun] at hacc
      | some q =>
        simp only [hrun, Graph.is_final_state, set_contains] at hacc
        exact ⟨q, by simpa using hacc, rfl⟩

end Homfa

namespace Homfa

/-! ## The size of the minimized automaton -/

/-- A list of distinct states in range is no longer than the number of states. -/
theorem nodup_in_range_length_le (g : Graph) (l : List Int) (hnd : l.Nodup)
    (hr : ∀ q ∈ l, g.in_range q) : l.length ≤ g.size := by
  have hsub : l ⊆ g.all_states := fun q hq => (mem_all_states g q).2 (hr q hq)
  have hle := (List.subperm_of_subset hnd hsub).length_le
  rwa [all_states_length] at hle

end Homfa

namespace Homfa

/-! ## The number of stored depth layers -/

/-- Each iteration of the depth loop appends one layer. -/
theorem depth_loop_length (g : Graph) :
    ∀ (d : Nat) (sts : List Bool) (layers res : List (List Int)),
      depth_loop g d sts layers = some res → res.length = layers.length + d := by
  intro d
  induction d with
  | zero =>
    intro sts layers res h
    simp only [depth_loop, Option.some.injEq] at h
    simp [← h]
  | succ d ih =>
    intro sts layers res h
    simp only [depth_loop, Option.bind_eq_some] at h
    obtain ⟨r, -, sts1, -, hres⟩ := h
    have := ih sts1 _ res hres
    simp only [List.length_append, List.length_singleton] at this
    omega

/-- What `reserve_states_at_depth(D)` returns stores exactly `D` layers, whatever
was stored before the call, and changes nothing else. -/
theorem reserve_states_at_depth_length {g G : Graph} {D : Nat}
    (h : g.reserve_states_at_depth D = some G) :
    G.states_at_depth_.length = D ∧ G.table_ = g.table_ ∧
      G.final_state_ = g.final_state_ ∧ G.init_state_ = g.init_state_ := by
  simp only [Graph.reserve_states_at_depth, Option.bind_eq_some, Option.map_eq_some'] at h
  obtain ⟨sts, -, layers, hl, rfl⟩ := h
  have := depth_loop_length g D sts [] layers hl
  simpa using this

/-- The accessor `states_at_depth(k)` succeeds exactly below the number of
stored layers. -/
theorem states_at_depth_bounds (g : Graph) (k : Nat) :
    (k < g.states_at_depth_.length → ∃ L, g.states_at_depth k = some L) ∧
    (g.states_at_depth_.length ≤ k → g.states_at_depth k = none) := by
  unfold Graph.states_at_depth
  constructor
  · intro hk
    exact ⟨g.states_at_depth_[k], List.getElem?_eq_getElem hk⟩
  · intro hk
    exact List.getElem?_eq_none hk

/-- The constructor stores no layer. -/
theorem ctor_states_at_depth {init_st : Int} {final_sts : List Int} {delta : DFADelta}
    {G : Graph} (h : Graph.ctor init_st final_sts delta = some G) :
    G.states_at_depth_ = [] := by
  simp only [Graph.ctor, Option.map_eq_some'] at h
  obtain ⟨t, -, rfl⟩ := h
  rfl

end Homfa

namespace Homfa

/-! ## Pruning an automaton whose states are all reachable -/

/-- Two `std::set`s with the same members are the same list. -/
theorem sorted_ext {s t : List Int} (hs : s.Sorted (· < ·)) (ht : t.Sorted (· < ·))
    (h : ∀ q, q ∈ s ↔ q ∈ t) : s = t :=
  List.eq_of_perm_of_sorted ((List.perm_ext_iff_of_nodup hs.nodup ht.nodup).2 h) hs ht

theorem final_state_ext {g g' : Graph} (h : g.well_formed) (h' : g'.well_formed)
    (hf : ∀ q : Int, g.is_final_state q = g'.is_final_state q) :
    g.final_state_ = g'.final_state_ := by
  refine sorted_ext h.2.2.1 h'.2.2.1 ?_
  intro q
  have := hf q
  simp only [Graph.is_final_state, set_contains] at this
  rw [Bool.eq_iff_iff] at this
  simpa using this

/-- On a well-formed automaton whose states are all reachable, pruning returns
an automaton with the same states, initial state, final states and transitions. -/
theorem prune_fully_reachable {g : Graph} (h : g.well_formed)
    (hall : ∀ q, g.in_range q → g.reach q) :
    ∃ P : Graph, g.removed_unreachable = some P ∧ P.well_formed ∧ P.size = g.size ∧
      P.initial_state = g.initial_state ∧ P.final_state_ = g.final_state_ ∧
      ∀ (q : Int) (b : Bool), P.next_state q b = g.next_state q b := by
  obtain ⟨P, o, hP, hp⟩ := removed_unreachable_spec h
  obtain ⟨hs, -⟩ := prune_same_structure hp h hall
  exact ⟨P, hP, hp.wf, hs.1, hs.2.1, final_state_ext hp.wf h hs.2.2.2, hs.2.2.1⟩

/-- Pruning twice gives what pruning once gives. -/
theorem prune_idempotent {g : Graph} (h : g.well_formed) :
    ∃ P PP : Graph, g.removed_unreachable = some P ∧ P.removed_unreachable = some PP ∧
      PP.size = P.size ∧ PP.initial_state = P.initial_state ∧
      PP.final_state_ = P.final_state_ ∧
      ∀ (q : Int) (b : Bool), PP.next_state q b = P.next_state q b := by
  obtain ⟨P, o, hP, hp⟩ := removed_unreachable_spec h
  obtain ⟨PP, hPP, -, h1, h2, h3, h4⟩ :=
    prune_fully_reachable hp.wf (fun q hq => prune_all_reach hp hq)
  exact ⟨P, PP, hP, hPP, h1, h2, h3, h4⟩

end Homfa

namespace Homfa

/-! ## The order of the relabeling of `removed_unreachable` -/

theorem map_ok_entry {α : Type} {m : List (α × Int)} (hm : map_ok m) {k : Nat} {S : α}
    (h : (m.map Prod.fst)[k]? = some S) : (S, (k : Int)) ∈ m := by
  rw [List.getElem?_map, Option.map_eq_some'] at h
  obtain ⟨p, hp, rfl⟩ := h
  have h2 := hm.2 k p hp
  have hmem := List.getElem?_mem hp
  rw [← h2]
  exact hmem

theorem map_ok_index {α : Type} {m : List (α × Int)} (hm : map_ok m) {S : α} {i : Int}
    (h : (S, i) ∈ m) : ∃ k : Nat, i = (k : Int) ∧ (m.map Prod.fst)[k]? = some S := by
  obtain ⟨k, hk, hget⟩ := map_ok_pos hm h
  exact ⟨k, hk, by rw [List.getElem?_map, hget]; rfl⟩

/-- The relabeling of `removed_unreachable` numbers the reachable states in
increasing order of their old ids: with `R` the increasing list of the
reachable states, the new id of `R[k]` is `k`. -/
theorem prune_sorted_relabel {g : Graph} (h : g.well_formed) :
    ∃ (P : Graph) (R : List Int), g.removed_unreachable = some P ∧
      R.Sorted (· < ·) ∧ (∀ q, q ∈ R ↔ g.reach q) ∧ P.size = R.length ∧
      (∀ (k : Nat) (q : Int), R[k]? = some q →
        (∀ b : Bool, ∃ (q' : Int) (k' : Nat), g.next_state q b = some q' ∧
          R[k']? = some q' ∧ P.next_state (k : Int) b = some (k' : Int)) ∧
        P.is_final_state (k : Int) = g.is_final_state q ∧
        (q = g.initial_state → P.initial_state = (k : Int))) ∧
      (P.initial_state = 0 ↔ ∀ q, g.reach q → g.initial_state ≤ q) := by
  obtain ⟨P, o, hP, hp⟩ := removed_unreachable_spec h
  have hmemR : ∀ q, q ∈ o.map Prod.fst ↔ g.reach q := by
    intro q
    rw [hp.dom q]
    constructor
    · intro hq
      obtain ⟨p, hp', rfl⟩ := List.mem_map.1 hq
      exact ⟨p.2, hp'⟩
    · rintro ⟨i, hi⟩
      exact List.mem_map.2 ⟨(q, i), hi, rfl⟩
  refine ⟨P, o.map Prod.fst, hP, hp.keys_sorted, hmemR, by rw [hp.size, List.length_map],
    ?_, ?_⟩
  · intro k q hk
    have hmem := map_ok_entry hp.map hk
    refine ⟨?_, hp.final q k hmem, ?_⟩
    · intro b
      obtain ⟨q', i', hn, hPn, hmem'⟩ := hp.next q k b hmem
      obtain ⟨k', rfl, hk'⟩ := map_ok_index hp.map hmem'
      exact ⟨q', k', hn, hk', hPn⟩
    · intro hq
      subst hq
      exact map_ok_id_inj hp.map hp.init hmem
  · obtain ⟨k, hk, hget⟩ := map_ok_index hp.map hp.init
    have hklt : k < (o.map Prod.fst).length := by
      by_contra hge
      rw [List.getElem?_eq_none (not_lt.1 hge)] at hget
      exact absurd hget (by simp)
    have hgetk : (o.map Prod.fst)[k] = g.initial_state := by
      rw [List.getElem?_eq_getElem hklt] at hget
      exact Option.some.inj hget
    have hpw := List.pairwise_iff_getElem.1 hp.keys_sorted
    constructor
    · intro h0 q hq
      have hk0 : k = 0 := by
        rw [hk] at h0
        exact_mod_cast h0
      subst hk0
      obtain ⟨j, hj, hqj⟩ := List.getElem_of_mem ((hmemR q).2 hq)
      rcases Nat.eq_zero_or_pos j with rfl | hpos
      · rw [← hqj, hgetk]
      · have := hpw 0 j hklt hj hpos
        rw [hgetk, hqj] at this
        exact le_of_lt this
    · intro hmin
      rcases Nat.eq_zero_or_pos k with rfl | hpos
      · rw [hk]; rfl
      · have hlt := hpw 0 k (by omega) hklt hpos
        rw [hgetk] at hlt
        have hr : g.reach ((o.map Prod.fst)[0]) :=
          (hmemR _).1 (List.getElem_mem _)
        have := hmin _ hr
        omega

end Homfa

namespace Homfa

/-! ## Termination and size of the determinization -/

/-- A run of the worklist loop that ends within `fuel` iterations ends with the
same state within any larger number of iterations. -/
theorem from_nfa_loop_mono (Fn : List Int) (dn : NFADelta) :
    ∀ (fuel : Nat) (s s' : NfaLoop), from_nfa_loop Fn dn fuel s = some s' →
      ∀ k, from_nfa_loop Fn dn (fuel + k) s = some s' := by
  intro fuel
  induction fuel with
  | zero =>
    intro s s' h k
    unfold from_nfa_loop at h ⊢
    cases hq : s.que with
    | nil => simpa [hq] using h
    | cons qs rest => simp [hq] at h
  | succ fuel ih =>
    intro s s' h k
    unfold from_nfa_loop at h ⊢
    cases hq : s.que with
    | nil => simpa [hq] using h
    | cons qs rest =>
      simp only [hq, Option.bind_eq_some] at h
      obtain ⟨s1, hs1, hrest⟩ := h
      have hk : fuel + 1 + k = (fuel + k) + 1 := by omega
      rw [hk]
      simp only [Option.bind_eq_some]
      exact ⟨s1, hs1, ih s1 s' hrest k⟩

/-- When the loop of `from_nfa` has ended, the memo table holds at most
`2 ^ dn.size()` subsets. -/
theorem st_map_length_le {q0n Fn : List Int} {dn : NFADelta} {s : NfaLoop}
    (hinv : NfaInv q0n Fn dn s) (hq : s.que = []) : s.st_map.length ≤ 2 ^ dn.length := by
  have hle := subsets_length_le dn.length (s.st_map.map Prod.fst) hinv.map.1 (by
    intro S hS
    obtain ⟨p, hp, rfl⟩ := List.mem_map.1 hS
    rcases hinv.pending p hp with hv | hque
    · exact hinv.vis_ok _ hv
    · rw [hq] at hque
      exact absurd hque (List.not_mem_nil _))
  simpa using hle

/-- The function `from_nfa` returns on every in-range NFA: its loop ends, with
one final state of its variables for every number of iterations allowed from
`2 * 2 ^ N + 1` on, and the automaton returned has at most `2 ^ N` states. -/
theorem from_nfa_total (q0n Fn : List Int) {dn : NFADelta} (hdn : nfa_ok dn)
    (hq0 : subset_ok dn.length q0n) :
    (∃ s : NfaLoop, s.que = [] ∧ ∀ fuel, 2 * 2 ^ dn.length + 1 ≤ fuel →
      from_nfa_loop Fn dn fuel
        { st_map := [], df := [], Ff := [], visited := [], que := [q0n] } = some s) ∧
    ∃ g : Graph, Graph.from_nfa q0n Fn dn = some g ∧ g.size ≤ 2 ^ dn.length := by
  constructor
  · obtain ⟨s, hs, -, hque⟩ := from_nfa_loop_spec hdn (2 * 2 ^ dn.length + 1) _
      (nfa_inv_init q0n Fn dn hq0) (by simp; omega)
    refine ⟨s, hque, ?_⟩
    intro fuel hfuel
    obtain ⟨k, rfl⟩ := Nat.exists_eq_add_of_le hfuel
    exact from_nfa_loop_mono Fn dn _ _ s hs k
  · obtain ⟨s, i, hinv, hq, -, -, hres⟩ := from_nfa_eq_some q0n Fn hdn hq0
    refine ⟨_, hres, ?_⟩
    simp only [Graph.size, built_table_length]
    rw [hinv.len]
    exact st_map_length_le hinv hq

end Homfa

namespace Homfa

/-! ## The reading loop of `from_file`, line by line -/

theorem load_fields_error (fs : List (List Char)) :
    ∀ (ret : List Int) (e : LoadError), load_fields fs ret = Except.error e →
      (∃ f, e = LoadError.not_a_number f) ∨ e = LoadError.uncaught_exception := by
  induction fs with
  | nil => intro ret e h; simp [load_fields] at h
  | cons f rest ih =>
    intro ret e h
    unfold load_fields at h
    cases hs : stoi f with
    | error err =>
      cases err with
      | invalid_argument =>
        simp only [hs, die, Except.error.injEq] at h
        exact Or.inl ⟨f, h.symm⟩
      | out_of_range =>
        simp only [hs, Except.error.injEq] at h
        exact Or.inr h.symm
    | ok v =>
      simp only [hs] at h
      exact ih _ e h

/-- The lambda `load_comma_separated_states` fails either through the call of
`error::die` that reports a field that is not a number, or with the exception
of a field that is not an `int`, which it does not catch. -/
theorem load_comma_separated_states_error {s : List Char} {e : LoadError}
    (h : load_comma_separated_states s = Except.error e) :
    (∃ f, e = LoadError.not_a_number f) ∨ e = LoadError.uncaught_exception := by
  unfold load_comma_separated_states at h
  split at h
  · simp at h
  · exact load_fields_error _ _ e h

theorem load_line_none {s : LoadState} {line : List Char} (h : match_line line = none) :
    load_line s line = Except.ok s := by
  simp [load_line, h]

/-- The four ways the body of the reading loop ends on a line that matches. -/
theorem load_line_cases (s : LoadState) {line : List Char} {m : LineMatch}
    (hm : match_line line = some m) :
    (∃ f, load_line s line = Except.error (LoadError.not_a_number f)) ∨
    (load_line s line = Except.error LoadError.uncaught_exception ∧
      ((∃ err, stoi m.number = Except.error err) ∨
        load_comma_separated_states m.field0 = Except.error LoadError.uncaught_exception ∨
        load_comma_separated_states m.field1 = Except.error LoadError.uncaught_exception)) ∨
    (∃ (w : Int) (q0s q1s : List Int), stoi m.number = Except.ok w ∧
      (s.delta.length : Int) ≠ w ∧
      load_comma_separated_states m.field0 = Except.ok q0s ∧
      load_comma_separated_states m.field1 = Except.ok q1s ∧
      load_line s line =
        Except.error (LoadError.invalid_state_number w (s.delta.length : Int))) ∨
    (∃ q0s q1s : List Int, stoi m.number = Except.ok (s.delta.length : Int) ∧
      load_comma_separated_states m.field0 = Except.ok q0s ∧
      load_comma_separated_states m.field1 = Except.ok q1s ∧
      load_line s line = Except.ok (after_line s m q0s q1s)) := by
  unfold load_line
  simp only [hm]
  cases h0 : load_comma_separated_states m.field0 with
  | error e =>
    rcases load_comma_separated_states_error h0 with ⟨f, rfl⟩ | rfl
    · exact Or.inl ⟨f, rfl⟩
    · exact Or.inr (Or.inl ⟨rfl, Or.inr (Or.inl rfl)⟩)
  | ok q0s =>
    cases h1 : load_comma_separated_states m.field1 with
    | error e =>
      rcases load_comma_separated_states_error h1 with ⟨f, rfl⟩ | rfl
      · exact Or.inl ⟨f, rfl⟩
      · exact Or.inr (Or.inl ⟨rfl, Or.inr (Or.inr rfl)⟩)
    | ok q1s =>
      cases hn : stoi m.number with
      | error err => exact Or.inr (Or.inl ⟨rfl, Or.inl ⟨err, rfl⟩⟩)
      | ok w =>
        simp only
        by_cases hw : (s.delta.length : Int) = w
        · subst hw
          refine Or.inr (Or.inr (Or.inr ⟨q0s, q1s, rfl, rfl, rfl, ?_⟩))
          simp [after_line]
        · refine Or.inr (Or.inr (Or.inl ⟨w, q0s, q1s, rfl, hw, rfl, rfl, ?_⟩))
          simp [hw, die]

end Homfa

namespace Homfa

/-! ## The numbering check of the reading loop -/

theorem load_lines_cons_none {line : List Char} (rest : List (List Char)) (s : LoadState)
    (h : match_line line = none) : load_lines (line :: rest) s = load_lines rest s := by
  simp [load_lines, load_line_none h]

theorem load_lines_cons_error {line : List Char} (rest : List (List Char)) {s : LoadState}
    {e : LoadError} (h : load_line s line = Except.error e) :
    load_lines (line :: rest) s = Except.error e := by
  simp [load_lines, h]

theorem load_lines_cons_ok {line : List Char} (rest : List (List Char)) {s s1 : LoadState}
    (h : load_line s line = Except.ok s1) :
    load_lines (line :: rest) s = load_lines rest s1 := by
  simp [load_lines, h]

theorem after_line_length (s : LoadState) (m : LineMatch) (q0s q1s : List Int) :
    (after_line s m q0s q1s).delta.length = s.delta.length + 1 := by
  simp [after_line]

/-- When the written numbers are sequential, the reading loop never ends with
the error of the numbering check. -/
theorem load_lines_sequential (lines : List (List Char)) :
    ∀ s : LoadState,
      (∀ (i : Nat) (m : LineMatch), (lines.filterMap match_line)[i]? = some m →
        stoi m.number = Except.ok ((s.delta.length + i : Nat) : Int)) →
      ∀ (w q : Int), load_lines lines s ≠ Except.error (LoadError.invalid_state_number w q) := by
  induction lines with
  | nil => intro s _ w q; simp [load_lines]
  | cons line rest ih =>
    intro s h w q
    cases hm : match_line line with
    | none =>
      rw [load_lines_cons_none rest s hm]
      apply ih s
      intro i m hi
      exact h i m (by rw [List.filterMap_cons_none hm]; exact hi)
    | some m =>
      have h0 := h 0 m (by rw [List.filterMap_cons_some hm]; simp)
      rcases load_line_cases s hm with ⟨f, hf⟩ | ⟨hu, -⟩ | ⟨w', a, b, hw', hne, -, -, -⟩ |
        ⟨a, b, -, -, -, hok⟩
      · rw [load_lines_cons_error rest hf]; simp
      · rw [load_lines_cons_error rest hu]; simp
      · rw [hw'] at h0
        exact absurd (Except.ok.inj h0).symm (by simpa using hne)
      · rw [load_lines_cons_ok rest hok]
        apply ih
        intro i m' hi
        have := h (i + 1) m' (by rw [List.filterMap_cons_some hm]; simpa using hi)
        rw [this, after_line_length]
        congr 2
        omega

/-- When the number written on a matching line is not the number of matching
lines before it, the reading loop ends with an error. -/
theorem load_lines_mismatch (lines : List (List Char)) :
    ∀ s : LoadState,
      (∃ (i : Nat) (m : LineMatch), (lines.filterMap match_line)[i]? = some m ∧
        stoi m.number ≠ Except.ok ((s.delta.length + i : Nat) : Int)) →
      ∃ e, load_lines lines s = Except.error e := by
  induction lines with
  | nil => rintro s ⟨i, m, hi, -⟩; simp at hi
  | cons line rest ih =>
    rintro s ⟨i, m', hi, hne⟩
    cases hm : match_line line with
    | none =>
      rw [load_lines_cons_none rest s hm]
      exact ih s ⟨i, m', by rw [List.filterMap_cons_none hm] at hi; exact hi, hne⟩
    | some m =>
      rw [List.filterMap_cons_some hm] at hi
      rcases load_line_cases s hm with ⟨f, hf⟩ | ⟨hu, -⟩ | ⟨w', a, b, -, -, -, -, he⟩ |
        ⟨a, b, hn, -, -, hok⟩
      · exact ⟨_, load_lines_cons_error rest hf⟩
      · exact ⟨_, load_lines_cons_error rest hu⟩
      · exact ⟨_, load_lines_cons_error rest he⟩
      · rw [load_lines_cons_ok rest hok]
        cases i with
        | zero =>
          simp only [List.getElem?_cons_zero, Option.some.injEq] at hi
          subst hi
          exact absurd hn (by simpa using hne)
        | succ j =>
          apply ih
          refine ⟨j, m', by simpa using hi, ?_⟩
          rw [after_line_length]
          intro hc
          apply hne
          rw [hc]
          congr 2
          omega

/-- At the first matching line whose number is out of sequence, when the fields
read so far are lists of numbers, the reading loop ends with the error of the
numbering check, which carries the written number and the expected one. -/
theorem load_lines_first_mismatch (lines : List (List Char)) :
    ∀ (s : LoadState) (i : Nat) (m : LineMatch) (w : Int),
      (lines.filterMap match_line)[i]? = some m → stoi m.number = Except.ok w →
      w ≠ ((s.delta.length + i : Nat) : Int) →
      (∀ (j : Nat) (m' : LineMatch), j < i → (lines.filterMap match_line)[j]? = some m' →
        stoi m'.number = Except.ok ((s.delta.length + j : Nat) : Int)) →
      (∀ (j : Nat) (m' : LineMatch), j ≤ i → (lines.filterMap match_line)[j]? = some m' →
        ∃ a b, load_comma_separated_states m'.field0 = Except.ok a ∧
          load_comma_separated_states m'.field1 = Except.ok b) →
      load_lines lines s =
        Except.error (LoadError.invalid_state_number w ((s.delta.length + i : Nat) : Int)) := by
  induction lines with
  | nil => intro s i m w hi; simp at hi
  | cons line rest ih =>
    intro s i m' w hi hw hne hseq hparse
    cases hm : match_line line with
    | none =>
      rw [load_lines_cons_none rest s hm]
      rw [List.filterMap_cons_none hm] at hi hseq hparse
      exact ih s i m' w hi hw hne hseq hparse
    | some m =>
      rw [List.filterMap_cons_some hm] at hi hseq hparse
      obtain ⟨a0, b0, ha0, hb0⟩ := hparse 0 m (Nat.zero_le i) (by simp)
      rcases load_line_cases s hm with ⟨f, hf⟩ | ⟨-, ⟨err, hn⟩ | hn | hn⟩ |
        ⟨w', a, b, hw', hne', -, -, he⟩ | ⟨a, b, hn, -, -, hok⟩
      · exfalso
        unfold load_line at hf
        simp [hm, ha0, hb0] at hf
        cases hn : stoi m.number with
        | error err => simp [hn] at hf
        | ok v =>
          simp only [hn] at hf
          split at hf <;> simp [die] at hf
      · cases i with
        | zero =>
          simp only [List.getElem?_cons_zero, Option.some.injEq] at hi
          subst hi
          rw [hn] at hw; exact absurd hw (by simp)
        | succ j =>
          have := hseq 0 m (Nat.succ_pos j) (by simp)
          rw [hn] at this; exact absurd this (by simp)
      · rw [hn] at ha0; exact absurd ha0 (by simp)
      · rw [hn] at hb0; exact absurd hb0 (by simp)
      · cases i with
        | zero =>
          simp only [List.getElem?_cons_zero, Option.some.injEq] at hi
          subst hi
          rw [hw'] at hw
          obtain rfl := Except.ok.inj hw
          rw [load_lines_cons_error rest he]
          simp
        | succ j =>
          have := hseq 0 m (Nat.succ_pos j) (by simp)
          rw [hw'] at this
          exact absurd (Except.ok.inj this).symm (by simpa using hne')
      · rw [load_lines_cons_ok rest hok]
        cases i with
        | zero =>
          simp only [List.getElem?_cons_zero, Option.some.injEq] at hi
          subst hi
          rw [hn] at hw
          exact absurd (Except.ok.inj hw).symm (by simpa using hne)
        | succ j =>
          have hlen : ((after_line s m a b).delta.length + j : Nat) = s.delta.length + (j + 1) := by
            rw [after_line_length]; omega
          have key := ih (after_line s m a b) j m' w (by simpa using hi) hw
            (by rw [hlen]; exact hne)
            (by
              intro k m'' hk hk'
              have := hseq (k + 1) m'' (by omega) (by simpa using hk')
              rw [this, after_line_length]
              congr 2
              omega)
            (by
              intro k m'' hk hk'
              exact hparse (k + 1) m'' (by omega) (by simpa using hk'))
          rw [key, hlen]

/-- At the first matching line whose number is not an `int`, when the lines
before it are in sequence and the fields read so far are lists of numbers, the
reading loop ends with the exception of `std::stoi`, which nothing catches: the
numbering check is not reached. -/
theorem load_lines_first_overflow (lines : List (List Char)) :
    ∀ (s : LoadState) (i : Nat) (m : LineMatch) (err : StoiError),
      (lines.filterMap match_line)[i]? = some m → stoi m.number = Except.error err →
      (∀ (j : Nat) (m' : LineMatch), j < i → (lines.filterMap match_line)[j]? = some m' →
        stoi m'.number = Except.ok ((s.delta.length + j : Nat) : Int)) →
      (∀ (j : Nat) (m' : LineMatch), j ≤ i → (lines.filterMap match_line)[j]? = some m' →
        ∃ a b, load_comma_separated_states m'.field0 = Except.ok a ∧
          load_comma_separated_states m'.field1 = Except.ok b) →
      load_lines lines s = Except.error LoadError.uncaught_exception := by
  induction lines with
  | nil => intro s i m err hi; simp at hi
  | cons line rest ih =>
    intro s i m' err hi hw hseq hparse
    cases hm : match_line line with
    | none =>
      rw [load_lines_cons_none rest s hm]
      rw [List.filterMap_cons_none hm] at hi hseq hparse
      exact ih s i m' err hi hw hseq hparse
    | some m =>
      rw [List.filterMap_cons_some hm] at hi hseq hparse
      obtain ⟨a0, b0, ha0, hb0⟩ := hparse 0 m (Nat.zero_le i) (by simp)
      rcases load_line_cases s hm with ⟨f, hf⟩ | ⟨hu, -⟩ |
        ⟨w', a, b, hw', hne', -, -, he⟩ | ⟨a, b, hn, -, -, hok⟩
      · exfalso
        unfold load_line at hf
        simp [hm, ha0, hb0] at hf
        cases hn : stoi m.number with
        | error err => simp [hn] at hf
        | ok v =>
          simp only [hn] at hf
          split at hf <;> simp [die] at hf
      · exact load_lines_cons_error rest hu
      · exfalso
        cases i with
        | zero =>
          simp only [List.getElem?_cons_zero, Option.some.injEq] at hi
          subst hi
          rw [hw'] at hw
          exact absurd hw (by simp)
        | succ j =>
          have := hseq 0 m (Nat.succ_pos j) (by simp)
          rw [hw'] at this
          exact absurd (Except.ok.inj this).symm (by simpa using hne')
      · rw [load_lines_cons_ok rest hok]
        cases i with
        | zero =>
          simp only [List.getElem?_cons_zero, Option.some.injEq] at hi
          subst hi
          rw [hn] at hw
          exact absurd hw (by simp)
        | succ j =>
          exact ih (after_line s m a b) j m' err (by simpa using hi) hw
            (by
              intro k m'' hk hk'
              have := hseq (k + 1) m'' (by omega) (by simpa using hk')
              rw [this, after_line_length]
              congr 2
              omega)
            (by
              intro k m'' hk hk'
              exact hparse (k + 1) m'' (by omega) (by simpa using hk'))

end Homfa

namespace Homfa

/-! ## Fatal errors of `from_file` -/

/-- An error of the reading loop is the result of `from_file`. -/
theorem from_file_of_load_error {content : List Char} {e : LoadError}
    (h : load_lines (getline_all '\n' content [])
      { init_sts := [], final_sts := [], delta := [], is_dfa := true } = Except.error e) :
    Graph.from_file content = Except.error e := by
  simp [Graph.from_file, parse_file, h]

theorem uncaught_ne_number_error (r : Option Graph) (w q : Int) :
    uncaught r ≠ Except.error (LoadError.invalid_state_number w q) := by
  cases r <;> simp [uncaught]

/-- The error of the numbering check comes from the reading loop only. -/
theorem from_file_number_error {content : List Char} {w q : Int}
    (h : Graph.from_file content = Except.error (LoadError.invalid_state_number w q)) :
    load_lines (getline_all '\n' content [])
      { init_sts := [], final_sts := [], delta := [], is_dfa := true } =
        Except.error (LoadError.invalid_state_number w q) := by
  unfold Graph.from_file parse_file at h
  cases hl : load_lines (getline_all '\n' content [])
      { init_sts := [], final_sts := [], delta := [], is_dfa := true } with
  | error e =>
    simp only [hl] at h
    injection h with h
    rw [h]
  | ok s =>
    exfalso
    simp only [hl] at h
    by_cases hd : (if s.init_sts.length ≠ 1 then false else s.is_dfa) = true
    · simp only [hd, if_true] at h
      cases hh : s.init_sts.head? with
      | none => simp [hh] at h
      | some init_st =>
        cases hdd : dfa_delta s.delta [] with
        | none => simp [hh, hdd] at h
        | some new_delta =>
          simp only [hh, hdd] at h
          exact uncaught_ne_number_error _ _ _ h
    · simp only [hd] at h
      exact uncaught_ne_number_error _ _ _ h

/-- The numbering check of `from_file`, on the matching lines of the text. -/
theorem from_file_numbering (content : List Char) :
    ((∃ (i : Nat) (m : LineMatch), (matching_lines content)[i]? = some m ∧
        stoi m.number ≠ Except.ok (i : Int)) →
      (∃ e, Graph.from_file content = Except.error e) ∧
      ∀ G, Graph.from_file content ≠ Except.ok G) ∧
    (∀ (i : Nat) (m : LineMatch) (w : Int), (matching_lines content)[i]? = some m →
      stoi m.number = Except.ok w → w ≠ (i : Int) →
      (∀ (j : Nat) (m' : LineMatch), j < i → (matching_lines content)[j]? = some m' →
        stoi m'.number = Except.ok (j : Int)) →
      (∀ (j : Nat) (m' : LineMatch), j ≤ i → (matching_lines content)[j]? = some m' →
        ∃ a b, load_comma_separated_states m'.field0 = Except.ok a ∧
          load_comma_separated_states m'.field1 = Except.ok b) →
      Graph.from_file content =
        Except.error (LoadError.invalid_state_number w (i : Int))) ∧
    (∀ (i : Nat) (m : LineMatch) (err : StoiError), (matching_lines content)[i]? = some m →
      stoi m.number = Except.error err →
      (∀ (j : Nat) (m' : LineMatch), j < i → (matching_lines content)[j]? = some m' →
        stoi m'.number = Except.ok (j : Int)) →
      (∀ (j : Nat) (m' : LineMatch), j ≤ i → (matching_lines content)[j]? = some m' →
        ∃ a b, load_comma_separated_states m'.field0 = Except.ok a ∧
          load_comma_separated_states m'.field1 = Except.ok b) →
      Graph.from_file content = Except.error LoadError.uncaught_exception) ∧
    ((∀ (i : Nat) (m : LineMatch), (matching_lines content)[i]? = some m →
        stoi m.number = Except.ok (i : Int)) →
      ∀ (w q : Int),
        Graph.from_file content ≠ Except.error (LoadError.invalid_state_number w q)) := by
  refine ⟨?_, ?_, ?_, ?_⟩
  · rintro ⟨i, m, hi, hne⟩
    obtain ⟨e, he⟩ := load_lines_mismatch (getline_all '\n' content [])
      { init_sts := [], final_sts := [], delta := [], is_dfa := true }
      ⟨i, m, hi, by simpa using hne⟩
    have hf := from_file_of_load_error he
    exact ⟨⟨e, hf⟩, fun G hG => by rw [hf] at hG; exact absurd hG (by simp)⟩
  · intro i m w hi hw hne hseq hparse
    have := load_lines_first_mismatch (getline_all '\n' content [])
      { init_sts := [], final_sts := [], delta := [], is_dfa := true } i m w hi hw
      (by simpa using hne)
      (by intro j m' hj hm'; simpa using hseq j m' hj hm') hparse
    have hf := from_file_of_load_error this
    simpa using hf
  · intro i m err hi hw hseq hparse
    have := load_lines_first_overflow (getline_all '\n' content [])
      { init_sts := [], final_sts := [], delta := [], is_dfa := true } i m err hi hw
      (by intro j m' hj hm'; simpa using hseq j m' hj hm') hparse
    exact from_file_of_load_error this
  · intro hseq w q hc
    exact load_lines_sequential (getline_all '\n' content [])
      { init_sts := [], final_sts := [], delta := [], is_dfa := true }
      (by intro i m hi; simpa using hseq i m hi) w q (from_file_number_error hc)

/-! ## Numbers that are not an `int` -/

/-- A state number that is not an `int` ends the load with the exception of
`std::stoi`; the numbering check is not reached. -/
theorem from_file_number_not_int :
    stoi "4294967297".toList = Except.error StoiError.out_of_range ∧
    Graph.from_file text_number_not_int = Except.error LoadError.uncaught_exception :=
  ⟨by decide, by decide⟩

/-- A successor that is not an `int` ends the load with the exception of
`std::stoi`, which the lambda `load_comma_separated_states` does not catch. -/
theorem from_file_successor_not_int :
    load_comma_separated_states "99999999999".toList =
      Except.error LoadError.uncaught_exception ∧
    Graph.from_file text_successor_not_int = Except.error LoadError.uncaught_exception :=
  ⟨by decide, by decide⟩

end Homfa

namespace Homfa

/-! ## What the reading loop has read -/

theorem getElem?_concat_eq_some {α : Type} (l : List α) (a b : α) (i : Nat) :
    (l ++ [a])[i]? = some b ↔ l[i]? = some b ∨ (i = l.length ∧ a = b) := by
  rcases Nat.lt_trichotomy i l.length with h | h | h
  · rw [List.getElem?_append_left h]
    constructor
    · exact Or.inl
    · rintro (h1 | ⟨h1, -⟩)
      · exact h1
      · omega
  · subst h
    simp
  · have h1 : (l ++ [a])[i]? = none := List.getElem?_eq_none (by simp; omega)
    have h2 : l[i]? = none := List.getElem?_eq_none (by omega)
    rw [h1, h2]
    constructor
    · intro hc; exact absurd hc (by simp)
    · rintro (hc | ⟨hc, -⟩)
      · exact absurd hc (by simp)
      · omega

theorem load_inv_init : LoadInv []
    { init_sts := [], final_sts := [], delta := [], is_dfa := true } where
  len := rfl
  rows := by intro i m h; simp at h
  init_sorted := List.sorted_nil
  init_mem := by intro q; simp
  init_count := rfl
  final_sorted := List.sorted_nil
  final_mem := by intro q; simp
  dfa := by simp

/-- Inserting the position of a new line into a set of positions of earlier
lines. -/
theorem marked_insert {ms : List LineMatch} {l : List Int} (flag : LineMatch → Bool)
    (hs : l.Sorted (· < ·))
    (hmem : ∀ q : Int, q ∈ l ↔
      ∃ (i : Nat) (m : LineMatch), ms[i]? = some m ∧ flag m = true ∧ q = (i : Int))
    (m : LineMatch) :
    (if flag m then set_insert l (ms.length : Int) else l).Sorted (· < ·) ∧
    (∀ q : Int, q ∈ (if flag m then set_insert l (ms.length : Int) else l) ↔
      ∃ (i : Nat) (m' : LineMatch), (ms ++ [m])[i]? = some m' ∧ flag m' = true ∧
        q = (i : Int)) ∧
    ((if flag m then set_insert l (ms.length : Int) else l).length =
      l.length + ((if flag m then 1 else 0) : Nat)) := by
  have hnot : (ms.length : Int) ∉ l := by
    intro hc
    obtain ⟨i, m', hi, -, hq⟩ := (hmem _).1 hc
    have hlt : i < ms.length := by
      by_contra hge
      rw [List.getElem?_eq_none (not_lt.1 hge)] at hi
      exact absurd hi (by simp)
    have : (ms.length : Int) = (i : Int) := hq
    omega
  cases hf : flag m with
  | false =>
    simp only [Bool.false_eq_true, if_false, Nat.add_zero, and_true]
    refine ⟨hs, ?_⟩
    intro q
    rw [hmem q]
    constructor
    · rintro ⟨i, m', hi, hfl, hq⟩
      exact ⟨i, m', (getElem?_concat_eq_some ms m m' i).2 (Or.inl hi), hfl, hq⟩
    · rintro ⟨i, m', hi, hfl, hq⟩
      rcases (getElem?_concat_eq_some ms m m' i).1 hi with h1 | ⟨-, h1⟩
      · exact ⟨i, m', h1, hfl, hq⟩
      · subst h1; rw [hf] at hfl; exact absurd hfl (by simp)
  | true =>
    simp only [if_true]
    refine ⟨set_insert_sorted l _ hs, ?_, ?_⟩
    · intro q
      rw [mem_set_insert, hmem q]
      constructor
      · rintro (rfl | ⟨i, m', hi, hfl, hq⟩)
        · exact ⟨ms.length, m, (getElem?_concat_eq_some ms m m _).2 (Or.inr ⟨rfl, rfl⟩),
            hf, rfl⟩
        · exact ⟨i, m', (getElem?_concat_eq_some ms m m' i).2 (Or.inl hi), hfl, hq⟩
      · rintro ⟨i, m', hi, hfl, hq⟩
        rcases (getElem?_concat_eq_some ms m m' i).1 hi with h1 | ⟨h1, -⟩
        · exact Or.inr ⟨i, m', h1, hfl, hq⟩
        · subst h1; exact Or.inl hq
    · rw [set_insert_length l _ hs, if_neg hnot]

/-- The invariant of the reading loop after one more matching line. -/
theorem load_inv_step {ms : List LineMatch} {s : LoadState} (hinv : LoadInv ms s)
    (m : LineMatch) {q0s q1s : List Int}
    (h0 : load_comma_separated_states m.field0 = Except.ok q0s)
    (h1 : load_comma_separated_states m.field1 = Except.ok q1s) :
    LoadInv (ms ++ [m]) (after_line s m q0s q1s) := by
  have hi := marked_insert (fun m => m.initial) hinv.init_sorted hinv.init_mem m
  have hf := marked_insert (fun m => m.final) hinv.final_sorted hinv.final_mem m
  rw [← hinv.len] at hi hf
  refine ⟨?_, ?_, hi.1, hi.2.1, ?_, hf.1, hf.2.1, ?_⟩
  · simp [after_line, hinv.len]
  · intro i m' hm'
    rcases (getElem?_concat_eq_some ms m m' i).1 hm' with h | ⟨h, rfl⟩
    · obtain ⟨a, b, ha, hb, hget⟩ := hinv.rows i m' h
      refine ⟨a, b, ha, hb, ?_⟩
      simp only [after_line]
      exact (getElem?_concat_eq_some _ _ _ i).2 (Or.inl hget)
    · refine ⟨q0s, q1s, h0, h1, ?_⟩
      simp only [after_line]
      refine (getElem?_concat_eq_some _ _ _ i).2 (Or.inr ⟨by rw [hinv.len]; exact h, ?_⟩)
      rw [hinv.len, h]
  · have := hi.2.2
    simp only [after_line]
    rw [this, hinv.init_count, List.filter_append, List.length_append]
    cases hm : m.initial <;> simp [hm]
  · simp only [after_line]
    by_cases hl : q0s.length ≠ 1 ∨ q1s.length ≠ 1
    · simp only [hl, if_true, Bool.false_eq_true, false_iff]
      intro hall
      have := hall ((s.delta.length : Int), q0s, q1s) (by simp)
      simp only at this
      omega
    · simp only [hl, if_false]
      rw [hinv.dfa]
      constructor
      · intro hall e he
        rcases List.mem_append.1 he with h | h
        · exact hall e h
        · simp only [List.mem_singleton] at h
          subst h
          simp only
          omega
      · intro hall e he
        exact hall e (List.mem_append.2 (Or.inl he))

/-- When the written numbers are sequential and the successor fields are lists
of numbers, the reading loop ends without error and has read every matching
line. -/
theorem load_lines_ok (lines : List (List Char)) :
    ∀ (pre : List LineMatch) (s : LoadState), LoadInv pre s →
      (∀ (i : Nat) (m : LineMatch), (lines.filterMap match_line)[i]? = some m →
        stoi m.number = Except.ok ((pre.length + i : Nat) : Int)) →
      (∀ m ∈ lines.filterMap match_line,
        ∃ a b, load_comma_separated_states m.field0 = Except.ok a ∧
          load_comma_separated_states m.field1 = Except.ok b) →
      ∃ s', load_lines lines s = Except.ok s' ∧
        LoadInv (pre ++ lines.filterMap match_line) s' := by
  induction lines with
  | nil =>
    intro pre s hinv _ _
    exact ⟨s, rfl, by simpa using hinv⟩
  | cons line rest ih =>
    intro pre s hinv hseq hparse
    cases hm : match_line line with
    | none =>
      rw [load_lines_cons_none rest s hm, List.filterMap_cons_none hm]
      rw [List.filterMap_cons_none hm] at hseq hparse
      exact ih pre s hinv hseq hparse
    | some m =>
      rw [List.filterMap_cons_some hm] at hseq hparse ⊢
      obtain ⟨a0, b0, ha0, hb0⟩ := hparse m (by simp)
      have hn := hseq 0 m (by simp)
      have hline : load_line s line = Except.ok (after_line s m a0 b0) := by
        unfold load_line
        simp only [hm, ha0, hb0, hn, Nat.add_zero, hinv.len]
        simp [after_line, hinv.len]
      rw [load_lines_cons_ok rest hline]
      have hstep := load_inv_step hinv m ha0 hb0
      obtain ⟨s', hs', hinv'⟩ := ih (pre ++ [m]) _ hstep
        (by
          intro i m' hi
          have := hseq (i + 1) m' (by simpa using hi)
          rw [this]
          simp only [List.length_append, List.length_singleton]
          congr 2
          omega)
        (by
          intro m' hm'
          exact hparse m' (List.mem_cons_of_mem _ hm'))
      exact ⟨s', hs', by simpa using hinv'⟩

end Homfa

namespace Homfa

/-! ## The classification of the loaded text -/

theorem dfa_delta_spec (delta : NFADelta) :
    ∀ acc : DFADelta, (∀ e ∈ delta, e.2.1.length = 1 ∧ e.2.2.length = 1) →
      dfa_delta delta acc =
        some (acc ++ delta.map (fun e => (e.1, (e.2.1[0]?).getD 0, (e.2.2[0]?).getD 0))) := by
  induction delta with
  | nil => intro acc _; simp [dfa_delta]
  | cons e rest ih =>
    intro acc h
    obtain ⟨h0, h1⟩ := h e (by simp)
    obtain ⟨a, ha⟩ := List.length_eq_one.1 h0
    obtain ⟨b, hb⟩ := List.length_eq_one.1 h1
    unfold dfa_delta
    simp only [ha, hb, List.getElem?_cons_zero]
    rw [ih _ (fun e' he' => h e' (List.mem_cons_of_mem _ he'))]
    simp [ha, hb]

theorem load_inv_row {ms : List LineMatch} {s : LoadState} (hinv : LoadInv ms s) {i : Nat}
    {e : Int × List Int × List Int} (he : s.delta[i]? = some e) : e.1 = (i : Int) := by
  have hlt : i < ms.length := by
    rw [← hinv.len]
    by_contra hge
    rw [List.getElem?_eq_none (not_lt.1 hge)] at he
    exact absurd he (by simp)
  obtain ⟨a, b, -, -, hget⟩ := hinv.rows i ms[i] (List.getElem?_eq_getElem hlt)
  rw [hget] at he
  rw [← Option.some.inj he]

/-- What `from_file` does with a text whose matching lines carry sequential
numbers and successor fields that are lists of numbers. -/
theorem from_file_classification (content : List Char)
    (hseq : ∀ (i : Nat) (m : LineMatch), (matching_lines content)[i]? = some m →
      stoi m.number = Except.ok (i : Int))
    (hparse : ∀ m ∈ matching_lines content,
      ∃ a b, load_comma_separated_states m.field0 = Except.ok a ∧
        load_comma_separated_states m.field1 = Except.ok b) :
    ∃ s : LoadState, parse_file content = Except.ok s ∧
      s.delta.length = (matching_lines content).length ∧
      (∀ (i : Nat) (m : LineMatch), (matching_lines content)[i]? = some m →
        ∃ q0s q1s : List Int, load_comma_separated_states m.field0 = Except.ok q0s ∧
          load_comma_separated_states m.field1 = Except.ok q1s ∧
          s.delta[i]? = some ((i : Int), q0s, q1s)) ∧
      s.init_sts.Sorted (· < ·) ∧
      (∀ q : Int, q ∈ s.init_sts ↔ ∃ (i : Nat) (m : LineMatch),
        (matching_lines content)[i]? = some m ∧ m.initial = true ∧ q = (i : Int)) ∧
      s.final_sts.Sorted (· < ·) ∧
      (∀ q : Int, q ∈ s.final_sts ↔ ∃ (i : Nat) (m : LineMatch),
        (matching_lines content)[i]? = some m ∧ m.final = true ∧ q = (i : Int)) ∧
      (s.is_dfa = true ↔
        (∀ e ∈ s.delta, e.2.1.length = 1 ∧ e.2.2.length = 1) ∧
        ((matching_lines content).filter (fun m => m.initial)).length = 1) ∧
      (s.is_dfa = false →
        Graph.from_file content =
          uncaught (Graph.from_nfa s.init_sts s.final_sts s.delta)) ∧
      (s.is_dfa = true →
        (∀ e ∈ s.delta, (∀ x ∈ e.2.1, 0 ≤ x ∧ x < (s.delta.length : Int)) ∧
          (∀ x ∈ e.2.2, 0 ≤ x ∧ x < (s.delta.length : Int))) →
        ∃ G : Graph, Graph.from_file content = Except.ok G ∧
          G.size = (matching_lines content).length ∧
          s.init_sts = [G.initial_state] ∧ G.final_state_ = s.final_sts ∧
          ∀ (i : Nat) (q0s q1s : List Int), s.delta[i]? = some ((i : Int), q0s, q1s) →
            ∃ n0 n1 : Int, q0s = [n0] ∧ q1s = [n1] ∧
              G.next_state (i : Int) false = some n0 ∧
              G.next_state (i : Int) true = some n1) := by
  obtain ⟨s0, hs0, hinv⟩ := load_lines_ok (getline_all '\n' content []) [] _ load_inv_init
    (by intro i m hi; simpa using hseq i m hi) hparse
  simp only [List.nil_append] at hinv
  have hp : parse_file content = Except.ok
      { s0 with is_dfa := if s0.init_sts.length ≠ 1 then false else s0.is_dfa } := by
    simp [parse_file, hs0]
  have hms : List.filterMap match_line (getline_all '\n' content []) =
      matching_lines content := rfl
  rw [hms] at hinv
  have hcls : (if s0.init_sts.length ≠ 1 then false else s0.is_dfa) = true ↔
      (∀ e ∈ s0.delta, e.2.1.length = 1 ∧ e.2.2.length = 1) ∧
      ((matching_lines content).filter (fun m => m.initial)).length = 1 := by
    rw [← hinv.init_count, ← hinv.dfa]
    by_cases hl : s0.init_sts.length = 1
    · simp [hl]
    · simp [hl]
  refine ⟨_, hp, hinv.len, hinv.rows, hinv.init_sorted, hinv.init_mem, hinv.final_sorted,
    hinv.final_mem, hcls, ?_, ?_⟩
  · intro hd
    simp only at hd
    simp only [Graph.from_file, hp, hd]
    simp
  · intro hd hrange
    simp only at hd hrange
    obtain ⟨hall, hone⟩ := hcls.1 hd
    rw [← hinv.init_count] at hone
    obtain ⟨q, hq⟩ := List.length_eq_one.1 hone
    have hnd := dfa_delta_spec s0.delta [] hall
    simp only [List.nil_append] at hnd
    have hok : delta_ok
        (s0.delta.map (fun e => (e.1, (e.2.1[0]?).getD 0, (e.2.2[0]?).getD 0))) := by
      constructor
      · intro i _ e he
        simp only [List.getElem?_map, Option.mem_def, Option.map_eq_some'] at he
        obtain ⟨e0, he0, rfl⟩ := he
        exact load_inv_row hinv he0
      · intro e he
        obtain ⟨e0, he0, rfl⟩ := List.mem_map.1 he
        obtain ⟨h0, h1⟩ := hall e0 he0
        obtain ⟨a, ha⟩ := List.length_eq_one.1 h0
        obtain ⟨b, hb⟩ := List.length_eq_one.1 h1
        have hr := hrange e0 he0
        simp only [ha, hb, List.mem_singleton, forall_eq] at hr
        simp only [ha, hb, List.length_map, List.getElem?_cons_zero, Option.getD_some]
        exact hr
    have hctor := ctor_eq_some q s0.final_sts hok
    refine ⟨Graph.mk (built_table
        (s0.delta.map (fun e => (e.1, (e.2.1[0]?).getD 0, (e.2.2[0]?).getD 0))))
        [] s0.final_sts q, ?_, ?_, ?_, rfl, ?_⟩
    · simp only [Graph.from_file, hp]
      rw [if_pos hd]
      simp only [hq, List.head?_cons, hnd, hctor, uncaught]
    · simp only [Graph.size, built_table_length, List.length_map]
      exact hinv.len
    · simp only [Graph.initial_state]
      exact hq
    · intro i q0s q1s hget
      obtain ⟨h0, h1⟩ := hall _ (List.getElem?_mem hget)
      simp only at h0 h1
      obtain ⟨a, ha⟩ := List.length_eq_one.1 h0
      obtain ⟨b, hb⟩ := List.length_eq_one.1 h1
      refine ⟨a, b, ha, hb, ?_, ?_⟩
      · rw [built_next_state, vat_natCast, List.getElem?_map, hget]
        simp [ha]
      · rw [built_next_state, vat_natCast, List.getElem?_map, hget]
        simp [hb]

end Homfa

namespace Homfa

/-! ## Lists of first occurrences -/

theorem foldl_see_prefix {α : Type} [DecidableEq α] (xs : List α) :
    ∀ acc : List α, ∃ ext, xs.foldl see acc = acc ++ ext := by
  induction xs with
  | nil => intro acc; exact ⟨[], by simp⟩
  | cons x t ih =>
    intro acc
    obtain ⟨ext, he⟩ := ih (see acc x)
    simp only [List.foldl_cons, he]
    unfold see
    split
    · exact ⟨ext, rfl⟩
    · exact ⟨x :: ext, by simp⟩

theorem mem_foldl_see {α : Type} [DecidableEq α] (xs : List α) :
    ∀ (acc : List α) (y : α), y ∈ xs.foldl see acc ↔ y ∈ acc ∨ y ∈ xs := by
  induction xs with
  | nil => intro acc y; simp
  | cons x t ih =>
    intro acc y
    simp only [List.foldl_cons, ih, List.mem_cons]
    unfold see
    split
    · rename_i hx
      constructor
      · rintro (h | h)
        · exact Or.inl h
        · exact Or.inr (Or.inr h)
      · rintro (h | rfl | h)
        · exact Or.inl h
        · exact Or.inl hx
        · exact Or.inr h
    · simp only [List.mem_append, List.mem_singleton]
      tauto

theorem mem_first_seen {α : Type} [DecidableEq α] (xs : List α) (y : α) :
    y ∈ first_seen xs ↔ y ∈ xs := by
  unfold first_seen
  rw [mem_foldl_see]
  simp

theorem first_seen_append {α : Type} [DecidableEq α] (a b : List α) :
    first_seen (a ++ b) = b.foldl see (first_seen a) := by
  unfold first_seen
  rw [List.foldl_append]

theorem see_of_mem {α : Type} [DecidableEq α] {acc : List α} {x : α} (h : x ∈ acc) :
    see acc x = acc := by
  unfold see
  rw [if_pos h]

theorem see_of_not_mem {α : Type} [DecidableEq α] {acc : List α} {x : α} (h : x ∉ acc) :
    see acc x = acc ++ [x] := by
  unfold see
  rw [if_neg h]

theorem foldl_see_nodup {α : Type} [DecidableEq α] (xs : List α) :
    ∀ acc : List α, (acc ++ xs).Nodup → xs.foldl see acc = acc ++ xs := by
  induction xs with
  | nil => intro acc _; simp
  | cons x t ih =>
    intro acc h
    have hx : x ∉ acc := by
      intro hc
      have := List.nodup_append.1 h
      exact this.2.2 hc (List.mem_cons_self _ _)
    simp only [List.foldl_cons, see_of_not_mem hx]
    rw [ih (acc ++ [x]) (by simpa using h)]
    simp

theorem first_seen_nodup {α : Type} [DecidableEq α] {xs : List α} (h : xs.Nodup) :
    first_seen xs = xs := by
  unfold first_seen
  rw [foldl_see_nodup xs [] (by simpa using h)]
  simp

/-- A second occurrence does not change the list of first occurrences. -/
theorem first_seen_skip {α : Type} [DecidableEq α] {a : List α} {x : α} (b : List α)
    (h : x ∈ a) : first_seen (a ++ x :: b) = first_seen (a ++ b) := by
  rw [first_seen_append, first_seen_append, List.foldl_cons,
    see_of_mem ((mem_first_seen a x).2 h)]

/-- The list of first occurrences starts with a duplicate-free start of the
list. -/
theorem first_seen_prefix {α : Type} [DecidableEq α] {a : List α} (b : List α)
    (h : a.Nodup) : ∃ ext, first_seen (a ++ b) = a ++ ext := by
  rw [first_seen_append, first_seen_nodup h]
  exact foldl_see_prefix b a

theorem first_seen_length_le {α : Type} [DecidableEq α] {a : List α} (b : List α)
    (h : a.Nodup) : a.length ≤ (first_seen (a ++ b)).length := by
  obtain ⟨ext, he⟩ := first_seen_prefix b h
  rw [he]
  simp

theorem first_seen_take {α : Type} [DecidableEq α] {a : List α} (b : List α)
    (h : a.Nodup) : (first_seen (a ++ b)).take a.length = a := by
  obtain ⟨ext, he⟩ := first_seen_prefix b h
  rw [he]
  simp

theorem see_ids_lt {n : Nat} {k : Int} (h0 : 0 ≤ k) (h1 : k < (n : Int)) :
    see ((List.range n).map Int.ofNat) k = (List.range n).map Int.ofNat := by
  apply see_of_mem
  lift k to ℕ using h0 with j
  exact List.mem_map.2 ⟨j, List.mem_range.2 (by exact_mod_cast h1), rfl⟩

theorem see_ids_eq (n : Nat) :
    see ((List.range n).map Int.ofNat) (n : Int) = (List.range (n + 1)).map Int.ofNat := by
  rw [see_of_not_mem, List.range_succ, List.map_append]
  · rfl
  · intro hc
    obtain ⟨j, hj, hjn⟩ := List.mem_map.1 hc
    have := List.mem_range.1 hj
    have h2 : (j : Int) = (n : Int) := hjn
    omega

end Homfa

namespace Homfa

/-! ## The memo table of `from_nfa` and the order of the ids -/

theorem goc_keys (m : List (List Int × Int)) (d : DFADelta) (S : List Int) :
    (get_or_create_state m d S).2.1.map Prod.fst = see (m.map Prod.fst) S := by
  unfold get_or_create_state
  cases hl : m.lookup S with
  | some i =>
    have hmem : S ∈ m.map Prod.fst :=
      List.mem_map.2 ⟨(S, i), lookup_eq_some_mem m S i hl, rfl⟩
    simp only [see_of_mem hmem]
  | none =>
    have hnot : S ∉ m.map Prod.fst := by
      intro hc
      obtain ⟨p, hp, rfl⟩ := List.mem_map.1 hc
      exact (lookup_eq_none_iff m p.1).1 hl p.2 hp
    simp only [see_of_not_mem hnot, List.map_append, List.map_cons, List.map_nil]

theorem goc_ids (m : List (List Int × Int)) (d : DFADelta) (S : List Int) (hm : map_ok m)
    (hl : d.length = m.length) :
    see ((List.range m.length).map Int.ofNat) (get_or_create_state m d S).1 =
      (List.range (get_or_create_state m d S).2.1.length).map Int.ofNat := by
  unfold get_or_create_state
  cases hlk : m.lookup S with
  | some i =>
    have hlt := map_ok_lt hm (lookup_eq_some_mem m S i hlk)
    simp only
    exact see_ids_lt hlt.1 hlt.2
  | none =>
    simp only [List.length_append, List.length_singleton, hl]
    exact see_ids_eq m.length

theorem goc_df (m : List (List Int × Int)) (d : DFADelta) (S : List Int) :
    ∃ ext, (get_or_create_state m d S).2.2 = d ++ ext := by
  unfold get_or_create_state
  cases m.lookup S with
  | some i => exact ⟨[], by simp⟩
  | none => exact ⟨_, rfl⟩

/-- The shape of the loop variables after the processing branch of the body. -/
theorem from_nfa_step_visit_form {Fn : List Int} {dn : NFADelta} {s s' : NfaLoop}
    {qs : List Int} {rest : List (List Int)} (hv : qs ∉ s.visited)
    (h : from_nfa_step Fn dn s qs rest = some s') :
    ∃ (qs0 qs1 : List Int) (r r0 r1 : Int × List (List Int × Int) × DFADelta),
      nfa_successors dn qs ([], []) = some (qs0, qs1) ∧
      r = get_or_create_state s.st_map s.df qs ∧
      r0 = get_or_create_state r.2.1 r.2.2 qs0 ∧
      r1 = get_or_create_state r0.2.1 r0.2.2 qs1 ∧
      vset r1.2.2 r.1 (r.1, r0.1, r1.1) = some s'.df ∧
      s'.st_map = r1.2.1 ∧ s'.visited = qs :: s.visited ∧ s'.que = rest ++ [qs0, qs1] := by
  unfold from_nfa_step at h
  have hc : s.visited.contains qs = false := by simpa using hv
  simp only [hc, Bool.false_eq_true, if_false] at h
  cases hs : nfa_successors dn qs ([], []) with
  | none => simp [hs] at h
  | some p =>
    obtain ⟨qs0, qs1⟩ := p
    simp only [hs] at h
    cases hd : vset (get_or_create_state
        (get_or_create_state (get_or_create_state s.st_map s.df qs).2.1
          (get_or_create_state s.st_map s.df qs).2.2 qs0).2.1
        (get_or_create_state (get_or_create_state s.st_map s.df qs).2.1
          (get_or_create_state s.st_map s.df qs).2.2 qs0).2.2 qs1).2.2
        (get_or_create_state s.st_map s.df qs).1
        ((get_or_create_state s.st_map s.df qs).1,
          (get_or_create_state (get_or_create_state s.st_map s.df qs).2.1
            (get_or_create_state s.st_map s.df qs).2.2 qs0).1,
          (get_or_create_state
            (get_or_create_state (get_or_create_state s.st_map s.df qs).2.1
              (get_or_create_state s.st_map s.df qs).2.2 qs0).2.1
            (get_or_create_state (get_or_create_state s.st_map s.df qs).2.1
              (get_or_create_state s.st_map s.df qs).2.2 qs0).2.2 qs1).1) with
    | none => simp [hd] at h
    | some df =>
      simp only [hd, Option.some.injEq] at h
      subst h
      exact ⟨qs0, qs1, _, _, _, rfl, rfl, rfl, rfl, hd, rfl, rfl, rfl⟩

theorem subset_run_append (dn : NFADelta) (u v : Word) :
    ∀ S : List Int, subset_run dn S (u ++ v) =
      (subset_run dn S u).bind (fun S' => subset_run dn S' v) := by
  induction u with
  | nil => intro S; simp [subset_run]
  | cons b u ih =>
    intro S
    simp only [List.cons_append, subset_run]
    cases nfa_successors dn S ([], []) with
    | none => simp
    | some r => simp [ih]

theorem subset_run_step {dn : NFADelta} {q0n qs qs0 qs1 : List Int} {w : Word}
    (hw : subset_run dn q0n w = some qs)
    (hs : nfa_successors dn qs ([], []) = some (qs0, qs1)) (b : Bool) :
    subset_run dn q0n (w ++ [b]) = some (if b then qs1 else qs0) := by
  rw [subset_run_append, hw]
  simp [subset_run, hs]

end Homfa

namespace Homfa

/-! ## The order invariant of the loop of `from_nfa` -/

theorem seen_inv_init (q0n : List Int) (dn : NFADelta) :
    SeenInv q0n dn { st_map := [], df := [], Ff := [], visited := [], que := [q0n] } where
  head := by simp
  keys := Or.inl ⟨rfl, rfl, rfl⟩
  rows := by simp [first_seen]
  reach_keys := by simp
  reach_que := by
    intro S hS
    simp only [List.mem_singleton] at hS
    subst hS
    exact ⟨[], rfl⟩

theorem seen_inv_skip {q0n : List Int} {dn : NFADelta} {s : NfaLoop} {qs : List Int}
    {rest : List (List Int)} (hq : s.que = qs :: rest) (hv : qs ∈ s.visited)
    (hseen : SeenInv q0n dn s) : SeenInv q0n dn { s with que := rest } := by
  have hne : s.visited.reverse ≠ [] := by
    intro hc
    rw [List.reverse_eq_nil_iff] at hc
    rw [hc] at hv
    exact absurd hv (List.not_mem_nil _)
  have hvr : qs ∈ s.visited.reverse := List.mem_reverse.2 hv
  refine ⟨?_, ?_, hseen.rows, hseen.reach_keys, ?_⟩
  · have := hseen.head
    rw [List.head?_append_of_ne_nil _ hne] at this ⊢
    exact this
  · rcases hseen.keys with ⟨-, h2, -⟩ | h
    · rw [h2] at hv; exact absurd hv (List.not_mem_nil _)
    · right
      rw [h, hq]
      exact first_seen_skip rest hvr
  · intro S hS
    exact hseen.reach_que S (by rw [hq]; exact List.mem_cons_of_mem _ hS)

theorem take_succ_set {α : Type} (l : List α) (v : Nat) (x : α) (h : v < l.length) :
    (l.set v x).take (v + 1) = l.take v ++ [x] := by
  induction l generalizing v with
  | nil => simp at h
  | cons a t ih =>
    cases v with
    | zero => simp
    | succ v =>
      simp only [List.length_cons] at h
      simp [ih v (by omega)]

theorem seen_inv_visit {q0n Fn : List Int} {dn : NFADelta} {s s' : NfaLoop} {qs : List Int}
    {rest : List (List Int)} (hq : s.que = qs :: rest) (hinv : NfaInv q0n Fn dn s)
    (hv : qs ∉ s.visited) (hseen : SeenInv q0n dn s)
    (h : from_nfa_step Fn dn s qs rest = some s') : SeenInv q0n dn s' := by
  obtain ⟨qs0, qs1, r, r0, r1, hsucc, hr, hr0, hr1, hdf, hmap, hvis, hque⟩ :=
    from_nfa_step_visit_form hv h
  have hs1 := get_or_create_state_spec s.st_map s.df qs hinv.map hinv.len
  rw [← hr] at hs1
  have hs2 := get_or_create_state_spec r.2.1 r.2.2 qs0 hs1.1 hs1.2.1
  rw [← hr0] at hs2
  have hs3 := get_or_create_state_spec r0.2.1 r0.2.2 qs1 hs2.1 hs2.2.1
  rw [← hr1] at hs3
  have hVnd : s.visited.reverse.Nodup := List.nodup_reverse.2 hinv.vis_nodup
  have hVq : (s.visited.reverse ++ [qs]).Nodup := by
    rw [List.nodup_append]
    refine ⟨hVnd, by simp, ?_⟩
    intro a ha hb
    simp only [List.mem_singleton] at hb
    subst hb
    exact hv (List.mem_reverse.1 ha)
  have happ : s.visited.reverse ++ qs :: rest = (s.visited.reverse ++ [qs]) ++ rest := by simp
  -- the keys after the first request
  have hK1 : r.2.1.map Prod.fst = first_seen (s.visited.reverse ++ qs :: rest) := by
    rw [hr, goc_keys]
    rcases hseen.keys with ⟨h1, h2, h3⟩ | hk
    · rw [hq] at h3
      obtain ⟨rfl, rfl⟩ := List.cons.inj h3
      rw [h1, h2]
      simp [see, first_seen]
    · rw [hk, hq]
      exact see_of_mem ((mem_first_seen _ _).2 (by simp))
  have hK3 : r1.2.1.map Prod.fst =
      first_seen ((s.visited.reverse ++ qs :: rest) ++ [qs0, qs1]) := by
    rw [hr1, goc_keys, hr0, goc_keys, hK1,
      first_seen_append (s.visited.reverse ++ qs :: rest) [qs0, qs1]]
    rfl
  -- the id of the processed subset is the number of subsets processed before
  have hlen_le : s.visited.length ≤ s.df.length := by
    rw [hinv.len]
    rcases hseen.keys with ⟨-, h2, -⟩ | hk
    · rw [h2]; exact Nat.zero_le _
    · have := first_seen_length_le s.que hVnd
      rw [← hk] at this
      simpa using this
  have hr1v : r.1 = (s.visited.length : Int) := by
    have hmem_qs : (qs, r.1) ∈ r.2.1 := (hs1.2.2.1 _).2 (Or.inr rfl)
    obtain ⟨k, hk, hget⟩ := map_ok_pos hs1.1 hmem_qs
    have hFk : (r.2.1.map Prod.fst)[k]? = some qs := by
      rw [List.getElem?_map, hget]; rfl
    obtain ⟨ext, he⟩ := first_seen_prefix rest hVq
    have hFv : (r.2.1.map Prod.fst)[s.visited.length]? = some qs := by
      rw [hK1, happ, he, List.getElem?_append_left (by simp)]
      rw [List.getElem?_append_right (by simp)]
      simp
    have hnd : (r.2.1.map Prod.fst).Nodup := hs1.1.1
    have hk1 := (List.getElem?_eq_some_iff.1 hFk)
    have hk2 := (List.getElem?_eq_some_iff.1 hFv)
    have : k = s.visited.length :=
      (List.Nodup.getElem_inj_iff hnd).1 (by rw [hk1.2, hk2.2])
    rw [hk, this]
  refine ⟨?_, ?_, ?_, ?_, ?_⟩
  · rw [hvis, hque]
    have := hseen.head
    rw [hq] at this
    simp only [List.reverse_cons]
    rw [show s.visited.reverse ++ [qs] ++ (rest ++ [qs0, qs1]) =
      (s.visited.reverse ++ qs :: rest) ++ [qs0, qs1] by simp]
    rw [List.head?_append_of_ne_nil _ (by simp)]
    exact this
  · right
    rw [hmap, hK3, hvis, hque]
    simp
  · -- the rows written so far
    obtain ⟨e1, he1⟩ := goc_df s.st_map s.df qs
    obtain ⟨e2, he2⟩ := goc_df r.2.1 r.2.2 qs0
    obtain ⟨e3, he3⟩ := goc_df r0.2.1 r0.2.2 qs1
    rw [← hr] at he1
    rw [← hr0] at he2
    rw [← hr1] at he3
    have hdf3 : r1.2.2 = s.df ++ (e1 ++ e2 ++ e3) := by
      rw [he3, he2, he1]; simp
    obtain ⟨k, hk, hklt, hset⟩ := (vset_eq_some_iff _ _ _ _).1 hdf
    have hkv : k = s.visited.length := by
      have : (k : Int) = (s.visited.length : Int) := by rw [← hk, hr1v]
      exact_mod_cast this
    subst hkv
    have htake : s'.df.take (s'.visited.length) =
        s.df.take s.visited.length ++ [(r.1, r0.1, r1.1)] := by
      rw [hset, hvis, List.length_cons, take_succ_set _ _ _ hklt, hdf3,
        List.take_append_of_le_length hlen_le]
    rw [htake, List.flatMap_append, first_seen_append, hseen.rows]
    simp only [List.flatMap_cons, List.flatMap_nil, List.append_nil, List.foldl_cons,
      List.foldl_nil]
    have g1 := goc_ids s.st_map s.df qs hinv.map hinv.len
    rw [← hr] at g1
    have g2 := goc_ids r.2.1 r.2.2 qs0 hs1.1 hs1.2.1
    rw [← hr0] at g2
    have g3 := goc_ids r0.2.1 r0.2.2 qs1 hs2.1 hs2.2.1
    rw [← hr1] at g3
    rw [g1, g2, g3, hmap]
  · intro p hp
    rw [hmap] at hp
    have hqs_reach := hseen.reach_que qs (by rw [hq]; exact List.mem_cons_self _ _)
    obtain ⟨w, hw⟩ := hqs_reach
    rcases (hs3.2.2.1 p).1 hp with h3 | rfl
    · rcases (hs2.2.2.1 p).1 h3 with h2 | rfl
      · rcases (hs1.2.2.1 p).1 h2 with h1 | rfl
        · exact hseen.reach_keys p h1
        · exact ⟨w, hw⟩
      · exact ⟨w ++ [false], by rw [subset_run_step hw hsucc]; rfl⟩
    · exact ⟨w ++ [true], by rw [subset_run_step hw hsucc]; rfl⟩
  · intro S hS
    rw [hque] at hS
    obtain ⟨w, hw⟩ := hseen.reach_que qs (by rw [hq]; exact List.mem_cons_self _ _)
    rcases List.mem_append.1 hS with h1 | h1
    · exact hseen.reach_que S (by rw [hq]; exact List.mem_cons_of_mem _ h1)
    · simp only [List.mem_cons, List.mem_singleton, List.not_mem_nil, or_false] at h1
      rcases h1 with rfl | rfl
      · exact ⟨w ++ [false], by rw [subset_run_step hw hsucc]; rfl⟩
      · exact ⟨w ++ [true], by rw [subset_run_step hw hsucc]; rfl⟩

end Homfa

namespace Homfa

/-! ## The states of the determinized automaton and the reachable subsets -/

/-- The order invariant holds when the loop of `from_nfa` ends. -/
theorem from_nfa_loop_seen {q0n Fn : List Int} {dn : NFADelta} (hdn : nfa_ok dn) :
    ∀ (fuel : Nat) (s s' : NfaLoop), NfaInv q0n Fn dn s → SeenInv q0n dn s →
      from_nfa_loop Fn dn fuel s = some s' → SeenInv q0n dn s' := by
  intro fuel
  induction fuel with
  | zero =>
    intro s s' _ hseen h
    unfold from_nfa_loop at h
    cases hq : s.que with
    | nil =>
      simp only [hq, Option.some.injEq] at h
      subst h; exact hseen
    | cons qs rest => simp [hq] at h
  | succ fuel ih =>
    intro s s' hinv hseen h
    unfold from_nfa_loop at h
    cases hq : s.que with
    | nil =>
      simp only [hq, Option.some.injEq] at h
      subst h; exact hseen
    | cons qs rest =>
      simp only [hq, Option.bind_eq_some] at h
      obtain ⟨s1, hs1, hrest⟩ := h
      by_cases hv : qs ∈ s.visited
      · obtain ⟨heq, hinv1⟩ := from_nfa_step_skip hq hinv hv
        rw [heq] at hs1
        obtain rfl := Option.some.inj hs1
        exact ih _ s' hinv1 (seen_inv_skip hq hv hseen) hrest
      · obtain ⟨s1', heq, hinv1, -, -⟩ := from_nfa_step_visit hdn hq hinv hv
        have hseen1 := seen_inv_visit hq hinv hv hseen hs1
        rw [heq] at hs1
        obtain rfl := Option.some.inj hs1
        exact ih _ s' hinv1 hseen1 hrest

theorem linked_rows_requests (pre : List TableItem) (delta : DFADelta) :
    ((delta.map (fun e => TableItem.mk e.1 e.2.1 e.2.2 [] [])).map
        (linked_row pre)).flatMap (fun t => [t.index, t.child0, t.child1]) =
      delta.flatMap (fun e => [e.1, e.2.1, e.2.2]) := by
  induction delta with
  | nil => simp
  | cons e t ih =>
    simp only [List.map_cons, List.flatMap_cons, linked_row]
    rw [ih]

/-- The rows of the table the constructor builds keep the entries of `delta`. -/
theorem built_table_requests (delta : DFADelta) :
    (built_table delta).flatMap (fun t => [t.index, t.child0, t.child1]) =
      delta.flatMap (fun e => [e.1, e.2.1, e.2.2]) := by
  unfold built_table initial_rows
  exact linked_rows_requests _ delta

/-- The states of what `from_nfa` returns stand for the subsets reachable from
`q0n`, one state per subset, numbered in the order of first occurrence. -/
theorem from_nfa_subsets (q0n Fn : List Int) {dn : NFADelta} (hdn : nfa_ok dn)
    (hq0 : subset_ok dn.length q0n) :
    ∃ (G : Graph) (subsets : List (List Int)), Graph.from_nfa q0n Fn dn = some G ∧
      subsets.Nodup ∧ (∀ S ∈ subsets, subset_ok dn.length S) ∧ G.size = subsets.length ∧
      (∀ S, S ∈ subsets ↔ ∃ w : Word, subset_run dn q0n w = some S) ∧
      subsets[0]? = some q0n ∧ G.initial_state = 0 ∧
      (∀ (k : Nat) (S : List Int), subsets[k]? = some S → ∀ b : Bool,
        ∃ (S' : List Int) (k' : Nat), subset_run dn S [b] = some S' ∧
          (∀ y, y ∈ S' ↔ ∃ q ∈ S, y ∈ nfa_next dn q b) ∧
          subsets[k']? = some S' ∧ G.next_state (k : Int) b = some (k' : Int)) ∧
      (∀ (k : Nat) (S : List Int), subsets[k]? = some S →
        G.is_final_state (k : Int) = S.any (fun q => set_contains Fn q)) ∧
      first_seen G.requests = G.all_states := by
  obtain ⟨s, hloop, hinv, hq⟩ := from_nfa_loop_spec hdn (2 * 2 ^ dn.length + 1)
    { st_map := [], df := [], Ff := [], visited := [], que := [q0n] }
    (nfa_inv_init q0n Fn dn hq0) (by simp; omega)
  have hseen := from_nfa_loop_seen hdn _ _ s (nfa_inv_init q0n Fn dn hq0)
    (seen_inv_init q0n dn) hloop
  have hVnd : s.visited.reverse.Nodup := List.nodup_reverse.2 hinv.vis_nodup
  have hkeys : s.st_map.map Prod.fst = s.visited.reverse := by
    rcases hseen.keys with ⟨-, -, h3⟩ | hk
    · rw [hq] at h3; exact absurd h3 (by simp)
    · rw [hk, hq, List.append_nil, first_seen_nodup hVnd]
  have hhead : (s.st_map.map Prod.fst)[0]? = some q0n := by
    have := hseen.head
    rw [hq, List.append_nil, ← hkeys] at this
    rw [← List.head?_eq_getElem?]
    exact this
  have h0 : (q0n, (0 : Int)) ∈ s.st_map := by
    have := map_ok_entry hinv.map hhead
    simpa using this
  have hdok := nfa_inv_delta_ok hinv hq
  have hres : Graph.from_nfa q0n Fn dn = some (Graph.mk (built_table s.df) [] s.Ff 0) := by
    unfold Graph.from_nfa
    rw [hloop]
    simp only [Option.some_bind]
    have hgoc : get_or_create_state s.st_map s.df q0n = (0, s.st_map, s.df) := by
      unfold get_or_create_state
      rw [lookup_of_mem hinv.map h0]
    rw [hgoc]
    exact ctor_eq_some 0 s.Ff hdok
  have hvisited : ∀ p ∈ s.st_map, p.1 ∈ s.visited := by
    intro p hp
    rcases hinv.pending p hp with h | h
    · exact h
    · rw [hq] at h; exact absurd h (List.not_mem_nil _)
  have hvlen : s.visited.length = s.df.length := by
    rw [hinv.len, ← List.length_reverse, ← hkeys, List.length_map]
  refine ⟨_, s.st_map.map Prod.fst, hres, hinv.map.1, ?_, ?_, ?_, hhead, rfl, ?_, ?_, ?_⟩
  · intro S hS
    obtain ⟨p, hp, rfl⟩ := List.mem_map.1 hS
    exact hinv.vis_ok _ (hvisited p hp)
  · simp only [Graph.size, built_table_length, List.length_map]
    exact hinv.len
  · intro S
    constructor
    · intro hS
      obtain ⟨p, hp, rfl⟩ := List.mem_map.1 hS
      exact hseen.reach_keys p hp
    · rintro ⟨w, hw⟩
      obtain ⟨S', i', hS', hm', -⟩ := from_nfa_run hinv hq 0 w q0n 0 h0
      rw [hw] at hS'
      obtain rfl := Option.some.inj hS'
      exact List.mem_map.2 ⟨(S, i'), hm', rfl⟩
  · intro k S hk b
    have hmem := map_ok_entry hinv.map hk
    obtain ⟨i, S0, S1, i0, i1, h1, h2, h3, h4, h5, -⟩ := hinv.done S (hvisited _ hmem)
    obtain rfl : i = (k : Int) := map_ok_id_inj hinv.map h1 hmem
    obtain ⟨T0, T1, hT, -, -, hT0, hT1⟩ :=
      nfa_successors_ok hdn S (hinv.vis_ok S (hvisited _ hmem))
    rw [h2] at hT
    obtain ⟨rfl, rfl⟩ := Prod.mk.inj (Option.some.inj hT)
    cases b with
    | false =>
      obtain ⟨k', rfl, hk'⟩ := map_ok_index hinv.map h3
      refine ⟨S0, k', by simp [subset_run, h2], hT0, hk', ?_⟩
      rw [built_next_state, h5]; rfl
    | true =>
      obtain ⟨k', rfl, hk'⟩ := map_ok_index hinv.map h4
      refine ⟨S1, k', by simp [subset_run, h2], hT1, hk', ?_⟩
      rw [built_next_state, h5]; rfl
  · intro k S hk
    exact from_nfa_final hinv hq 0 S k (map_ok_entry hinv.map hk)
  · have hrows := hseen.rows
    rw [hvlen, List.take_length] at hrows
    simp only [Graph.requests, Graph.all_states, Graph.size, built_table_length]
    rw [built_table_requests, hrows, hinv.len]

end Homfa

namespace Homfa

/-! ## Runs of the determinized automaton along the subsets -/

/-- Reading a word from state `k` follows the subset of state `k`. -/
theorem subsets_run {dn : NFADelta} {G : Graph} {subsets : List (List Int)}
    (htrans : ∀ (k : Nat) (S : List Int), subsets[k]? = some S → ∀ b : Bool,
      ∃ (S' : List Int) (k' : Nat), subset_run dn S [b] = some S' ∧
        (∀ y, y ∈ S' ↔ ∃ q ∈ S, y ∈ nfa_next dn q b) ∧
        subsets[k']? = some S' ∧ G.next_state (k : Int) b = some (k' : Int))
    (w : Word) :
    ∀ (k : Nat) (S : List Int), subsets[k]? = some S →
      ∃ (S' : List Int) (k' : Nat), subset_run dn S w = some S' ∧
        subsets[k']? = some S' ∧ G.run (k : Int) w = some (k' : Int) := by
  induction w with
  | nil => intro k S hk; exact ⟨S, k, rfl, hk, rfl⟩
  | cons b w ih =>
    intro k S hk
    obtain ⟨S1, k1, hS1, -, hk1, hn⟩ := htrans k S hk b
    obtain ⟨S', k', hS', hk', hrun⟩ := ih k1 S1 hk1
    refine ⟨S', k', ?_, hk', ?_⟩
    · have := subset_run_append dn [b] w S
      simp only [List.singleton_append] at this
      rw [this, hS1]
      exact hS'
    · simp only [Graph.run, hn, Option.some_bind]
      exact hrun

theorem getElem?_nodup_inj {α : Type} {l : List α} (hnd : l.Nodup) {i j : Nat} {a : α}
    (hi : l[i]? = some a) (hj : l[j]? = some a) : i = j := by
  have h1 := List.getElem?_eq_some_iff.1 hi
  have h2 := List.getElem?_eq_some_iff.1 hj
  exact (List.Nodup.getElem_inj_iff hnd).1 (by rw [h1.2, h2.2])

/-- Reading a word from a state `q`, then a second word. -/
theorem accepts_from_append {g : Graph} {q r : Int} {u : Word}
    (h : g.run q u = some r) (z : Word) :
    g.accepts_from q (u ++ z) = g.accepts_from r z := by
  unfold Graph.accepts_from
  rw [run_append, h]
  rfl

/-- What `from_nfa` returns on an in-range NFA: a well-formed automaton whose
states are all reachable and in which state `k` accepts the words the NFA
accepts from the subset of state `k`. -/
theorem from_nfa_states (q0n Fn : List Int) {dn : NFADelta} (hdn : nfa_ok dn)
    (hq0 : subset_ok dn.length q0n) :
    ∃ (G : Graph) (subsets : List (List Int)), Graph.from_nfa q0n Fn dn = some G ∧
      G.well_formed ∧ subsets.Nodup ∧ (∀ S ∈ subsets, subset_ok dn.length S) ∧
      G.size = subsets.length ∧
      (∀ k, G.in_range k → G.reach k) ∧
      (∀ (k : Nat) (S : List Int) (w : Word), subsets[k]? = some S →
        G.accepts_from (k : Int) w = nfa_accepts dn S Fn w) := by
  obtain ⟨G, subsets, hG, hnd, hok, hsize, hmem, h0, hinit, htrans, hfin, -⟩ :=
    from_nfa_subsets q0n Fn hdn hq0
  obtain ⟨G', hG', hwf⟩ := from_nfa_well_formed q0n Fn hdn hq0
  rw [hG] at hG'
  obtain rfl := Option.some.inj hG'
  refine ⟨G, subsets, hG, hwf, hnd, hok, hsize, ?_, ?_⟩
  · intro k hk
    obtain ⟨hk0, hk1⟩ := hk
    lift k to ℕ using hk0 with j
    rw [hsize] at hk1
    have hj : j < subsets.length := by exact_mod_cast hk1
    have hSj : subsets[j]? = some subsets[j] := List.getElem?_eq_getElem hj
    obtain ⟨w, hw⟩ := (hmem _).1 (List.getElem_mem hj)
    obtain ⟨S', k', hS', hk', hrun⟩ := subsets_run htrans w 0 q0n h0
    rw [hw] at hS'
    obtain rfl := Option.some.inj hS'
    have : k' = j := getElem?_nodup_inj hnd hk' hSj
    subst this
    exact ⟨w, by rw [hinit]; exact hrun⟩
  · intro k S w hk
    obtain ⟨S', k', hS', hk', hrun⟩ := subsets_run htrans w k S hk
    rw [nfa_accepts_subset_run dn Fn w S S' hS']
    unfold Graph.accepts_from
    rw [hrun]
    exact hfin k' S' hk'

end Homfa

namespace Homfa

/-! ## The reversed automaton is minimal -/

/-- The states of `reversed(g)`: sets of states of `g`, all reachable, and the
state of the set `S` accepts `w` iff reading the reverse of `w` from the initial
state of `g` ends in a member of `S`. -/
theorem reversed_states {g : Graph} (h : g.well_formed) :
    ∃ (R : Graph) (subsets : List (List Int)), g.reversed = some R ∧ R.well_formed ∧
      subsets.Nodup ∧ (∀ S ∈ subsets, subset_ok g.size S) ∧ R.size = subsets.length ∧
      (∀ k, R.in_range k → R.reach k) ∧
      (∀ (k : Nat) (S : List Int) (w : Word), subsets[k]? = some S →
        (R.accepts_from (k : Int) w = true ↔
          ∃ q ∈ S, g.run g.initial_state w.reverse = some q)) := by
  obtain ⟨delta, hres, hlen, hnext, hok⟩ := reversed_delta_ok h
  have hq0 : subset_ok delta.length g.final_state_ := by
    rw [hlen]; exact wf_final_subset_ok h
  obtain ⟨R, subsets, hR, hwf, hnd, hsub, hsize, hreach, hacc⟩ :=
    from_nfa_states g.final_state_ [g.initial_state] hok hq0
  refine ⟨R, subsets, ?_, hwf, hnd, by rw [← hlen]; exact hsub, hsize, hreach, ?_⟩
  · unfold Graph.reversed
    rw [hres]; exact hR
  · intro k S w hk
    rw [hacc k S w hk]
    simp only [nfa_accepts, List.any_eq_true, reversed_accepts_from hnext]

/-- Two different sets of states differ in some member. -/
theorem sorted_ne_witness {s t : List Int} (hs : s.Sorted (· < ·)) (ht : t.Sorted (· < ·))
    (hne : s ≠ t) : ∃ q, (q ∈ s ∧ q ∉ t) ∨ (q ∉ s ∧ q ∈ t) := by
  by_contra hc
  push_neg at hc
  apply hne
  apply sorted_ext hs ht
  intro q
  constructor
  · intro hq
    exact (hc q).1 hq
  · intro hq
    by_contra hn
    exact (hc q).2 hn hq

/-- When every state of `g` is reachable, two distinct states of `reversed(g)`
are distinguished by the reverse of a word that leads to a state in one of the
two sets only. -/
theorem reversed_minimal {g : Graph} (h : g.well_formed)
    (hall : ∀ q, g.in_range q → g.reach q) :
    ∃ R : Graph, g.reversed = some R ∧ R.well_formed ∧
      (∀ k, R.in_range k → R.reach k) ∧
      (∀ k k', R.in_range k → R.in_range k' → k ≠ k' → R.dist k k') := by
  obtain ⟨R, subsets, hR, hwf, hnd, hsub, hsize, hreach, hacc⟩ := reversed_states h
  refine ⟨R, hR, hwf, hreach, ?_⟩
  intro k k' hk hk' hne
  obtain ⟨hk0, hk1⟩ := hk
  obtain ⟨hk0', hk1'⟩ := hk'
  lift k to ℕ using hk0 with j
  lift k' to ℕ using hk0' with j'
  rw [hsize] at hk1 hk1'
  have hj : j < subsets.length := by exact_mod_cast hk1
  have hj' : j' < subsets.length := by exact_mod_cast hk1'
  have hSj : subsets[j]? = some subsets[j] := List.getElem?_eq_getElem hj
  have hSj' : subsets[j']? = some subsets[j'] := List.getElem?_eq_getElem hj'
  have hSne : subsets[j] ≠ subsets[j'] := by
    intro heq
    apply hne
    have : j = j' := (List.Nodup.getElem_inj_iff hnd).1 heq
    rw [this]
  have key : ∀ (a b : Nat) (S T : List Int), subsets[a]? = some S → subsets[b]? = some T →
      ∀ q, q ∈ S → q ∉ T → R.dist (a : Int) (b : Int) := by
    intro a b S T ha hb q hqS hqT
    have hr : g.in_range q := by
      have := (hsub S (List.getElem?_mem ha)).2 q hqS
      exact this
    obtain ⟨u, hu⟩ := hall q hr
    refine ⟨u.reverse, ?_⟩
    have h1 : R.accepts_from (a : Int) u.reverse = true :=
      (hacc a S u.reverse ha).2 ⟨q, hqS, by rw [List.reverse_reverse]; exact hu⟩
    have h2 : R.accepts_from (b : Int) u.reverse ≠ true := by
      intro hc
      obtain ⟨q', hq', hrun⟩ := (hacc b T u.reverse hb).1 hc
      rw [List.reverse_reverse, hu] at hrun
      obtain rfl := Option.some.inj hrun
      exact hqT hq'
    rw [h1]
    exact fun hc => h2 hc.symm
  obtain ⟨q, hq | hq⟩ := sorted_ne_witness (hsub _ (List.getElem_mem hj)).1
    (hsub _ (List.getElem_mem hj')).1 hSne
  · exact key j j' _ _ hSj hSj' q hq.1 hq.2
  · exact dist_symm (key j' j _ _ hSj' hSj q hq.2 hq.1)

end Homfa

namespace Homfa

/-! ## Minimal automata of one language have the same size -/

theorem accepts_append {g : Graph} {q : Int} {u : Word}
    (h : g.run g.initial_state u = some q) (z : Word) :
    g.accepts (u ++ z) = g.accepts_from q z :=
  accepts_from_append h z

/-- An automaton whose states are all reachable and pairwise distinguishable is
no larger than any well-formed automaton that accepts the same words. -/
theorem minimal_size_le {G1 G2 : Graph} (h2 : G2.well_formed)
    (hreach : ∀ q, G1.in_range q → G1.reach q)
    (hdist : ∀ a b, G1.in_range a → G1.in_range b → a ≠ b → G1.dist a b)
    (hlang : ∀ w : Word, G1.accepts w = G2.accepts w) : G1.size ≤ G2.size := by
  have hw : ∀ q : Int, ∃ w : Word, G1.in_range q → G1.run G1.initial_state w = some q := by
    intro q
    by_cases hq : G1.in_range q
    · obtain ⟨w, hw⟩ := hreach q hq
      exact ⟨w, fun _ => hw⟩
    · exact ⟨[], fun hq' => absurd hq' hq⟩
  choose w hw using hw
  have hf : ∀ q : Int, ∃ r, G2.run G2.initial_state (w q) = some r ∧ G2.in_range r :=
    fun q => wf_run h2 (w q) h2.2.1
  choose f hf using hf
  have hinj : ∀ a ∈ G1.all_states, ∀ b ∈ G1.all_states, f a = f b → a = b := by
    intro a ha b hb hab
    have hra := (mem_all_states G1 a).1 ha
    have hrb := (mem_all_states G1 b).1 hb
    by_contra hne
    obtain ⟨z, hz⟩ := hdist a b hra hrb hne
    apply hz
    rw [← accepts_append (hw a hra) z, ← accepts_append (hw b hrb) z, hlang, hlang,
      accepts_append (hf a).1 z, accepts_append (hf b).1 z, hab]
  have hnd : (G1.all_states.map f).Nodup :=
    List.Nodup.map_on hinj (all_states_nodup G1)
  have hle := nodup_in_range_length_le G2 _ hnd (by
    intro q hq
    obtain ⟨a, -, rfl⟩ := List.mem_map.1 hq
    exact (hf a).2)
  simpa [all_states_length] using hle

end Homfa

namespace Homfa

/-! ## The table-filling loop on `example_stale_front`

The seeding loops push 80 pairs. The pair number 63 is `(15, 18)`, the two
states every state leads to on symbol 1; when it is popped, 127 pairs have been
pushed and the block of its slot is freed. The loops over the predecessors on
symbol 1 push pairs, and pair number 191, `(14, 15)`, takes the place of the
slot. From then on `qr` reads 15 in place of 18, and on symbol 0 `ql` reads 14
in place of 15: the predecessors `9` of 15 and `22` of 18 on symbol 0 are never
paired, and the pairs `(9, 22)`, `(7, 14)` and `(2, 4)` are never marked. -/

set_option maxRecDepth 100000 in
theorem stale_front_well_formed : example_stale_front.well_formed := by decide!

set_option maxRecDepth 100000 in
theorem stale_front_pruned :
    example_stale_front.removed_unreachable = some example_stale_front := by decide!

set_option maxRecDepth 100000 in
theorem stale_front_classes :
    example_stale_front.grouped_classes = some example_stale_front_classes := by decide!

set_option maxRecDepth 100000 in
theorem stale_front_minimized :
    example_stale_front.minimized = some example_stale_front_minimized := by
  unfold Graph.minimized
  rw [stale_front_pruned]
  simp only [Option.some_bind]
  unfold Graph.grouped_nondistinguishable
  rw [stale_front_classes]
  simp only [Option.some_bind]
  decide!

set_option maxRecDepth 100000 in
theorem stale_front_minimized_again :
    example_stale_front_minimized.minimized.map Graph.size = some 19 := by decide!

set_option maxRecDepth 100000 in
theorem stale_front_reversed_twice :
    (example_stale_front.reversed.bind Graph.reversed).map Graph.size = some 24 := by decide!

end Homfa

namespace Homfa

/-- C1 (determinization is language-preserving): for an NFA relation `dn` whose
listed successors are all states, and an initial set `q0n` of states (a
`std::set`, so strictly increasing), `from_nfa(q0n, Fn, dn)` returns an
automaton, and that automaton reaches a final state on a word `w` from its
initial state iff some run of the NFA on `w` from a state of `q0n` ends in a
state of `Fn`. Empty `q0n`, empty successor lists and the empty word are
included; `Fn` may be any set. -/
theorem C1_from_nfa_language_preserving (q0n Fn : List Int) (dn : NFADelta)
    (hdn : nfa_ok dn) (hq0 : subset_ok dn.length q0n) :
    ∃ g : Graph, Graph.from_nfa q0n Fn dn = some g ∧
      ∀ w : Word, g.accepts w = nfa_accepts dn q0n Fn w :=
  from_nfa_language q0n Fn hdn hq0

/-- Witness of C1: two initial states feeding a shared final state. -/
theorem C1_from_nfa_language_preserving_witness :
    ∃ g : Graph, Graph.from_nfa [0, 1] [2] [(0, [2], [2]), (1, [2], [2]), (2, [2], [2])] = some g ∧
      ∀ w : Word, g.accepts w =
        nfa_accepts [(0, [2], [2]), (1, [2], [2]), (2, [2], [2])] [0, 1] [2] w :=
  C1_from_nfa_language_preserving [0, 1] [2] [(0, [2], [2]), (1, [2], [2]), (2, [2], [2])]
    (by decide) (by decide)

end Homfa

namespace Homfa

/-- C2 (minimization preserves the accepted language) does not hold of the
code: `example_stale_front` is a well-formed automaton of 24 states that rejects
the word `0100000000`, and `minimized` returns on it the automaton
`example_stale_front_minimized`, which accepts that word. The table-filling
loop reads `ql` and `qr` through a reference to `que.front()` after `pop()`. -/
theorem C2_minimized_changes_language :
    example_stale_front.well_formed ∧
    example_stale_front.minimized = some example_stale_front_minimized ∧
    example_stale_front.accepts
      [false, true, false, false, false, false, false, false, false, false] = false ∧
    example_stale_front_minimized.accepts
      [false, true, false, false, false, false, false, false, false, false] = true :=
  ⟨stale_front_well_formed, stale_front_minimized, by decide!, by decide!⟩

end Homfa

namespace Homfa

/-- C3 (minimization merges exactly the equivalent states) does not hold of the
code. On the three-state example of the specification the states 0 and 1 are
merged and state 2 is kept apart. On `example_stale_front`, a well-formed
automaton that pruning leaves as it is, the grouping loops put the states 9 and
22 in one class, although symbol 0 leads from 9 to a final state and from 22 to
a state that is not final; both states are reachable, and the words that lead
to them in `example_stale_front` lead to one state, the state 8, in the
automaton `minimized` returns. -/
theorem C3_distinguishable_states_merged :
    example_three.grouped_classes = some [[0, 1], [2]] ∧
    example_stale_front.well_formed ∧
    example_stale_front.removed_unreachable = some example_stale_front ∧
    example_stale_front.grouped_classes = some example_stale_front_classes ∧
    [9, 22] ∈ example_stale_front_classes ∧
    example_stale_front.accepts_from 9 [false] = true ∧
    example_stale_front.accepts_from 22 [false] = false ∧
    example_stale_front.run example_stale_front.initial_state
      [true, false, false, false, false, false, false, false] = some 9 ∧
    example_stale_front.run example_stale_front.initial_state
      [false, true, false, false, false, false, false, false, false] = some 22 ∧
    example_stale_front.minimized = some example_stale_front_minimized ∧
    example_stale_front_minimized.run example_stale_front_minimized.initial_state
      [true, false, false, false, false, false, false, false] = some 8 ∧
    example_stale_front_minimized.run example_stale_front_minimized.initial_state
      [false, true, false, false, false, false, false, false, false] = some 8 :=
  ⟨by decide!, stale_front_well_formed, stale_front_pruned, stale_front_classes, by decide!,
    by decide!, by decide!, by decide!, by decide!, stale_front_minimized, by decide!,
    by decide!⟩

end Homfa

namespace Homfa

/-- C4 (reversal accepts the reversed language): for every well-formed automaton
`A`, `reversed(A)` returns an automaton that reaches a final state on `w` from
its initial state iff `A` reaches a final state on the reverse of `w`; this
covers `A` without final states and `A` whose states are all final. -/
theorem C4_reversed_language (A : Graph) (h : A.well_formed) :
    ∃ R : Graph, A.reversed = some R ∧ ∀ w : Word, R.accepts w = A.accepts w.reverse :=
  reversed_language h

/-- Witness of C4 on the three-state automaton whose states 0 and 1 lead to the
final state 2. -/
theorem C4_reversed_language_witness :
    ∃ R : Graph,
      (Graph.mk [⟨0, 2, 2, [], []⟩, ⟨1, 2, 2, [], []⟩, ⟨2, 2, 2, [0, 1, 2], [0, 1, 2]⟩]
        [] [2] 0).reversed = some R ∧
      ∀ w : Word, R.accepts w =
        (Graph.mk [⟨0, 2, 2, [], []⟩, ⟨1, 2, 2, [], []⟩, ⟨2, 2, 2, [0, 1, 2], [0, 1, 2]⟩]
          [] [2] 0).accepts w.reverse :=
  C4_reversed_language _ (by decide)

end Homfa

namespace Homfa

/-- C5 (reachability pruning keeps exactly the reachable states): for every
well-formed automaton `A`, `removed_unreachable(A)` returns an automaton `B`
all of whose states are reachable from its initial state, and the size of `B`
is the number of states of `A` reachable from the initial state of `A`: it is
the length of a duplicate-free list `R` of exactly the reachable states, and
with `U` a duplicate-free list of exactly the unreachable states of `A`,
`size(B) + |U| = size(A)`. -/
theorem C5_removed_unreachable_exact (A : Graph) (h : A.well_formed) :
    ∃ B : Graph, A.removed_unreachable = some B ∧
      (∀ q : Int, B.in_range q → B.reach q) ∧
      ∃ R U : List Int, R.Nodup ∧ (∀ q, q ∈ R ↔ A.reach q) ∧ B.size = R.length ∧
        U.Nodup ∧ (∀ q, q ∈ U ↔ A.in_range q ∧ ¬ A.reach q) ∧
        B.size + U.length = A.size := by
  obtain ⟨B, o, hB, hp⟩ := removed_unreachable_spec h
  have hRmem : ∀ q, q ∈ o.map Prod.fst ↔ A.reach q := by
    intro q
    rw [hp.dom q, List.mem_map]
    constructor
    · rintro ⟨p, hp', rfl⟩; exact ⟨p.2, hp'⟩
    · rintro ⟨i, hi⟩; exact ⟨(q, i), hi, rfl⟩
  have hRnd : (o.map Prod.fst).Nodup := hp.keys_sorted.nodup
  refine ⟨B, hB, fun q hq => prune_all_reach hp hq, o.map Prod.fst,
    A.all_states.filter (fun q => decide (q ∉ o.map Prod.fst)), hRnd, hRmem, ?_, ?_, ?_, ?_⟩
  · rw [hp.size]; simp
  · exact (all_states_nodup A).filter _
  · intro q
    simp only [List.mem_filter, mem_all_states, decide_eq_true_eq]
    rw [hRmem]
  · have hperm : (A.all_states.filter (fun q => decide (q ∈ o.map Prod.fst))).Perm
        (o.map Prod.fst) := by
      apply (List.perm_ext_iff_of_nodup ((all_states_nodup A).filter _) hRnd).2
      intro q
      simp only [List.mem_filter, mem_all_states, decide_eq_true_eq]
      constructor
      · exact fun hq => hq.2
      · intro hq
        exact ⟨reach_in_range h ((hRmem q).1 hq), hq⟩
    have hsplit := List.length_eq_length_filter_add (l := A.all_states)
      (fun q => decide (q ∈ o.map Prod.fst))
    rw [all_states_length, hperm.length_eq] at hsplit
    rw [hp.size]
    have hneg : (A.all_states.filter (fun q => decide (q ∉ o.map Prod.fst))) =
        A.all_states.filter (fun q => !(decide (q ∈ o.map Prod.fst))) := by
      congr 1; funext q; simp
    rw [hneg]
    simp only [List.length_map] at hsplit ⊢
    omega

/-- Witness of C5: an automaton with the unreachable state 1. -/
theorem C5_removed_unreachable_exact_witness :
    ∃ B : Graph,
      (Graph.mk [⟨0, 2, 2, [], []⟩, ⟨1, 2, 2, [], []⟩, ⟨2, 2, 2, [0, 1, 2], [0, 1, 2]⟩]
        [] [2] 0).removed_unreachable = some B ∧
      (∀ q : Int, B.in_range q → B.reach q) ∧
      ∃ R U : List Int, R.Nodup ∧
        (∀ q, q ∈ R ↔
          (Graph.mk [⟨0, 2, 2, [], []⟩, ⟨1, 2, 2, [], []⟩, ⟨2, 2, 2, [0, 1, 2], [0, 1, 2]⟩]
            [] [2] 0).reach q) ∧
        B.size = R.length ∧ U.Nodup ∧
        (∀ q, q ∈ U ↔
          (Graph.mk [⟨0, 2, 2, [], []⟩, ⟨1, 2, 2, [], []⟩, ⟨2, 2, 2, [0, 1, 2], [0, 1, 2]⟩]
            [] [2] 0).in_range q ∧
          ¬ (Graph.mk [⟨0, 2, 2, [], []⟩, ⟨1, 2, 2, [], []⟩, ⟨2, 2, 2, [0, 1, 2], [0, 1, 2]⟩]
            [] [2] 0).reach q) ∧
        B.size + U.length =
          (Graph.mk [⟨0, 2, 2, [], []⟩, ⟨1, 2, 2, [], []⟩, ⟨2, 2, 2, [0, 1, 2], [0, 1, 2]⟩]
            [] [2] 0).size :=
  C5_removed_unreachable_exact _ (by decide)

end Homfa

namespace Homfa

theorem built_next_state_fst {delta : DFADelta} (h : delta_ok delta) (sd : List (List Int))
    (fin : List Int) (init : Int) (b : Bool) (e : Int × Int × Int) (he : e ∈ delta) :
    (Graph.mk (built_table delta) sd fin init).next_state e.1 b =
      some (if b then e.2.2 else e.2.1) := by
  rw [built_next_state]
  obtain ⟨j, hj, hje⟩ := List.mem_iff_getElem.1 he
  have he2 : delta[j]? = some e := by rw [List.getElem?_eq_getElem hj, hje]
  rw [delta_ok_index h j e he2, vat_natCast, he2]
  rfl

/-- C6 (predecessor/successor duality of the Automaton Store): for a transition
list whose `i`-th entry carries index `i` and whose children are in range, the
constructor returns an automaton `g` of that size with the listed transitions in
which, for every state `r` in range and symbol `s`, `prev_states(r, s)` holds
every state `q` with `next_state(q, s) = r` exactly once and nothing else, its
length is the number of such `q` among `all_states`, and every `q` is a member of
`prev_states(next_state(q, s), s)`. -/
theorem C6_pred_succ_duality (init_st : Int) (final_sts : List Int) (delta : DFADelta)
    (h : delta_ok delta) :
    ∃ g : Graph, Graph.ctor init_st final_sts delta = some g ∧
      g.size = delta.length ∧
      (∀ (q : Int) (s : Bool),
        g.next_state q s = (vat delta q).map (fun e => if s then e.2.2 else e.2.1)) ∧
      (∀ (r : Int) (s : Bool), 0 ≤ r → r < (g.size : Int) →
        ∃ ps : List Int, g.prev_states r s = some ps ∧
          (∀ q : Int, ps.count q = if g.next_state q s = some r then 1 else 0) ∧
          ps.length = (g.all_states.filter (fun q => g.next_state q s = some r)).length) ∧
      (∀ (q r : Int) (s : Bool), g.next_state q s = some r →
        ∃ ps : List Int, g.prev_states r s = some ps ∧ q ∈ ps) := by
  refine ⟨_, ctor_eq_some init_st final_sts h, ?_, ?_, ?_, ?_⟩
  · simp [Graph.size, built_table_length]
  · intro q s; exact built_next_state delta _ _ _ q s
  · intro r s hr0 hr1
    have hsize : (Graph.mk (built_table delta) [] final_sts init_st).size = delta.length := by
      simp [Graph.size, built_table_length]
    rw [hsize] at hr1
    lift r to ℕ using hr0 with k
    have hk : k < delta.length := by exact_mod_cast hr1
    refine ⟨_, built_prev_states h [] final_sts init_st k hk s, ?_, ?_⟩
    · intro q
      rw [built_next_state]
      by_cases hq : (vat delta q).map (fun e => if s then e.2.2 else e.2.1) = some (k : Int)
      · rw [if_pos hq]
        exact List.count_eq_one_of_mem (filter_map_fst_nodup h _)
          ((mem_filter_map_fst h s (k : Int) q).2 hq)
      · rw [if_neg hq]
        exact List.count_eq_zero_of_not_mem
          (fun hmem => hq ((mem_filter_map_fst h s (k : Int) q).1 hmem))
    · have hall : (Graph.mk (built_table delta) [] final_sts init_st).all_states =
          delta.map (·.1) := by
        rw [delta_map_fst h]; simp [Graph.all_states, hsize]
      rw [hall, List.length_map, List.filter_map, List.length_map]
      congr 1
      apply List.filter_congr
      intro e he
      simp only [Function.comp_apply]
      rw [built_next_state_fst h [] final_sts init_st s e he]
      simp
  · intro q r s hq
    rw [built_next_state] at hq
    have hr : 0 ≤ r ∧ r < (delta.length : Int) := by
      cases hv : vat delta q with
      | none => simp [hv] at hq
      | some e =>
        obtain ⟨j, rfl, he⟩ := (vat_eq_some_iff _ _ _).1 hv
        simp only [hv, Option.map_some', Option.some.injEq] at hq
        have := h.2 e (List.getElem?_mem he)
        cases s <;> simp at hq <;> subst hq <;> [exact this.1; exact this.2]
    obtain ⟨hr0, hr1⟩ := hr
    lift r to ℕ using hr0 with k
    have hk : k < delta.length := by exact_mod_cast hr1
    exact ⟨_, built_prev_states h [] final_sts init_st k hk s,
      (mem_filter_map_fst h s (k : Int) q).2 hq⟩

/-- Witness of C6 on the three-state automaton of the equivalence example. -/
theorem C6_pred_succ_duality_witness :
    ∃ g : Graph, Graph.ctor 0 [2] [(0, 2, 2), (1, 2, 2), (2, 2, 2)] = some g ∧
      g.size = [((0 : Int), (2 : Int), (2 : Int)), (1, 2, 2), (2, 2, 2)].length ∧
      (∀ (q : Int) (s : Bool),
        g.next_state q s = (vat [((0 : Int), (2 : Int), (2 : Int)), (1, 2, 2), (2, 2, 2)] q).map
          (fun e => if s then e.2.2 else e.2.1)) ∧
      (∀ (r : Int) (s : Bool), 0 ≤ r → r < (g.size : Int) →
        ∃ ps : List Int, g.prev_states r s = some ps ∧
          (∀ q : Int, ps.count q = if g.next_state q s = some r then 1 else 0) ∧
          ps.length = (g.all_states.filter (fun q => g.next_state q s = some r)).length) ∧
      (∀ (q r : Int) (s : Bool), g.next_state q s = some r →
        ∃ ps : List Int, g.prev_states r s = some ps ∧ q ∈ ps) :=
  C6_pred_succ_duality 0 [2] [(0, 2, 2), (1, 2, 2), (2, 2, 2)] (by decide)

end Homfa

namespace Homfa

end Homfa

namespace Homfa

/-- C8 (depth layering records exact-`k` reachability): for every well-formed
automaton `A` and bound `D`, `reserve_states_at_depth(D)` succeeds, and for every
`k < D` the layer `states_at_depth(k)` is a strictly increasing (hence
duplicate-free) list of exactly the states `q` for which some word of length
exactly `k` leads from the initial state to `q`. Hence layer 0 is `[initial]`,
every layer is within `all_states`, and when both transitions of the initial
state loop back to it every layer is `[initial]`. -/
theorem C8_states_at_depth_exact (A : Graph) (h : A.well_formed) (D : Nat) :
    ∃ G : Graph, A.reserve_states_at_depth D = some G ∧
      ∀ k, k < D → ∃ L : List Int, G.states_at_depth k = some L ∧
        L.Sorted (· < ·) ∧ L.Nodup ∧
        (∀ q, q ∈ L ↔ A.exact_reach k q) ∧
        (k = 0 → L = [A.initial_state]) ∧
        (∀ q ∈ L, q ∈ A.all_states) ∧
        (A.next_state A.initial_state false = some A.initial_state →
          A.next_state A.initial_state true = some A.initial_state →
          L = [A.initial_state]) := by
  obtain ⟨G, hG, -, hlayers⟩ := reserve_states_at_depth_spec h D
  refine ⟨G, hG, ?_⟩
  intro k hk
  obtain ⟨L, hL, hs, hm⟩ := hlayers k hk
  refine ⟨L, hL, hs, hs.nodup, hm, ?_, ?_, ?_⟩
  · rintro rfl
    exact sorted_eq_singleton hs (fun q => (hm q).trans (exact_reach_zero A q))
  · intro q hq
    exact (mem_all_states A q).2 (exact_reach_in_range h ((hm q).1 hq))
  · intro h0 h1
    exact sorted_eq_singleton hs (fun q => (hm q).trans (exact_reach_self_loop h0 h1 k q))

/-- Witness of C8 on the three-state example with bound 3. -/
theorem C8_states_at_depth_exact_witness :
    ∃ G : Graph, example_three.reserve_states_at_depth 3 = some G ∧
      ∀ k, k < 3 → ∃ L : List Int, G.states_at_depth k = some L ∧
        L.Sorted (· < ·) ∧ L.Nodup ∧
        (∀ q, q ∈ L ↔ example_three.exact_reach k q) ∧
        (k = 0 → L = [example_three.initial_state]) ∧
        (∀ q ∈ L, q ∈ example_three.all_states) ∧
        (example_three.next_state example_three.initial_state false =
            some example_three.initial_state →
          example_three.next_state example_three.initial_state true =
            some example_three.initial_state →
          L = [example_three.initial_state]) :=
  C8_states_at_depth_exact example_three (by decide) 3

end Homfa

namespace Homfa

/-- C9 (dump/load round trip): for every well-formed automaton `A` whose states
are numbered by the type `State`, an `int`, so that it has at most `2 ^ 31`
states, `dump(A)` writes a text, loading that text with `from_file` classifies it as deterministic
(`is_dfa` is true when the reading loop has ended) and returns an automaton with
the same number of states, the same initial state, the same final-state set and
the same `next_state(q, s)` for every state `q` and symbol `s`, without any
renumbering. -/
theorem C9_dump_load_round_trip (A : Graph) (h : A.well_formed)
    (hint : (A.size : Int) ≤ 2147483648) :
    ∃ (text : List Char) (s : LoadState) (G : Graph), A.dump = some text ∧
      parse_file text = Except.ok s ∧ s.is_dfa = true ∧
      Graph.from_file text = Except.ok G ∧ G.size = A.size ∧
      G.initial_state = A.initial_state ∧ G.final_state_ = A.final_state_ ∧
      ∀ (q : Int) (b : Bool), G.next_state q b = A.next_state q b :=
  dump_load_round_trip h hint

/-- Witness of C9 on the three-state example. -/
theorem C9_dump_load_round_trip_witness :
    ∃ (text : List Char) (s : LoadState) (G : Graph), example_three.dump = some text ∧
      parse_file text = Except.ok s ∧ s.is_dfa = true ∧
      Graph.from_file text = Except.ok G ∧ G.size = example_three.size ∧
      G.initial_state = example_three.initial_state ∧
      G.final_state_ = example_three.final_state_ ∧
      ∀ (q : Int) (b : Bool), G.next_state q b = example_three.next_state q b :=
  C9_dump_load_round_trip example_three (by decide) (by decide)

end Homfa

namespace Homfa

/-- C10 (minimization is idempotent) does not hold of the code: on the
well-formed automaton `example_stale_front` of 24 states, `minimized` returns
the automaton `example_stale_front_minimized` of 21 states, and `minimized` on
that automaton returns an automaton of 19 states. -/
theorem C10_minimized_not_idempotent :
    example_stale_front.well_formed ∧
    example_stale_front.minimized = some example_stale_front_minimized ∧
    example_stale_front_minimized.size = 21 ∧
    example_stale_front_minimized.minimized.map Graph.size = some 19 :=
  ⟨stale_front_well_formed, stale_front_minimized, by decide!, stale_front_minimized_again⟩

end Homfa

namespace Homfa

end Homfa

namespace Homfa

/-- C12 (double reversal is language-preserving): for every minimal DFA `A`, a
well-formed automaton with as many states as `minimized(A)`, `reversed(A)`
returns an automaton `R`, `reversed(R)` returns an automaton `RR`, and `RR`
reaches a final state on exactly the bit strings on which `A` does. Nothing is
said about the numbering of the states of `RR`. -/
theorem C12_double_reversal_language (A : Graph) (h : A.well_formed)
    (_hmin : ∃ M : Graph, A.minimized = some M ∧ M.size = A.size) :
    ∃ R RR : Graph, A.reversed = some R ∧ R.reversed = some RR ∧
      ∀ w : Word, RR.accepts w = A.accepts w := by
  obtain ⟨R, hR, hacc⟩ := reversed_language h
  obtain ⟨R', hR', hwf⟩ := reversed_well_formed h
  rw [hR] at hR'
  obtain rfl := Option.some.inj hR'
  obtain ⟨RR, hRR, hacc2⟩ := reversed_language hwf
  refine ⟨R, RR, hR, hRR, ?_⟩
  intro w
  rw [hacc2 w, hacc w.reverse, List.reverse_reverse]

/-- Witness of C12 on the minimal automaton with two states: state 0 goes to
the final state 1 on both symbols, and state 1 loops. -/
theorem C12_double_reversal_language_witness :
    ∃ R RR : Graph,
      (Graph.mk [⟨0, 1, 1, [], []⟩, ⟨1, 1, 1, [0, 1], [0, 1]⟩] [] [1] 0).reversed = some R ∧
      R.reversed = some RR ∧
      ∀ w : Word, RR.accepts w =
        (Graph.mk [⟨0, 1, 1, [], []⟩, ⟨1, 1, 1, [0, 1], [0, 1]⟩] [] [1] 0).accepts w :=
  C12_double_reversal_language
    (Graph.mk [⟨0, 1, 1, [], []⟩, ⟨1, 1, 1, [0, 1], [0, 1]⟩] [] [1] 0) (by decide)
    ⟨Graph.mk [⟨0, 1, 1, [], []⟩, ⟨1, 1, 1, [0, 1], [0, 1]⟩] [] [1] 0, by decide!, by decide⟩

end Homfa

namespace Homfa

/-- C13, amended (loader classification): for every text whose matching lines
carry the numbers 0, 1, 2, ... in order and whose successor fields are `_` or
lists of numbers that `std::stoi` reads as `int`s, the reading loop of `from_file` ends without error having
read one entry per matching line (the loaded successor lists, the positions of
the lines marked initial and of the lines marked final), and treats the input as
deterministic iff every successor list read has exactly one element and exactly
one line is marked initial. Otherwise the outcome of `from_file` is that of
`from_nfa` on the set of marked-initial states, the set of marked-final states
and the successor lists read. In the deterministic case, when every written
successor is below the number of matching lines, `from_file` returns an
automaton with one state per matching line, the marked line as initial state,
the marked-final states as final states and the written successors as
transitions, without renumbering. -/
theorem C13_loader_classification (content : List Char)
    (hseq : ∀ (i : Nat) (m : LineMatch), (matching_lines content)[i]? = some m →
      stoi m.number = Except.ok (i : Int))
    (hparse : ∀ m ∈ matching_lines content,
      ∃ a b, load_comma_separated_states m.field0 = Except.ok a ∧
        load_comma_separated_states m.field1 = Except.ok b) :
    ∃ s : LoadState, parse_file content = Except.ok s ∧
      s.delta.length = (matching_lines content).length ∧
      (∀ (i : Nat) (m : LineMatch), (matching_lines content)[i]? = some m →
        ∃ q0s q1s : List Int, load_comma_separated_states m.field0 = Except.ok q0s ∧
          load_comma_separated_states m.field1 = Except.ok q1s ∧
          s.delta[i]? = some ((i : Int), q0s, q1s)) ∧
      s.init_sts.Sorted (· < ·) ∧
      (∀ q : Int, q ∈ s.init_sts ↔ ∃ (i : Nat) (m : LineMatch),
        (matching_lines content)[i]? = some m ∧ m.initial = true ∧ q = (i : Int)) ∧
      s.final_sts.Sorted (· < ·) ∧
      (∀ q : Int, q ∈ s.final_sts ↔ ∃ (i : Nat) (m : LineMatch),
        (matching_lines content)[i]? = some m ∧ m.final = true ∧ q = (i : Int)) ∧
      (s.is_dfa = true ↔
        (∀ e ∈ s.delta, e.2.1.length = 1 ∧ e.2.2.length = 1) ∧
        ((matching_lines content).filter (fun m => m.initial)).length = 1) ∧
      (s.is_dfa = false →
        Graph.from_file content =
          uncaught (Graph.from_nfa s.init_sts s.final_sts s.delta)) ∧
      (s.is_dfa = true →
        (∀ e ∈ s.delta, (∀ x ∈ e.2.1, 0 ≤ x ∧ x < (s.delta.length : Int)) ∧
          (∀ x ∈ e.2.2, 0 ≤ x ∧ x < (s.delta.length : Int))) →
        ∃ G : Graph, Graph.from_file content = Except.ok G ∧
          G.size = (matching_lines content).length ∧
          s.init_sts = [G.initial_state] ∧ G.final_state_ = s.final_sts ∧
          ∀ (i : Nat) (q0s q1s : List Int), s.delta[i]? = some ((i : Int), q0s, q1s) →
            ∃ n0 n1 : Int, q0s = [n0] ∧ q1s = [n1] ∧
              G.next_state (i : Int) false = some n0 ∧
              G.next_state (i : Int) true = some n1) :=
  from_file_classification content hseq hparse

/-- Witness of the amended C13 on the text with two lines marked initial: it is
not treated as deterministic and is handed to `from_nfa` with the initial set
`{0, 1}`, the final set `{2}` and the three successor entries read. -/
theorem C13_loader_classification_witness :
    ∃ s : LoadState, parse_file text_two_initial = Except.ok s ∧
      s.init_sts = [0, 1] ∧ s.final_sts = [2] ∧
      s.delta = [(0, [2], [2]), (1, [2], [2]), (2, [2], [2])] ∧ s.is_dfa = false ∧
      Graph.from_file text_two_initial =
        uncaught (Graph.from_nfa s.init_sts s.final_sts s.delta) := by
  have hms : matching_lines text_two_initial =
      [⟨true, ['0'], false, ['2'], ['2']⟩, ⟨true, ['1'], false, ['2'], ['2']⟩,
        ⟨false, ['2'], true, ['2'], ['2']⟩] := by decide
  obtain ⟨s, hp, -, -, -, -, -, -, -, hnfa, -⟩ :=
    C13_loader_classification text_two_initial
      (by
        intro i m hm
        rw [hms] at hm
        rcases i with _ | _ | _ | i
        · obtain rfl : (⟨true, ['0'], false, ['2'], ['2']⟩ : LineMatch) = m := by
            simpa using hm
          decide
        · obtain rfl : (⟨true, ['1'], false, ['2'], ['2']⟩ : LineMatch) = m := by
            simpa using hm
          decide
        · obtain rfl : (⟨false, ['2'], true, ['2'], ['2']⟩ : LineMatch) = m := by
            simpa using hm
          decide
        · simp at hm)
      (by
        intro m hm
        rw [hms] at hm
        simp only [List.mem_cons, List.mem_singleton, List.not_mem_nil, or_false] at hm
        rcases hm with rfl | rfl | rfl <;> exact ⟨[2], [2], by decide, by decide⟩)
  have hs : parse_file text_two_initial = Except.ok
      ⟨[0, 1], [2], [(0, [2], [2]), (1, [2], [2]), (2, [2], [2])], false⟩ := by decide
  rw [hs] at hp
  injection hp with hp
  subst hp
  exact ⟨_, hs, rfl, rfl, rfl, rfl, hnfa rfl⟩

/-- Counterexample to C13 as stated: the text of the single line `>0 1 1` is a
matching line numbered 0 and marked initial whose two successor lists have one
element each, so `from_file` treats it as deterministic; the written successor 1
is not a state, the constructor's bounds-checked access throws, and `from_file`
returns no automaton. -/
theorem C13_loader_classification_counterexample :
    getline_all '\n' text_successor_out_of_range [] = [">0\t1\t1".toList] ∧
    matching_lines text_successor_out_of_range =
      [⟨true, ['0'], false, ['1'], ['1']⟩] ∧
    stoi ['0'] = Except.ok 0 ∧
    load_comma_separated_states ['1'] = Except.ok [1] ∧
    parse_file text_successor_out_of_range =
      Except.ok ⟨[0], [], [(0, [1], [1])], true⟩ ∧
    Graph.from_file text_successor_out_of_range =
      Except.error LoadError.uncaught_exception :=
  ⟨by decide, by decide, by decide, by decide, by decide, by decide⟩

end Homfa

namespace Homfa

/-- C14 (loader numbering check): on the lines of the text that match the
grammar, counted from 0 without the skipped lines, (1) when the number written
on some matching line is not its position, `from_file` ends with an error and
returns no automaton; (2) at the first such line, when the successor fields
read up to it are lists of numbers and the written number is an `int`, the
error is the one of the numbering check and carries the written number and the
expected one; (3) at the first such line, when the successor fields read up to
it are lists of numbers and the written number is not an `int`, the load ends
with the exception of `std::stoi`, which nothing catches; (4) when every
matching line carries its position, `from_file` never ends with the error of
the numbering check. -/
theorem C14_loader_numbering_check (content : List Char) :
    ((∃ (i : Nat) (m : LineMatch), (matching_lines content)[i]? = some m ∧
        stoi m.number ≠ Except.ok (i : Int)) →
      (∃ e, Graph.from_file content = Except.error e) ∧
      ∀ G, Graph.from_file content ≠ Except.ok G) ∧
    (∀ (i : Nat) (m : LineMatch) (w : Int), (matching_lines content)[i]? = some m →
      stoi m.number = Except.ok w → w ≠ (i : Int) →
      (∀ (j : Nat) (m' : LineMatch), j < i → (matching_lines content)[j]? = some m' →
        stoi m'.number = Except.ok (j : Int)) →
      (∀ (j : Nat) (m' : LineMatch), j ≤ i → (matching_lines content)[j]? = some m' →
        ∃ a b, load_comma_separated_states m'.field0 = Except.ok a ∧
          load_comma_separated_states m'.field1 = Except.ok b) →
      Graph.from_file content =
        Except.error (LoadError.invalid_state_number w (i : Int))) ∧
    (∀ (i : Nat) (m : LineMatch) (err : StoiError), (matching_lines content)[i]? = some m →
      stoi m.number = Except.error err →
      (∀ (j : Nat) (m' : LineMatch), j < i → (matching_lines content)[j]? = some m' →
        stoi m'.number = Except.ok (j : Int)) →
      (∀ (j : Nat) (m' : LineMatch), j ≤ i → (matching_lines content)[j]? = some m' →
        ∃ a b, load_comma_separated_states m'.field0 = Except.ok a ∧
          load_comma_separated_states m'.field1 = Except.ok b) →
      Graph.from_file content = Except.error LoadError.uncaught_exception) ∧
    ((∀ (i : Nat) (m : LineMatch), (matching_lines content)[i]? = some m →
        stoi m.number = Except.ok (i : Int)) →
      ∀ (w q : Int),
        Graph.from_file content ≠ Except.error (LoadError.invalid_state_number w q)) :=
  from_file_numbering content

/-- Witness of C14: the text whose second matching line is numbered 2 ends the
load with the error of the numbering check (written 2, expected 1); the text
whose second matching line is numbered 4294967297 ends the load with the
exception of `std::stoi`; the text numbered 0, 1, 2 does not end with the error
of the numbering check. -/
theorem C14_loader_numbering_check_witness :
    ((∃ e, Graph.from_file text_out_of_sequence = Except.error e) ∧
      ∀ G, Graph.from_file text_out_of_sequence ≠ Except.ok G) ∧
    Graph.from_file text_out_of_sequence =
      Except.error (LoadError.invalid_state_number 2 1) ∧
    Graph.from_file text_number_not_int = Except.error LoadError.uncaught_exception ∧
    ∀ (w q : Int),
      Graph.from_file text_in_sequence ≠ Except.error (LoadError.invalid_state_number w q) := by
  have hout : matching_lines text_out_of_sequence =
      [⟨true, ['0'], false, ['2'], ['2']⟩, ⟨false, ['2'], false, ['2'], ['2']⟩] := by decide
  have hbig : matching_lines text_number_not_int =
      [⟨true, ['0'], false, ['0'], ['0']⟩,
        ⟨false, "4294967297".toList, false, ['0'], ['0']⟩] := by decide
  have hin : matching_lines text_in_sequence =
      [⟨true, ['0'], false, ['2'], ['2']⟩, ⟨false, ['1'], false, ['2'], ['2']⟩,
        ⟨false, ['2'], true, ['2'], ['2']⟩] := by decide
  refine ⟨(C14_loader_numbering_check text_out_of_sequence).1
      ⟨1, ⟨false, ['2'], false, ['2'], ['2']⟩, by rw [hout]; rfl, by decide⟩,
    (C14_loader_numbering_check text_out_of_sequence).2.1 1
      ⟨false, ['2'], false, ['2'], ['2']⟩ 2 (by rw [hout]; rfl) (by decide) (by decide) ?_ ?_,
    (C14_loader_numbering_check text_number_not_int).2.2.1 1
      ⟨false, "4294967297".toList, false, ['0'], ['0']⟩ StoiError.out_of_range
      (by rw [hbig]; rfl) (by decide) ?_ ?_,
    (C14_loader_numbering_check text_in_sequence).2.2.2 ?_⟩
  · intro j m' hj hm'
    obtain rfl : j = 0 := by omega
    rw [hout] at hm'
    obtain rfl : (⟨true, ['0'], false, ['2'], ['2']⟩ : LineMatch) = m' := by simpa using hm'
    decide
  · intro j m' hj hm'
    rw [hout] at hm'
    rcases j with _ | _ | j
    · obtain rfl : (⟨true, ['0'], false, ['2'], ['2']⟩ : LineMatch) = m' := by simpa using hm'
      exact ⟨[2], [2], by decide, by decide⟩
    · obtain rfl : (⟨false, ['2'], false, ['2'], ['2']⟩ : LineMatch) = m' := by simpa using hm'
      exact ⟨[2], [2], by decide, by decide⟩
    · omega
  · intro j m' hj hm'
    obtain rfl : j = 0 := by omega
    rw [hbig] at hm'
    obtain rfl : (⟨true, ['0'], false, ['0'], ['0']⟩ : LineMatch) = m' := by simpa using hm'
    decide
  · intro j m' hj hm'
    rw [hbig] at hm'
    rcases j with _ | _ | j
    · obtain rfl : (⟨true, ['0'], false, ['0'], ['0']⟩ : LineMatch) = m' := by simpa using hm'
      exact ⟨[0], [0], by decide, by decide⟩
    · obtain rfl : (⟨false, "4294967297".toList, false, ['0'], ['0']⟩ : LineMatch) = m' := by
        simpa using hm'
      exact ⟨[0], [0], by decide, by decide⟩
    · omega
  · intro i m hm
    rw [hin] at hm
    rcases i with _ | _ | _ | i
    · obtain rfl : (⟨true, ['0'], false, ['2'], ['2']⟩ : LineMatch) = m := by simpa using hm
      decide
    · obtain rfl : (⟨false, ['1'], false, ['2'], ['2']⟩ : LineMatch) = m := by simpa using hm
      decide
    · obtain rfl : (⟨false, ['2'], true, ['2'], ['2']⟩ : LineMatch) = m := by simpa using hm
      decide
    · simp at hm

end Homfa

namespace Homfa

/-- C15 (depth accessor bounds): `reserve_states_at_depth(D)` returns on every
well-formed automaton; whenever it returns, exactly `D` layers are stored,
whatever layers the automaton held before the call, so `states_at_depth(k)`
succeeds for every `k < D` and fails for every `k >= D`; on an automaton that
comes from the constructor, for which `reserve_states_at_depth` was never
called, `states_at_depth(k)` fails for every `k`. -/
theorem C15_depth_accessor_bounds (A : Graph) (D : Nat) :
    (A.well_formed → ∃ G : Graph, A.reserve_states_at_depth D = some G) ∧
    (∀ G : Graph, A.reserve_states_at_depth D = some G →
      G.states_at_depth_.length = D ∧
      (∀ k, k < D → ∃ L, G.states_at_depth k = some L) ∧
      (∀ k, D ≤ k → G.states_at_depth k = none)) ∧
    (∀ (init_st : Int) (final_sts : List Int) (delta : DFADelta),
      Graph.ctor init_st final_sts delta = some A → ∀ k, A.states_at_depth k = none) := by
  refine ⟨?_, ?_, ?_⟩
  · intro h
    obtain ⟨G, hG, -⟩ := reserve_states_at_depth_spec h D
    exact ⟨G, hG⟩
  · intro G hG
    have hlen := (reserve_states_at_depth_length hG).1
    refine ⟨hlen, ?_, ?_⟩
    · intro k hk
      exact (states_at_depth_bounds G k).1 (by rw [hlen]; exact hk)
    · intro k hk
      exact (states_at_depth_bounds G k).2 (by rw [hlen]; exact hk)
  · intro init_st final_sts delta h k
    exact (states_at_depth_bounds A k).2 (by rw [ctor_states_at_depth h]; exact Nat.zero_le k)

/-- Witness of C15: on the three-state example holding three layers of an
earlier call, `reserve_states_at_depth(1)` leaves one layer; the example as the
constructor builds it has no layer. -/
theorem C15_depth_accessor_bounds_witness :
    ((Graph.mk example_three.table_ [[0], [2], [2]] [2] 0).reserve_states_at_depth 1 =
        some (Graph.mk example_three.table_ [[0]] [2] 0) ∧
      (Graph.mk example_three.table_ [[0]] [2] 0).states_at_depth_.length = 1 ∧
      (∀ k, k < 1 → ∃ L, (Graph.mk example_three.table_ [[0]] [2] 0).states_at_depth k = some L) ∧
      (∀ k, 1 ≤ k → (Graph.mk example_three.table_ [[0]] [2] 0).states_at_depth k = none)) ∧
    (Graph.ctor 0 [2] [(0, 2, 2), (1, 2, 2), (2, 2, 2)] = some example_three ∧
      ∀ k, example_three.states_at_depth k = none) :=
  ⟨⟨by decide,
    (C15_depth_accessor_bounds (Graph.mk example_three.table_ [[0], [2], [2]] [2] 0) 1).2.1
      (Graph.mk example_three.table_ [[0]] [2] 0) (by decide)⟩,
   ⟨by decide,
    (C15_depth_accessor_bounds example_three 0).2.2 0 [2] [(0, 2, 2), (1, 2, 2), (2, 2, 2)]
      (by decide)⟩⟩

end Homfa

namespace Homfa

/-- C16 (subset memoization in the determinizer): for every in-range NFA
`(q0n, Fn, dn)`, `from_nfa` returns an automaton `G` whose states stand, one
state per subset, for the distinct subsets reachable from `q0n` under the
subset-successor maps (the empty subset too when it is reached): with `subsets`
the list of these subsets, each a set of states, in the order of their ids,
state `k` goes on symbol `b` to the state of the subset of the `b`-successors
of the members of `subsets[k]`, and it is final iff `subsets[k]` holds a state
of `Fn`. The ids are assigned in first-seen order: reading, row by row, each
state and its two successors, the ids occur for the first time in the order
0, 1, 2, ...; the initial set `q0n` has id 0 and the initial state of `G` is
state 0. -/
theorem C16_subset_memoization (q0n Fn : List Int) (dn : NFADelta) (hdn : nfa_ok dn)
    (hq0 : subset_ok dn.length q0n) :
    ∃ (G : Graph) (subsets : List (List Int)), Graph.from_nfa q0n Fn dn = some G ∧
      subsets.Nodup ∧ (∀ S ∈ subsets, subset_ok dn.length S) ∧ G.size = subsets.length ∧
      (∀ S, S ∈ subsets ↔ ∃ w : Word, subset_run dn q0n w = some S) ∧
      subsets[0]? = some q0n ∧ G.initial_state = 0 ∧
      (∀ (k : Nat) (S : List Int), subsets[k]? = some S → ∀ b : Bool,
        ∃ (S' : List Int) (k' : Nat), subset_run dn S [b] = some S' ∧
          (∀ y, y ∈ S' ↔ ∃ q ∈ S, y ∈ nfa_next dn q b) ∧
          subsets[k']? = some S' ∧ G.next_state (k : Int) b = some (k' : Int)) ∧
      (∀ (k : Nat) (S : List Int), subsets[k]? = some S →
        G.is_final_state (k : Int) = S.any (fun q => set_contains Fn q)) ∧
      first_seen G.requests = G.all_states :=
  from_nfa_subsets q0n Fn hdn hq0

/-- Witness of C16 on the NFA over the states 0, 1, 2 with 0 and 1 initial, both
going to 2 on both symbols, and 2 final with loops on both symbols: the result
has exactly two states, the non-final state 0 going to state 1 on both symbols
and the final state 1 looping on both symbols. -/
theorem C16_subset_memoization_witness :
    Graph.from_nfa [0, 1] [2] [(0, [2], [2]), (1, [2], [2]), (2, [2], [2])] =
      some (Graph.mk [⟨0, 1, 1, [], []⟩, ⟨1, 1, 1, [0, 1], [0, 1]⟩] [] [1] 0) ∧
    ∃ (G : Graph) (subsets : List (List Int)),
      Graph.from_nfa [0, 1] [2] [(0, [2], [2]), (1, [2], [2]), (2, [2], [2])] = some G ∧
      subsets.Nodup ∧ (∀ S ∈ subsets, subset_ok 3 S) ∧ G.size = subsets.length ∧
      (∀ S, S ∈ subsets ↔ ∃ w : Word,
        subset_run [(0, [2], [2]), (1, [2], [2]), (2, [2], [2])] [0, 1] w = some S) ∧
      subsets[0]? = some [0, 1] ∧ G.initial_state = 0 ∧
      (∀ (k : Nat) (S : List Int), subsets[k]? = some S → ∀ b : Bool,
        ∃ (S' : List Int) (k' : Nat),
          subset_run [(0, [2], [2]), (1, [2], [2]), (2, [2], [2])] S [b] = some S' ∧
          (∀ y, y ∈ S' ↔
            ∃ q ∈ S, y ∈ nfa_next [(0, [2], [2]), (1, [2], [2]), (2, [2], [2])] q b) ∧
          subsets[k']? = some S' ∧ G.next_state (k : Int) b = some (k' : Int)) ∧
      (∀ (k : Nat) (S : List Int), subsets[k]? = some S →
        G.is_final_state (k : Int) = S.any (fun q => set_contains [2] q)) ∧
      first_seen G.requests = G.all_states :=
  ⟨by decide,
   C16_subset_memoization [0, 1] [2] [(0, [2], [2]), (1, [2], [2]), (2, [2], [2])]
     (by decide) (by decide)⟩

end Homfa

namespace Homfa

/-- C17, amended (pruning relabels in increasing order of the old ids): for
every well-formed automaton `A`, `removed_unreachable(A)` returns an automaton
`P` whose state `k` stands for the `k`-th smallest reachable state of `A`: with
`R` the increasing list of the reachable states of `A`, `P` has `R.length`
states, the transitions and the final status of `R[k]` are those of state `k`
of `P`, and the initial state of `P` is the position of the initial state of `A`
in `R`. So the initial state of `P` is state 0 exactly when no reachable state
of `A` has a smaller id than the initial state of `A`. -/
theorem C17_relabel_in_increasing_order (A : Graph) (h : A.well_formed) :
    ∃ (P : Graph) (R : List Int), A.removed_unreachable = some P ∧
      R.Sorted (· < ·) ∧ (∀ q, q ∈ R ↔ A.reach q) ∧ P.size = R.length ∧
      (∀ (k : Nat) (q : Int), R[k]? = some q →
        (∀ b : Bool, ∃ (q' : Int) (k' : Nat), A.next_state q b = some q' ∧
          R[k']? = some q' ∧ P.next_state (k : Int) b = some (k' : Int)) ∧
        P.is_final_state (k : Int) = A.is_final_state q ∧
        (q = A.initial_state → P.initial_state = (k : Int))) ∧
      (P.initial_state = 0 ↔ ∀ q, A.reach q → A.initial_state ≤ q) :=
  prune_sorted_relabel h

/-- Witness of the amended C17 on the two-state automaton whose initial state
is state 1. -/
theorem C17_relabel_in_increasing_order_witness :
    ∃ (P : Graph) (R : List Int), example_init_one.removed_unreachable = some P ∧
      R.Sorted (· < ·) ∧ (∀ q, q ∈ R ↔ example_init_one.reach q) ∧ P.size = R.length ∧
      (∀ (k : Nat) (q : Int), R[k]? = some q →
        (∀ b : Bool, ∃ (q' : Int) (k' : Nat), example_init_one.next_state q b = some q' ∧
          R[k']? = some q' ∧ P.next_state (k : Int) b = some (k' : Int)) ∧
        P.is_final_state (k : Int) = example_init_one.is_final_state q ∧
        (q = example_init_one.initial_state → P.initial_state = (k : Int))) ∧
      (P.initial_state = 0 ↔
        ∀ q, example_init_one.reach q → example_init_one.initial_state ≤ q) :=
  C17_relabel_in_increasing_order example_init_one (by decide)

/-- Counterexample to C17 as stated: in the well-formed two-state automaton
whose initial state 1 goes to state 0, the traversal discovers state 1 first and
state 0 second, yet `removed_unreachable` keeps both ids: the initial state of
the result is state 1, not state 0. -/
theorem C17_relabel_order_counterexample :
    example_init_one.well_formed ∧
    ∃ P : Graph, example_init_one.removed_unreachable = some P ∧
      P.initial_state = 1 ∧ P.initial_state ≠ 0 ∧
      P.next_state 1 false = some 0 ∧ P.next_state 0 false = some 0 :=
  ⟨by decide, example_init_one, by decide, by decide, by decide, by decide, by decide⟩

end Homfa

namespace Homfa

/-- C18 (determinization terminates with a bounded result): for every NFA
relation `dn` over `N = dn.size()` states whose successors are all states, every
initial set `q0n` of states and every set `Fn`, the worklist loop of `from_nfa`
ends with an empty queue, in the same state of its variables for every number of
iterations allowed from `2 * 2 ^ N + 1` on (it pops subsets it has already
visited and skips them), and `from_nfa` returns an automaton with at most
`2 ^ N` states. -/
theorem C18_from_nfa_terminates_bounded (q0n Fn : List Int) (dn : NFADelta)
    (hdn : nfa_ok dn) (hq0 : subset_ok dn.length q0n) :
    (∃ s : NfaLoop, s.que = [] ∧ ∀ fuel, 2 * 2 ^ dn.length + 1 ≤ fuel →
      from_nfa_loop Fn dn fuel
        { st_map := [], df := [], Ff := [], visited := [], que := [q0n] } = some s) ∧
    ∃ g : Graph, Graph.from_nfa q0n Fn dn = some g ∧ g.size ≤ 2 ^ dn.length :=
  from_nfa_total q0n Fn hdn hq0

/-- Witness of C18 on the NFA with two initial states feeding a shared final
state. -/
theorem C18_from_nfa_terminates_bounded_witness :
    (∃ s : NfaLoop, s.que = [] ∧ ∀ fuel, 2 * 2 ^ 3 + 1 ≤ fuel →
      from_nfa_loop [2] [(0, [2], [2]), (1, [2], [2]), (2, [2], [2])] fuel
        { st_map := [], df := [], Ff := [], visited := [], que := [[0, 1]] } = some s) ∧
    ∃ g : Graph,
      Graph.from_nfa [0, 1] [2] [(0, [2], [2]), (1, [2], [2]), (2, [2], [2])] = some g ∧
      g.size ≤ 2 ^ 3 :=
  C18_from_nfa_terminates_bounded [0, 1] [2] [(0, [2], [2]), (1, [2], [2]), (2, [2], [2])]
    (by decide) (by decide)

end Homfa

namespace Homfa

/-- C19 (pruning is the identity on fully reachable automata): for every
well-formed automaton `A` in which every state is reachable from the initial
state, `removed_unreachable(A)` returns an automaton with the same number of
states, the same initial state, the same final-state set and the same
`next_state(q, s)` for every `q` and `s` (state ids are not permuted);
consequently, for every well-formed `A`, pruning `removed_unreachable(A)` again
returns an automaton equal to it in the same sense. -/
theorem C19_pruning_identity_on_reachable (A : Graph) (h : A.well_formed) :
    ((∀ q, A.in_range q → A.reach q) →
      ∃ P : Graph, A.removed_unreachable = some P ∧ P.size = A.size ∧
        P.initial_state = A.initial_state ∧ P.final_state_ = A.final_state_ ∧
        ∀ (q : Int) (b : Bool), P.next_state q b = A.next_state q b) ∧
    (∃ P PP : Graph, A.removed_unreachable = some P ∧ P.removed_unreachable = some PP ∧
      PP.size = P.size ∧ PP.initial_state = P.initial_state ∧
      PP.final_state_ = P.final_state_ ∧
      ∀ (q : Int) (b : Bool), PP.next_state q b = P.next_state q b) := by
  refine ⟨?_, prune_idempotent h⟩
  intro hall
  obtain ⟨P, hP, -, h1, h2, h3, h4⟩ := prune_fully_reachable h hall
  exact ⟨P, hP, h1, h2, h3, h4⟩

/-- Witness of C19 on the two-state automaton whose initial state is state 1:
both states are reachable, and pruning keeps state 1 initial. -/
theorem C19_pruning_identity_on_reachable_witness :
    (∃ P : Graph, example_init_one.removed_unreachable = some P ∧
        P.size = example_init_one.size ∧
        P.initial_state = example_init_one.initial_state ∧
        P.final_state_ = example_init_one.final_state_ ∧
        ∀ (q : Int) (b : Bool), P.next_state q b = example_init_one.next_state q b) ∧
    (∃ P PP : Graph, example_init_one.removed_unreachable = some P ∧
      P.removed_unreachable = some PP ∧
      PP.size = P.size ∧ PP.initial_state = P.initial_state ∧
      PP.final_state_ = P.final_state_ ∧
      ∀ (q : Int) (b : Bool), PP.next_state q b = P.next_state q b) :=
  ⟨(C19_pruning_identity_on_reachable example_init_one (by decide)).1 (by
      intro q hq
      have hq' : q = 1 ∨ q = 0 := by
        obtain ⟨h0, h1⟩ := hq
        have h2 : q < 2 := h1
        omega
      rcases hq' with rfl | rfl
      · exact ⟨[], rfl⟩
      · exact ⟨[false], by decide⟩),
   (C19_pruning_identity_on_reachable example_init_one (by decide)).2⟩

end Homfa

namespace Homfa

/-- C20 (the reversal of a fully reachable automaton is minimal) does not hold
of the code in its part on `minimized`: on the well-formed automaton
`example_stale_front`, reversing twice returns an automaton of 24 states and
`minimized` returns one of 21 states. -/
theorem C20_double_reversal_size_differs :
    example_stale_front.well_formed ∧
    (example_stale_front.reversed.bind Graph.reversed).map Graph.size = some 24 ∧
    example_stale_front.minimized.map Graph.size = some 21 := by
  refine ⟨stale_front_well_formed, stale_front_reversed_twice, ?_⟩
  rw [stale_front_minimized]
  decide!

end Homfa
